import Mathlib

/-!
Web_Gee: the geecache engine and the router of gee.

A shallow embedding of the cache engine and of the route trie of the repository:

* `geecache/lru/lru.go`: the size-bounded LRU cache (`lru.Cache`);
* `geecache/consistenthash/consistenthash.go`: the consistent-hashing ring
  (`consistenthash.Map`);
* `geecache/singleflight/singleflight.go`: the coalescing of calls
  (`singleflight.Group`), in sequential executions;
* `geecache/geecache.go` and `geecache/cache.go`: the named cache
  (`geecache.Group`) with its loader and its peers;
* `geecache/http.go`: the pool of peers (`geecache.HTTPPool`), its handler and
  the URL its clients request;
* `gee/trie.go` and `gee/router.go`: the trie of route patterns (`gee.node`) and
  the router (`gee.router`).

Conventions of the embedding.

* A Go `string` is a Lean `String`; `len(s)` is `s.utf8ByteSize`.
* A Go `map[K]V` is an association list with at most one pair per key
  (`GoMap.get`, `GoMap.set`, `GoMap.delete`).
* A `*list.Element` is a natural number (the address of the element) and the
  `container/list` list is the sequence of its elements, front first.
* `int64`/`int` quantities are integers; they are byte counts of data that is
  resident in memory, so no arithmetic in the modelled code can wrap.
* A loop that may fail to terminate takes a bound on its number of iterations
  (`fuel`) and yields `none` when the bound is exhausted.
* The collaborators of a group (its getter, its peer picker, its peers) are
  functions of the calls made so far, and the group records the calls it makes.
* A tree of pointers without sharing (the trie) is a tree of values, and a
  method that modifies a node yields the modified tree.
* Functions of the Go library (`sort`, `strconv`, `strings`, `net/url`,
  `net/http`) are defined by what the code relies on.
-/

namespace GoMap

variable {α β : Type}

/-- The map read `m[a]` with the comma-ok idiom. -/
def get [DecidableEq α] : List (α × β) → α → Option β
  | [], _ => none
  | (k, v) :: m, a => if k = a then some v else get m a

/-- The builtin `delete(m, a)`. -/
def delete [DecidableEq α] (m : List (α × β)) (a : α) : List (α × β) :=
  m.filter (fun kv => decide (kv.1 ≠ a))

/-- The map write `m[a] = b`. -/
def set [DecidableEq α] (m : List (α × β)) (a : α) (b : β) : List (α × β) :=
  (a, b) :: delete m a

end GoMap

namespace lru

/-- The interface `Value`: a cached value reports the memory it occupies through
`Len()`.  Both implementations of the repository (`String` of lru_test.go and
`ByteView` of geecache) are byte strings whose `Len()` is their length. -/
structure Value where
  data : String
deriving DecidableEq, Repr

/-- The method `Len` of a value. -/
def Value.Len (v : Value) : Int := v.data.utf8ByteSize

/-- The struct `entry`, the payload of a list element. -/
structure entry where
  key : String
  value : Value
deriving DecidableEq, Repr

/-- A `list.Element` holding an `*entry`: `ptr` is the address of the element. -/
structure Element where
  ptr : Nat
  Value : entry
deriving DecidableEq, Repr

/-- The struct `Cache`.  `OnEvicted` tells whether the callback is non-nil, and
`calls` records the arguments of every invocation of the callback so far, oldest
first.  `nextPtr` is the address the next allocated list element receives. -/
structure Cache where
  maxBytes : Int
  nbytes : Int
  ll : List Element
  cache : List (String × Nat)
  OnEvicted : Bool
  calls : List (String × Value)
  nextPtr : Nat
deriving DecidableEq, Repr

/-- The bytes an entry accounts for: `int64(len(kv.key)) + int64(kv.value.Len())`. -/
def entry.size (kv : entry) : Int := (kv.key.utf8ByteSize : Int) + kv.value.Len

/-- The element of the list with address `p`, if it is on the list. -/
def deref (l : List Element) (p : Nat) : Option Element :=
  l.find? (fun e => decide (e.ptr = p))

/-- The method `list.Remove`: the list without the element at address `p`. -/
def Remove (l : List Element) (p : Nat) : List Element :=
  l.filter (fun e => decide (e.ptr ≠ p))

/-- The method `list.MoveToFront`: a no-op when the element is not on the list. -/
def MoveToFront (l : List Element) (p : Nat) : List Element :=
  match deref l p with
  | some e => e :: Remove l p
  | none => l

/-- The assignment `kv.value = value` through the element at address `p`. -/
def setValue (l : List Element) (p : Nat) (value : Value) : List Element :=
  l.map (fun e => if e.ptr = p then { e with Value := { e.Value with value := value } } else e)

/-- The constructor `New`. -/
def New (maxBytes : Int) (onEvicted : Bool) : Cache :=
  { maxBytes := maxBytes, nbytes := 0, ll := [], cache := [],
    OnEvicted := onEvicted, calls := [], nextPtr := 0 }

/-- The method `RemoveOldest`. -/
def RemoveOldest (c : Cache) : Cache :=
  match c.ll.getLast? with
  | some ele =>
    { c with
      ll := Remove c.ll ele.ptr
      cache := GoMap.delete c.cache ele.Value.key
      nbytes := c.nbytes - ele.Value.size
      calls := if c.OnEvicted then c.calls ++ [(ele.Value.key, ele.Value.value)] else c.calls }
  | none => c

/-- The if/else of `Add` (lines 39-49): update of a resident key or insertion of
a new one, before the eviction loop.  An element the index points to is always
on the list in a cache built by `New` and the methods; the model leaves the cache
unchanged otherwise. -/
def Add.store (c : Cache) (key : String) (value : Value) : Cache :=
  match GoMap.get c.cache key with
  | some p =>
    match deref c.ll p with
    | some ele =>
      { c with
        ll := setValue (MoveToFront c.ll p) p value
        nbytes := c.nbytes + (value.Len - ele.Value.value.Len) }
    | none => c
  | none =>
    { c with
      ll := { ptr := c.nextPtr, Value := { key := key, value := value } } :: c.ll
      cache := GoMap.set c.cache key c.nextPtr
      nbytes := c.nbytes + ((key.utf8ByteSize : Int) + value.Len)
      nextPtr := c.nextPtr + 1 }

/-- The eviction loop of `Add` (lines 51-55), run for at most `fuel` tests of
its condition. -/
def Add.evict : Nat → Cache → Option Cache
  | 0, _ => none
  | fuel + 1, c =>
    if c.maxBytes ≠ 0 ∧ c.maxBytes < c.nbytes then Add.evict fuel (RemoveOldest c)
    else some c

/-- The method `Add`. -/
def Add (fuel : Nat) (c : Cache) (key : String) (value : Value) : Option Cache :=
  Add.evict fuel (Add.store c key value)

/-- The method `Get`: the cache afterwards and the result, `some v` for
`(v, true)` and `none` for the not-found result.  As in `Add.store`, the case of
an index entry whose element is not on the list does not arise in a cache built
by `New` and the methods. -/
def Get (c : Cache) (key : String) : Cache × Option Value :=
  match GoMap.get c.cache key with
  | some p =>
    match deref c.ll p with
    | some ele => ({ c with ll := MoveToFront c.ll p }, some ele.Value.value)
    | none => (c, none)
  | none => (c, none)

/-- The method `Len`. -/
def Len (c : Cache) : Int := c.ll.length

/-- The entries resident in the cache, most recently used first. -/
def entries (c : Cache) : List entry := c.ll.map (fun e => e.Value)

/-- The keys resident in the cache, most recently used first. -/
def residentKeys (c : Cache) : List String := c.ll.map (fun e => e.Value.key)

/-- The sum of `len(key) + value.Len()` over the resident entries. -/
def residentBytes (c : Cache) : Int := (c.ll.map (fun e => e.Value.size)).sum

/-- The caches a program can hold: created by `New` and then driven by any
finite sequence of `Add`, `Get` and `RemoveOldest` calls that returned. -/
inductive Reachable : Cache → Prop
  | new (maxBytes : Int) (onEvicted : Bool) : Reachable (New maxBytes onEvicted)
  | add {c c' : Cache} (fuel : Nat) (key : String) (value : Value) :
      Reachable c → Add fuel c key value = some c' → Reachable c'
  | get {c : Cache} (key : String) : Reachable c → Reachable (Get c key).1
  | removeOldest {c : Cache} : Reachable c → Reachable (RemoveOldest c)

/-- The representation invariant of the cache: list elements have distinct
addresses below the allocation pointer, the index has one pair per key, the
index maps exactly the keys of the list elements to their addresses, and
`nbytes` is the size of the resident entries. -/
structure WF (c : Cache) : Prop where
  ptr_nodup : (c.ll.map (fun e => e.ptr)).Nodup
  ptr_lt : ∀ e ∈ c.ll, e.ptr < c.nextPtr
  index_nodup : (c.cache.map Prod.fst).Nodup
  index : ∀ k p, GoMap.get c.cache k = some p ↔ ∃ e ∈ c.ll, e.ptr = p ∧ e.Value.key = k
  bytes : c.nbytes = residentBytes c

/-- The caches on which the eviction loop of `Add` calls `RemoveOldest`, in the
order of the calls: the moments of eviction of one `Add`. -/
def Add.evictions : Nat → Cache → List Cache
  | 0, _ => []
  | fuel + 1, c =>
    if c.maxBytes ≠ 0 ∧ c.maxBytes < c.nbytes then c :: Add.evictions fuel (RemoveOldest c)
    else []

/-- The record of touch times after key `key` is touched at time `n`. -/
def touch (t : String → Nat) (key : String) (n : Nat) : String → Nat :=
  fun k => if k = key then n else t k

/-- The record of added values after `Add(key, value)`. -/
def record (a : String → Option Value) (key : String) (value : Value) : String → Option Value :=
  fun k => if k = key then some value else a k

/-- A cache together with the history of the calls that built it:
`History c t a n` says that `c` is the cache after `n` calls (`Add`, `Get`,
`RemoveOldest`) on a new cache, that `t k` is the number of the most recent call
that touched key `k` (an `Add` of `k` or a successful `Get` of `k`), and that
`a k` is the value of the most recent `Add` of `k`, if any. -/
inductive History : Cache → (String → Nat) → (String → Option Value) → Nat → Prop
  | new (maxBytes : Int) (onEvicted : Bool) :
      History (New maxBytes onEvicted) (fun _ => 0) (fun _ => none) 0
  | add {c c' : Cache} {t : String → Nat} {a : String → Option Value} {n : Nat}
      (fuel : Nat) (key : String) (value : Value) :
      History c t a n → Add fuel c key value = some c' →
      History c' (touch t key n) (record a key value) (n + 1)
  | get {c : Cache} {t : String → Nat} {a : String → Option Value} {n : Nat} (key : String) :
      History c t a n →
      History (Get c key).1 (if (Get c key).2.isSome then touch t key n else t) a (n + 1)
  | removeOldest {c : Cache} {t : String → Nat} {a : String → Option Value} {n : Nat} :
      History c t a n → History (RemoveOldest c) t a (n + 1)

/-- The recency order of the list: elements nearer the front were touched later,
and every touch is in the past. -/
structure Recency (c : Cache) (t : String → Nat) (n : Nat) : Prop where
  sorted : c.ll.Pairwise (fun x y => t y.Value.key < t x.Value.key)
  lt : ∀ e ∈ c.ll, t e.Value.key < n

/-- Every resident entry holds the value of the most recent `Add` of its key. -/
def Stored (c : Cache) (a : String → Option Value) : Prop :=
  ∀ e ∈ c.ll, a e.Value.key = some e.Value.value

/-- A scripted sequence of `Add` calls, as in the tests of lru_test.go. -/
def AddAll (fuel : Nat) (c : Cache) : List (String × String) → Option Cache
  | [] => some c
  | (k, v) :: rest => (Add fuel c k { data := v }).bind (fun c' => AddAll fuel c' rest)

/-- The cache of `TestAdd`: a new unbounded cache after `Add("key", "1")` and
`Add("key", "111")`. -/
def testAddCache : Cache :=
  { maxBytes := 0, nbytes := 6,
    ll := [{ ptr := 0, Value := { key := "key", value := { data := "111" } } }],
    cache := [("key", 0)], OnEvicted := false, calls := [], nextPtr := 1 }

/-- The cache of `TestRemoveoldest` before its third `Add`: capacity 20, the
length of "key1" + "key2" + "value1" + "value2", holding key1 and key2. -/
def testTwoCache : Cache :=
  { maxBytes := 20, nbytes := 20,
    ll := [{ ptr := 1, Value := { key := "key2", value := { data := "value2" } } },
           { ptr := 0, Value := { key := "key1", value := { data := "value1" } } }],
    cache := [("key2", 1), ("key1", 0)], OnEvicted := false, calls := [], nextPtr := 2 }

/-- The cache of `TestOnEvicted` before its last `Add`: capacity 10 with a
callback, holding k2 and k3 after the eviction of key1. -/
def testEvictedCache : Cache :=
  { maxBytes := 10, nbytes := 8,
    ll := [{ ptr := 2, Value := { key := "k3", value := { data := "k3" } } },
           { ptr := 1, Value := { key := "k2", value := { data := "k2" } } }],
    cache := [("k3", 2), ("k2", 1)], OnEvicted := true,
    calls := [("key1", { data := "123456" })], nextPtr := 3 }

end lru

namespace sort

/-- The loop of `sort.Search`: binary search between `i` and `j`, for at most
`fuel` iterations. -/
def Search.loop (f : Nat → Bool) : Nat → Nat → Nat → Nat
  | 0, i, _ => i
  | fuel + 1, i, j =>
    if i < j then
      if !f ((i + j) / 2) then Search.loop f fuel ((i + j) / 2 + 1) j
      else Search.loop f fuel i ((i + j) / 2)
    else i

/-- The function `sort.Search(n, f)`; the distance between the two bounds of the
loop shrinks in every iteration, so `n` iterations are enough. -/
def Search (n : Nat) (f : Nat → Bool) : Nat := Search.loop f n 0 n

/-- The function `sort.SearchInts(a, x)`. -/
def SearchInts (a : List Int) (x : Int) : Nat :=
  Search a.length (fun i => decide (a.getD i 0 ≥ x))

/-- The function `sort.Ints`, modelled by its result: the elements of the slice
in increasing order. -/
def Ints (a : List Int) : List Int := a.insertionSort (fun x y => x ≤ y)

end sort

namespace strconv

/-- The function `strconv.Itoa` on the non-negative loop counters of the ring. -/
def Itoa (i : Nat) : String := toString i

/-- The loop of `strconv.ParseUint(s, 10, 64)` over the bytes of `s`, with `n`
the number read so far: `none` is the syntax error at a byte that is no decimal
digit, and the result is `1<<64 - 1` (with a range error) as soon as the number
no longer fits 64 bits, whatever follows. -/
def ParseUint.loop : List Char → Nat → Option Nat
  | [], n => some n
  | c :: cs, n =>
    if c.isDigit then
      if n ≥ 1844674407370955162 then some 18446744073709551615
      else if 10 * n + (c.toNat - 48) > 18446744073709551615 then some 18446744073709551615
      else ParseUint.loop cs (10 * n + (c.toNat - 48))
    else none

/-- The function `strconv.ParseUint(s, 10, 64)` with its error dropped but for
the syntax error (`none`), which an empty string is too. -/
def ParseUint (ds : List Char) : Option Nat :=
  if ds = [] then none else ParseUint.loop ds 0

/-- The function `strconv.Atoi` with its error dropped, as `i, _ := strconv.Atoi(s)`
of the test: the value is 0 on a syntax error and the nearest `int` on a range
error.  (The fast path of `Atoi` for short strings computes the same value.) -/
def Atoi (s : String) : Int :=
  match s.data with
  | '-' :: ds =>
    match ParseUint ds with
    | some n => if n > 9223372036854775808 then -9223372036854775808 else -(n : Int)
    | none => 0
  | '+' :: ds =>
    match ParseUint ds with
    | some n => if n ≥ 9223372036854775808 then 9223372036854775807 else (n : Int)
    | none => 0
  | ds =>
    match ParseUint ds with
    | some n => if n ≥ 9223372036854775808 then 9223372036854775807 else (n : Int)
    | none => 0

end strconv

namespace consistenthash

/-- The type `Hash func(data []byte) uint32`: the result is taken modulo `2^32`
where it is used. -/
abbrev Hash := String → Nat

/-- The struct `Map`. -/
structure Map where
  hash : Hash
  replicas : Int
  keys : List Int
  hashMap : List (Int × String)

/-- The constructor `New`; `ChecksumIEEE` stands for `crc32.ChecksumIEEE`, the
hash used when `fn` is nil. -/
def New (ChecksumIEEE : Hash) (replicas : Int) (fn : Option Hash) : Map :=
  { hash := fn.getD ChecksumIEEE, replicas := replicas, keys := [], hashMap := [] }

/-- The ring position `int(m.hash([]byte(s)))` of a string: a `uint32` converted
to an `int` of 64 bits, which is exact. -/
def Map.position (m : Map) (s : String) : Int := ((m.hash s % 4294967296 : Nat) : Int)

/-- The body of the inner loop of `Add`: virtual node `i` of real node `key`. -/
def Add.virtual (m : Map) (key : String) (i : Nat) : Map :=
  { m with
    keys := m.keys ++ [m.position (strconv.Itoa i ++ key)]
    hashMap := GoMap.set m.hashMap (m.position (strconv.Itoa i ++ key)) key }

/-- The two nested loops of `Add`, before the sort. -/
def Add.append (m : Map) (keys : List String) : Map :=
  keys.foldl (fun m key => (List.range m.replicas.toNat).foldl (fun m i => Add.virtual m key i) m) m

/-- The method `Add` (the count of virtual nodes it prints is not modelled). -/
def Add (m : Map) (keys : List String) : Map :=
  { Add.append m keys with keys := sort.Ints (Add.append m keys).keys }

/-- The node `m.hashMap[p]`: the empty string when `p` is not a key of the map. -/
def Map.node (m : Map) (p : Int) : String := (GoMap.get m.hashMap p).getD ""

/-- The method `Get`. -/
def Get (m : Map) (key : String) : String :=
  if m.keys.length = 0 then ""
  else
    m.node (m.keys.getD
      (sort.Search m.keys.length (fun i => decide (m.keys.getD i 0 ≥ m.position key))
        % m.keys.length) 0)

/-- The body of the loop of `Remove`: `none` is the run-time panic of the slice
expression `m.keys[idx+1:]` when `idx` is the length of `m.keys`. -/
def Remove.virtual (m : Map) (key : String) (i : Nat) : Option Map :=
  if sort.SearchInts m.keys (m.position (strconv.Itoa i ++ key)) + 1 ≤ m.keys.length then
    some { m with
      keys := m.keys.take (sort.SearchInts m.keys (m.position (strconv.Itoa i ++ key))) ++
        m.keys.drop (sort.SearchInts m.keys (m.position (strconv.Itoa i ++ key)) + 1)
      hashMap := GoMap.delete m.hashMap (m.position (strconv.Itoa i ++ key)) }
  else none

/-- The method `Remove`; `none` when it panics. -/
def Remove (m : Map) (key : String) : Option Map :=
  (List.range m.replicas.toNat).foldlM (fun m i => Remove.virtual m key i) m

/-- The hash of `TestHashing`: `uint32(i)` for `i, _ := strconv.Atoi(string(key))`. -/
def testHash : Hash := fun s => (strconv.Atoi s % 4294967296).toNat

/-- The maps a program can hold: created by `New` and then driven by any finite
sequence of `Add` and `Remove` calls that returned. -/
inductive Reachable : Map → Prop
  | new (ChecksumIEEE : Hash) (replicas : Int) (fn : Option Hash) :
      Reachable (New ChecksumIEEE replicas fn)
  | add {m : Map} (keys : List String) : Reachable m → Reachable (Add m keys)
  | remove {m m' : Map} (key : String) : Reachable m → Remove m key = some m' → Reachable m'

/-- The maps built with every `Remove` called on a ring that holds no position
twice: as `Reachable`, with that condition on each `Remove`. -/
inductive ReachableDistinct : Map → Prop
  | new (ChecksumIEEE : Hash) (replicas : Int) (fn : Option Hash) :
      ReachableDistinct (New ChecksumIEEE replicas fn)
  | add {m : Map} (keys : List String) : ReachableDistinct m → ReachableDistinct (Add m keys)
  | remove {m m' : Map} (key : String) :
      ReachableDistinct m → m.keys.Nodup → Remove m key = some m' → ReachableDistinct m'

/-- The ring positions of the virtual nodes of a real node: `hash(i + key)` for
the replica indices `i` from 0 to `replicas - 1`. -/
def Map.positions (m : Map) (key : String) : List Int :=
  (List.range m.replicas.toNat).map (fun i => m.position (strconv.Itoa i ++ key))

/-- The number of entries of the ring sequence `keys` that `hashMap` maps to
the node `key`. -/
def Map.owned (m : Map) (key : String) : Nat :=
  m.keys.countP (fun p => decide (GoMap.get m.hashMap p = some key))

/-- Every position of the ring is a key of the position-to-node mapping. -/
def Mapped (m : Map) : Prop := ∀ k ∈ m.keys, ∃ node, GoMap.get m.hashMap k = some node

/-- The ring of `TestHashing`: 3 replicas, the decimal hash, nodes 6, 4, 2. -/
def testRing : Map := Add (New testHash 3 (some testHash)) ["6", "4", "2"]

/-- The ring of `TestHashing` after `Remove("4")`. -/
def testRingRemoved : Map :=
  { hash := testHash, replicas := 3, keys := [2, 6, 12, 16, 22, 26],
    hashMap := [(22, "2"), (12, "2"), (2, "2"), (26, "6"), (16, "6"), (6, "6")] }

/-- The maps built by `New` and `Add` calls only, together with the nodes the
calls added, in the order of the calls. -/
inductive Built : Map → List String → Prop
  | new (ChecksumIEEE : Hash) (replicas : Int) (fn : Option Hash) :
      Built (New ChecksumIEEE replicas fn) []
  | add {m : Map} {nodes : List String} (keys : List String) :
      Built m nodes → Built (Add m keys) (nodes ++ keys)

end consistenthash

namespace singleflight

/-- The struct `call`: `done` tells that the wait group of the call has been
released by `c.wg.Done()`; `val` and `err` are the results of `fn`, nil (`none`)
before `fn` returns. -/
structure call (α : Type) where
  done : Bool
  val : Option α
  err : Option String

/-- The struct `Group`: `m` is `none` while the map is nil. -/
structure Group (α : Type) where
  m : Option (List (String × call α))

/-- The method `Do` in a sequential execution.  `fn` works on a state `s` of its
own and yields `none` when it does not return; its results are a value of type
`interface{}` (`none` for nil) and an error (`none` for nil).  The result of `Do`
is `none` when `Do` does not return: when `fn` does not, or when a record for
`key` is pending, on which `c.wg.Wait()` blocks for ever since no other
goroutine runs. -/
def Do {α σ : Type} (g : Group α) (key : String)
    (fn : σ → Option ((Option α × Option String) × σ)) (s : σ) :
    Option ((Option α × Option String) × Group α × σ) :=
  match GoMap.get (g.m.getD []) key with
  | some c =>
    if c.done then some ((c.val, c.err), { m := some (g.m.getD []) }, s) else none
  | none =>
    match fn s with
    | none => none
    | some (r, s') =>
      some (r,
        { m := some (GoMap.delete
            (GoMap.set (g.m.getD []) key { done := true, val := r.1, err := r.2 }) key) },
        s')

/-- The work function of the test of the spec: it counts its own invocations
and returns the value `v`. -/
def countingFn (v : String) : Nat → Option ((Option String × Option String) × Nat) :=
  fun n => some ((some v, none), n + 1)

end singleflight

namespace geecachepb

/-- Modelled from the spec: the generated package geecachepb is not among the
sources; the request message carries `group` (the name of the target namespace)
and `key`. -/
structure Request where
  Group : String
  Key : String
deriving DecidableEq, Repr

/-- Modelled from the spec: the generated package geecachepb is not among the
sources; the response message carries `value`, an opaque byte sequence. -/
structure Response where
  Value : String
deriving DecidableEq, Repr

end geecachepb

namespace strings

/-- The function `strings.HasPrefix`. -/
def HasPrefix (s pre : String) : Bool := pre.data.isPrefixOf s.data

/-- The function `strings.Split(s, sep)` for a separator of one character, on
the characters of `s`. -/
def Split.chars (sep : Char) : List Char → List (List Char)
  | [] => [[]]
  | c :: cs =>
    if c = sep then [] :: Split.chars sep cs
    else
      match Split.chars sep cs with
      | w :: ws => (c :: w) :: ws
      | [] => [[c]]

/-- The function `strings.Split(s, sep)` for a separator of one character. -/
def Split (s : String) (sep : Char) : List String :=
  (Split.chars sep s.data).map String.mk

/-- The function `strings.SplitN(s, sep, n)` for a separator of one character
and `n >= 0`, on the characters of `s`: at most `n` pieces, the last of them the
remainder that is not split. -/
def SplitN.chars (sep : Char) : Nat → List Char → List (List Char)
  | 0, _ => []
  | 1, s => [s]
  | n + 2, s =>
    match s.span (fun c => decide (c ≠ sep)) with
    | (a, _ :: b) => a :: SplitN.chars sep (n + 1) b
    | (a, []) => [a]

/-- The function `strings.SplitN(s, sep, n)` for a separator of one character
and `n >= 0`. -/
def SplitN (s : String) (sep : Char) (n : Nat) : List String :=
  (SplitN.chars sep n s.data).map String.mk

/-- The function `strings.Join`. -/
def Join (elems : List String) (sep : String) : String := sep.intercalate elems

end strings

namespace utf8

/-- The bytes of a Go string: the UTF-8 encoding of its characters. -/
def bytes (s : String) : List Nat :=
  s.data.flatMap (fun c => (String.utf8EncodeChar c).map UInt8.toNat)

/-- A continuation byte `10xxxxxx`. -/
def cont (b : Nat) : Bool := decide (128 ≤ b ∧ b < 192)

/-- The characters that a sequence of bytes encodes; `none` when the bytes are
not the UTF-8 encoding of a sequence of characters (such a Go string is outside
the embedding, where a Go string is a sequence of characters). -/
def decode : List Nat → Option (List Char)
  | [] => some []
  | b0 :: rest =>
    if b0 < 128 then (decode rest).map (fun cs => Char.ofNat b0 :: cs)
    else
      match rest with
      | [] => none
      | b1 :: rest1 =>
        if 192 ≤ b0 ∧ b0 < 224 ∧ cont b1 then
          (decode rest1).map (fun cs => Char.ofNat ((b0 - 192) * 64 + (b1 - 128)) :: cs)
        else
          match rest1 with
          | [] => none
          | b2 :: rest2 =>
            if 224 ≤ b0 ∧ b0 < 240 ∧ cont b1 ∧ cont b2 then
              (decode rest2).map
                (fun cs => Char.ofNat ((b0 - 224) * 4096 + (b1 - 128) * 64 + (b2 - 128)) :: cs)
            else
              match rest2 with
              | [] => none
              | b3 :: rest3 =>
                if 240 ≤ b0 ∧ b0 < 248 ∧ cont b1 ∧ cont b2 ∧ cont b3 then
                  (decode rest3).map
                    (fun cs =>
                      Char.ofNat ((b0 - 240) * 262144 + (b1 - 128) * 4096 + (b2 - 128) * 64 +
                        (b3 - 128)) :: cs)
                else none

/-- The Go string with the given bytes, when it is one of the embedding. -/
def string (bs : List Nat) : Option String :=
  match decode bs with
  | some cs => if bytes (String.mk cs) = bs then some (String.mk cs) else none
  | none => none

end utf8

namespace url

/-- The table `upperhex` of net/url. -/
def upperhex (n : Nat) : Char := "0123456789ABCDEF".data.getD n '0'

/-- The function `shouldEscape(c, encodeQueryComponent)` of net/url: every byte
is escaped but the letters, the digits and the marks `-`, `_`, `.`, `~`. -/
def shouldEscape (c : Nat) : Bool :=
  !(decide (97 ≤ c ∧ c ≤ 122) || decide (65 ≤ c ∧ c ≤ 90) || decide (48 ≤ c ∧ c ≤ 57) ||
    decide (c = 45) || decide (c = 95) || decide (c = 46) || decide (c = 126))

/-- What `escape(s, encodeQueryComponent)` writes for one byte of `s`: `+` for a
space, `%XX` for a byte that is escaped, the byte itself otherwise. -/
def QueryEscape.byte (c : Nat) : List Char :=
  if c = 32 then ['+']
  else if shouldEscape c then ['%', upperhex (c / 16), upperhex (c % 16)]
  else [Char.ofNat c]

/-- The function `url.QueryEscape`. -/
def QueryEscape (s : String) : String :=
  String.mk ((utf8.bytes s).flatMap QueryEscape.byte)

/-- The function `unhex` of net/url, on a byte that may be no hexadecimal
digit (`ishex`). -/
def unhex (c : Nat) : Option Nat :=
  if 48 ≤ c ∧ c ≤ 57 then some (c - 48)
  else if 97 ≤ c ∧ c ≤ 102 then some (c - 97 + 10)
  else if 65 ≤ c ∧ c ≤ 70 then some (c - 65 + 10)
  else none

/-- The function `unescape(s, encodePath)` of net/url on the bytes of `s`: `%XX`
becomes the byte `XX`, every other byte stays (a `+` too, which only the mode
of a query component turns into a space); `none` is the `EscapeError` for a `%`
that two hexadecimal digits do not follow. -/
def unescape.bytes : List Nat → Option (List Nat)
  | [] => some []
  | c :: rest =>
    if c = 37 then
      match rest with
      | a :: b :: rest2 =>
        match unhex a, unhex b with
        | some x, some y => (unescape.bytes rest2).map (fun t => (x * 16 + y) :: t)
        | _, _ => none
      | _ => none
    else (unescape.bytes rest).map (fun t => c :: t)

/-- The function `unescape(s, encodePath)` of net/url, which computes the field
`Path` of a URL from the path as it is written in the URL. -/
def PathUnescape (s : String) : Option String :=
  (unescape.bytes (utf8.bytes s)).bind utf8.string

/-- The path of the URL `u`, as it is written in `u`: what follows the scheme
(up to the first `:`), the `//` and the authority (up to the next `/`), up to a
`?` or a `#`; `none` when `u` has no scheme followed by `//`. -/
def rawPath (u : String) : Option String :=
  match (u.data.span (fun c => decide (c ≠ ':'))).2 with
  | ':' :: '/' :: '/' :: rest =>
    some (String.mk (((rest.span (fun c => decide (c ≠ '/'))).2).takeWhile
      (fun c => decide (c ≠ '?') && decide (c ≠ '#'))))
  | _ => none

end url

namespace http

/-- The response that a handler writes through its `http.ResponseWriter`: the
status code, the header and the body. -/
structure Response where
  status : Nat
  header : List (String × String)
  body : String
deriving DecidableEq, Repr

/-- The function `http.Error(w, error, code)` on a response writer nothing has
been written to. -/
def Error (error : String) (code : Nat) : Response :=
  { status := code
    header := [("X-Content-Type-Options", "nosniff"), ("Content-Type", "text/plain; charset=utf-8")]
    body := error ++ "\n" }

/-- The field `r.URL.Path` of the request that the server receives when a client
requests the URL `u` with `http.Get(u)`: the path of `u` with its escapes
decoded by `unescape(path, encodePath)`; `none` when `u` cannot be requested or
the server rejects the request target before it calls the handler. -/
def requestPath (u : String) : Option String :=
  (url.rawPath u).bind url.PathUnescape

end http

namespace geecache

/-- The struct `ByteView`: the bytes `b` of a cached value.  It is the
implementation of `lru.Value` that the cache stores; `ByteView{}` holds no
bytes and `cloneBytes` copies the bytes unchanged. -/
abbrev ByteView := lru.Value

/-- A call of a group to one of its collaborators: `g.getter.Get(key)`,
`g.peers.PickPeer(key)` or `peer.Get(req, res)`. -/
inductive Call where
  | getter (key : String)
  | pickPeer (key : String)
  | peerGet (req : geecachepb.Request)
deriving DecidableEq, Repr

/-- The interface `Getter`.  The answer of a collaborator may depend on the
calls made before (the first argument), so that a loader with a state of its
own is covered; the answer is the error or the bytes. -/
structure Getter where
  Get : List Call → String → Except String String

/-- The interface `PeerGetter`: `Get(in, out)` fills the response or fails. -/
structure PeerGetter where
  Get : List Call → geecachepb.Request → Except String geecachepb.Response

/-- The interface `PeerPicker`: `some peer` stands for `(peer, true)`. -/
structure PeerPicker where
  PickPeer : List Call → String → Option PeerGetter

/-- The struct `cache` (the mutex is not modelled): `lru` is `none` while the
pointer is nil. -/
structure cache where
  lru : Option lru.Cache
  cacheBytes : Int

/-- The method `cache.add`; `none` when `lru.Add` does not return within `fuel`
tests of the condition of its loop. -/
def cache.add (fuel : Nat) (c : cache) (key : String) (value : ByteView) : Option cache :=
  (lru.Add fuel (c.lru.getD (lru.New c.cacheBytes false)) key value).map
    (fun l => { c with lru := some l })

/-- The method `cache.get`. -/
def cache.get (c : cache) (key : String) : cache × Option ByteView :=
  match c.lru with
  | none => (c, none)
  | some l => ({ c with lru := some (lru.Get l key).1 }, (lru.Get l key).2)

/-- The struct `Group`.  `peers` is `none` while the interface is nil; `calls`
records the calls the group has made to its collaborators, oldest first. -/
structure Group where
  name : String
  getter : Getter
  mainCache : cache
  peers : Option PeerPicker
  loader : singleflight.Group ByteView
  calls : List Call

/-- The group that `NewGroup` builds for a non-nil getter (the registration of
the group under its name is not part of this definition). -/
def NewGroup (name : String) (cacheBytes : Int) (getter : Getter) : Group :=
  { name := name, getter := getter, mainCache := { lru := none, cacheBytes := cacheBytes },
    peers := none, loader := { m := none }, calls := [] }

/-- The method `RegisterPeers`: the group afterwards and the value of the panic,
if the call panics. -/
def Group.RegisterPeers (g : Group) (peers : Option PeerPicker) : Group × Option String :=
  match g.peers with
  | some _ => (g, some "RegisterPeerPicker called more than once")
  | none => ({ g with peers := peers }, none)

/-- The method `populateCache`. -/
def Group.populateCache (fuel : Nat) (g : Group) (key : String) (value : ByteView) :
    Option Group :=
  (g.mainCache.add fuel key value).map (fun c => { g with mainCache := c })

/-- The method `getLocally`: the results `(ByteView, error)` and the group
afterwards. -/
def Group.getLocally (fuel : Nat) (g : Group) (key : String) :
    Option ((ByteView × Option String) × Group) :=
  match g.getter.Get g.calls key with
  | .error err =>
    some (({ data := "" }, some err), { g with calls := g.calls ++ [Call.getter key] })
  | .ok bytes =>
    (Group.populateCache fuel { g with calls := g.calls ++ [Call.getter key] } key
      { data := bytes }).map (fun g' => (({ data := bytes }, none), g'))

/-- The method `getFromPeer`. -/
def Group.getFromPeer (g : Group) (peer : PeerGetter) (key : String) :
    (ByteView × Option String) × Group :=
  match peer.Get g.calls { Group := g.name, Key := key } with
  | .error err =>
    (({ data := "" }, some err),
      { g with calls := g.calls ++ [Call.peerGet { Group := g.name, Key := key }] })
  | .ok res =>
    (({ data := res.Value }, none),
      { g with calls := g.calls ++ [Call.peerGet { Group := g.name, Key := key }] })

/-- The function literal that `load` passes to `g.loader.Do`. -/
def Group.load.fn (fuel : Nat) (key : String) (g : Group) :
    Option ((Option ByteView × Option String) × Group) :=
  match g.peers with
  | some peers =>
    match peers.PickPeer g.calls key with
    | some peer =>
      match Group.getFromPeer { g with calls := g.calls ++ [Call.pickPeer key] } peer key with
      | ((value, none), g') => some ((some value, none), g')
      | ((_, some _), g') =>
        (Group.getLocally fuel g' key).map (fun r => ((some r.1.1, r.1.2), r.2))
    | none =>
      (Group.getLocally fuel { g with calls := g.calls ++ [Call.pickPeer key] } key).map
        (fun r => ((some r.1.1, r.1.2), r.2))
  | none => (Group.getLocally fuel g key).map (fun r => ((some r.1.1, r.1.2), r.2))

/-- The method `load`.  On the error path the named result `value` is
`ByteView{}`: the function literal assigns it only from `getFromPeer`, which
returns `ByteView{}` with an error.  The type assertion `viewi.(ByteView)`
panics (`none`) on a nil interface. -/
def Group.load (fuel : Nat) (g : Group) (key : String) :
    Option ((ByteView × Option String) × Group) :=
  match singleflight.Do g.loader key (Group.load.fn fuel key) g with
  | none => none
  | some ((viewi, none), loader, g') =>
    match viewi with
    | some v => some ((v, none), { g' with loader := loader })
    | none => none
  | some ((_, some err), loader, g') =>
    some (({ data := "" }, some err), { g' with loader := loader })

/-- The method `Get`: the results `(ByteView, error)` and the group afterwards,
or `none` when the call does not return. -/
def Group.Get (fuel : Nat) (g : Group) (key : String) :
    Option ((ByteView × Option String) × Group) :=
  if key = "" then some (({ data := "" }, some "key is required"), g)
  else
    match (g.mainCache.get key).2 with
    | some v => some ((v, none), { g with mainCache := (g.mainCache.get key).1 })
    | none => Group.load fuel { g with mainCache := (g.mainCache.get key).1 } key

/-- The groups a program can hold: built by `NewGroup` and then driven by any
finite sequence of `RegisterPeers` and `Get` calls (one at a time). -/
inductive Reachable : Group → Prop
  | newGroup (name : String) (cacheBytes : Int) (getter : Getter) :
      Reachable (NewGroup name cacheBytes getter)
  | registerPeers {g : Group} (peers : Option PeerPicker) :
      Reachable g → Reachable (g.RegisterPeers peers).1
  | get {g g' : Group} {r : ByteView × Option String} (fuel : Nat) (key : String) :
      Reachable g → Group.Get fuel g key = some (r, g') → Reachable g'

/-- The invariant of the local cache: once created, the `lru.Cache` is one that
`lru.New` and the methods of `lru` build, with the budget `cacheBytes`. -/
def cache.OK (c : cache) : Prop :=
  ∀ l, c.lru = some l → lru.Reachable l ∧ l.maxBytes = c.cacheBytes

/-- The invariant of a group between two calls: no call of the loader is
pending, and the local cache satisfies its invariant. -/
structure Valid (g : Group) : Prop where
  idle : ∀ k, GoMap.get (g.loader.m.getD []) k = none
  lru_ok : g.mainCache.OK

/-- Every entry of the local cache holds bytes that the getter of the group
returned for the key of the entry (after some sequence of calls). -/
def Group.Sourced (g : Group) : Prop :=
  ∀ l, g.mainCache.lru = some l → ∀ e ∈ l.ll,
    ∃ tr, g.getter.Get tr e.Value.key = .ok e.Value.value.data

/-- The number of entries of the local cache. -/
def Group.cacheLen (g : Group) : Nat :=
  match g.mainCache.lru with
  | some c => c.ll.length
  | none => 0

/-- The database of `TestGet`. -/
def db : List (String × String) := [("Tom", "630"), ("Jack", "589"), ("Sam", "567")]

/-- The getter of `TestGet`: the value of the key in `db`, or an error. -/
def dbGetter : Getter :=
  { Get := fun _ key =>
      match GoMap.get db key with
      | some v => .ok v
      | none => .error (key ++ " not exist") }

/-- A remote peer that answers every request with the bytes "remote". -/
def upPeer : PeerGetter := { Get := fun _ _ => .ok { Value := "remote" } }

/-- A remote peer whose `Get` fails. -/
def downPeer : PeerGetter := { Get := fun _ _ => .error "server returned: 500" }

/-- A peer picker that names `upPeer` for every key. -/
def upPicker : PeerPicker := { PickPeer := fun _ _ => some upPeer }

/-- A peer picker that names `downPeer` for every key. -/
def downPicker : PeerPicker := { PickPeer := fun _ _ => some downPeer }

/-- The group of `TestGet` (budget `2<<10`), without peers. -/
def testGroup : Group := NewGroup "scores" 2048 dbGetter

/-- The group of `TestGet` with a registered picker that names a remote peer. -/
def testGroupUp : Group := (testGroup.RegisterPeers (some upPicker)).1

/-- The group of `TestGet` with a registered picker whose peer is down. -/
def testGroupDown : Group := (testGroup.RegisterPeers (some downPicker)).1

/-- The group of `TestGet` with a budget of one byte. -/
def testSmallGroup : Group := NewGroup "scores" 1 dbGetter

/-- The group of `TestGet` with a budget of one byte and a registered picker
whose peer is down. -/
def testSmallGroupDown : Group := (testSmallGroup.RegisterPeers (some downPicker)).1

/-- No remote peer answers for `key`: no peer picker is registered, or the
picker names no remote peer for `key`, or the `Get` of the peer it names fails
(whatever calls were made before). -/
def Group.NoRemote (g : Group) (key : String) : Prop :=
  ∀ pk, g.peers = some pk → ∀ tr peer, pk.PickPeer tr key = some peer →
    ∀ tr', ∃ e, peer.Get tr' { Group := g.name, Key := key } = .error e

/-- A scripted sequence of `Get` calls: the results of the calls and the group
afterwards. -/
def Group.Gets (fuel : Nat) (g : Group) :
    List String → Option (List (ByteView × Option String) × Group)
  | [] => some ([], g)
  | k :: rest =>
    match Group.Get fuel g k with
    | none => none
    | some (r, g') => (Group.Gets fuel g' rest).map (fun x => (r :: x.1, x.2))

/-- The global variable `groups`: the registry of the groups by name. -/
abbrev Groups := List (String × Group)

/-- The effect of `NewGroup` (called with a non-nil getter) on the registry
`groups`: the new group is stored under its name. -/
def NewGroup.groups (groups : Groups) (name : String) (cacheBytes : Int) (getter : Getter) :
    Groups :=
  GoMap.set groups name (NewGroup name cacheBytes getter)

/-- The function `GetGroup`: `none` is the nil pointer. -/
def GetGroup (groups : Groups) (name : String) : Option Group := GoMap.get groups name

/-- The constant `defaultBasePath`. -/
def defaultBasePath : String := "/_geecache/"

/-- The constant `defaultReplicas`. -/
def defaultReplicas : Int := 50

/-- The struct `httpGetter`. -/
structure httpGetter where
  baseURL : String
deriving DecidableEq, Repr

/-- The struct `HTTPPool` (the mutex is not modelled): `peers` is `none` while
the pointer is nil, and a nil map `httpGetters` reads like an empty one. -/
structure HTTPPool where
  self : String
  basePath : String
  peers : Option consistenthash.Map
  httpGetters : List (String × httpGetter)

/-- The constructor `NewHTTPPool`. -/
def NewHTTPPool (self : String) : HTTPPool :=
  { self := self, basePath := defaultBasePath, peers := none, httpGetters := [] }

/-- The method `Set`; `ChecksumIEEE` stands for `crc32.ChecksumIEEE`, the hash
of a ring made with a nil hash function. -/
def HTTPPool.Set (ChecksumIEEE : consistenthash.Hash) (p : HTTPPool) (peers : List String) :
    HTTPPool :=
  { p with
    peers := some (consistenthash.Add (consistenthash.New ChecksumIEEE defaultReplicas none) peers)
    httpGetters :=
      peers.foldl (fun m peer => GoMap.set m peer { baseURL := peer ++ p.basePath }) [] }

/-- The method `PickPeer`: the results `(PeerGetter, bool)`, the getter being
`none` for nil; the outer `none` is the run-time panic of the call `p.peers.Get`
on a nil ring. -/
def HTTPPool.PickPeer (p : HTTPPool) (key : String) : Option (Option httpGetter × Bool) :=
  match p.peers with
  | none => none
  | some ring =>
    if consistenthash.Get ring key ≠ "" ∧ consistenthash.Get ring key ≠ p.self then
      some (GoMap.get p.httpGetters (consistenthash.Get ring key), true)
    else some (none, false)

/-- The URL `u` that `httpGetter.Get` requests. -/
def httpGetter.Get.u (h : httpGetter) (req : geecachepb.Request) : String :=
  h.baseURL ++ url.QueryEscape req.Group ++ "/" ++ url.QueryEscape req.Key

/-- The slice `parts` of `ServeHTTP` for a path that starts with the base path
of the pool. -/
def HTTPPool.ServeHTTP.parts (p : HTTPPool) (path : String) : List String :=
  strings.SplitN (path.drop p.basePath.length) '/' 2

/-- The method `ServeHTTP` for a request with `r.URL.Path = path`, on a response
writer nothing has been written to: the response the handler writes (or the
value of its panic) and the registry of the groups afterwards; `none` when the
call of `group.Get` does not return.  `Marshal` stands for `proto.Marshal` on a
`Response` message (the package geecachepb is not among the sources). -/
def HTTPPool.ServeHTTP (Marshal : geecachepb.Response → Except String String) (fuel : Nat)
    (p : HTTPPool) (groups : Groups) (path : String) :
    Option (Except String http.Response × Groups) :=
  if strings.HasPrefix path p.basePath = false then
    some (.error ("HTTPPool serving unexpected path: " ++ path), groups)
  else
    match HTTPPool.ServeHTTP.parts p path with
    | [groupName, key] =>
      match GetGroup groups groupName with
      | none => some (.ok (http.Error ("no such group: " ++ groupName) 404), groups)
      | some group =>
        match group.Get fuel key with
        | none => none
        | some ((_, some err), group') =>
          some (.ok (http.Error err 500), GoMap.set groups groupName group')
        | some ((view, none), group') =>
          match Marshal { Value := view.data } with
          | .error err => some (.ok (http.Error err 500), GoMap.set groups groupName group')
          | .ok body =>
            some (.ok { status := 200, header := [("Content-Type", "application/octet-stream")],
                        body := body },
              GoMap.set groups groupName group')
    | _ => some (.ok (http.Error "bad request" 400), groups)

/-- A stand-in for `proto.Marshal` on a `Response` that holds the bytes `value`:
the encoding of protocol buffers for a message whose field 1 is a byte string
of fewer than 128 bytes (tag `0x0A`, the length, the bytes; nothing for an empty
field). -/
def testMarshal (r : geecachepb.Response) : Except String String :=
  if r.Value = "" then .ok ""
  else .ok (String.mk [Char.ofNat 10, Char.ofNat r.Value.utf8ByteSize] ++ r.Value)

/-- The registry after `NewGroup("scores", 2<<10, getter)` of `TestGet`. -/
def testGroups : Groups := NewGroup.groups [] "scores" 2048 dbGetter

/-- The pool of `startCacheServer` for the server on port 8001: its three
peers are set (`ChecksumIEEE` is replaced by the decimal hash of the ring test). -/
def testPool : HTTPPool :=
  (NewHTTPPool "http://localhost:8001").Set consistenthash.testHash
    ["http://localhost:8001", "http://localhost:8002", "http://localhost:8003"]

end geecache

namespace gee

/-- The struct `node` of the trie. -/
structure node where
  pattern : String
  part : String
  children : List node
  isWild : Bool

/-- The test `child.part == part || child.isWild` of `matchChild` and
`matchChildren`. -/
def node.matches (part : String) (child : node) : Bool :=
  decide (child.part = part) || child.isWild

/-- The method `matchChild`: the first child that matches. -/
def node.matchChild (n : node) (part : String) : Option node :=
  n.children.find? (node.matches part)

/-- The method `matchChildren`: the children that match, in order. -/
def node.matchChildren (n : node) (part : String) : List node :=
  n.children.filter (node.matches part)

/-- The first element of `l` that satisfies `p`, replaced by its image under
`f`: the effect of a method that modifies the node `matchChild` points to. -/
def node.modifyFirst (p : node → Bool) (f : node → node) : List node → List node
  | [] => []
  | c :: cs => if p c then f c :: cs else c :: node.modifyFirst p f cs

/-- The byte `part[0]` is ':' or '*'. -/
def isWildPart (part : String) : Bool :=
  match part.data with
  | c :: _ => decide (c = ':') || decide (c = '*')
  | [] => false

/-- The method `insert`, for the parts still to be placed (`parts[height:]`). -/
def node.insert.go (pattern : String) : List String → node → node
  | [], n => { n with pattern := pattern }
  | part :: rest, n =>
    match n.matchChild part with
    | some _ =>
      { n with children := node.modifyFirst (node.matches part) (node.insert.go pattern rest) n.children }
    | none =>
      { n with children := n.children ++
          [node.insert.go pattern rest
            { pattern := "", part := part, children := [], isWild := isWildPart part }] }

/-- The method `insert`. -/
def node.insert (n : node) (pattern : String) (parts : List String) (height : Nat) : node :=
  node.insert.go pattern (parts.drop height) n

/-- The method `search`, for the parts still to be matched (`parts[height:]`). -/
def node.search.go : List String → node → Option node
  | [], n => if n.pattern = "" then none else some n
  | part :: rest, n =>
    if n.part.data.head? = some '*' then (if n.pattern = "" then none else some n)
    else (n.matchChildren part).findSome? (node.search.go rest)

/-- The method `search`. -/
def node.search (n : node) (parts : List String) (height : Nat) : Option node :=
  node.search.go (parts.drop height) n

mutual
/-- The method `travel`: the nodes it appends to the list. -/
def node.travel : node → List node
  | ⟨pattern, part, children, isWild⟩ =>
    (if pattern ≠ "" then [⟨pattern, part, children, isWild⟩] else []) ++ node.travel.children children
/-- The loop of `travel` over the children. -/
def node.travel.children : List node → List node
  | [] => []
  | c :: cs => node.travel c ++ node.travel.children cs
end

/-- The loop of `parsePattern` over the items of the split. -/
def parsePattern.loop : List String → List String
  | [] => []
  | item :: vs =>
    if item ≠ "" then
      (if item.data.head? = some '*' then [item] else item :: parsePattern.loop vs)
    else parsePattern.loop vs

/-- The function `parsePattern`. -/
def parsePattern (pattern : String) : List String :=
  parsePattern.loop (strings.Split pattern '/')

/-- The struct `router`; `H` is the type `HandlerFunc`. -/
structure router (H : Type) where
  roots : List (String × node)
  handlers : List (String × H)

/-- The constructor `newRouter`. -/
def newRouter (H : Type) : router H := { roots := [], handlers := [] }

/-- The method `addRoute`. -/
def router.addRoute {H : Type} (r : router H) (method pattern : String) (handler : H) : router H :=
  { roots := GoMap.set r.roots method
      (((GoMap.get r.roots method).getD
        { pattern := "", part := "", children := [], isWild := false }).insert
          pattern (parsePattern pattern) 0)
    handlers := GoMap.set r.handlers (method ++ "-" ++ pattern) handler }

/-- The loop of `getRoute` over the parts of the matched pattern, from index
`index` on; `none` is the run-time panic of an index out of range. -/
def router.getRoute.loop (searchParts : List String) :
    List String → Nat → List (String × String) → Option (List (String × String))
  | [], _, params => some params
  | part :: rest, index, params =>
    match part.data with
    | [] => none
    | c :: _ =>
      if c = ':' then
        match searchParts[index]? with
        | some seg => router.getRoute.loop searchParts rest (index + 1) (GoMap.set params (part.drop 1) seg)
        | none => none
      else if c = '*' ∧ 1 < part.utf8ByteSize then
        if index ≤ searchParts.length then
          some (GoMap.set params (part.drop 1) (strings.Join (searchParts.drop index) "/"))
        else none
      else router.getRoute.loop searchParts rest (index + 1) params

/-- The method `getRoute`: `some none` is the result `(nil, nil)` and `none` a
run-time panic. -/
def router.getRoute {H : Type} (r : router H) (method path : String) :
    Option (Option (node × List (String × String))) :=
  match GoMap.get r.roots method with
  | none => some none
  | some root =>
    match root.search (parsePattern path) 0 with
    | some n =>
      (router.getRoute.loop (parsePattern path) (parsePattern n.pattern) 0 []).map
        (fun params => some (n, params))
    | none => some none

/-- The method `getRoutes`. -/
def router.getRoutes {H : Type} (r : router H) (method : String) : List node :=
  match GoMap.get r.roots method with
  | none => []
  | some root => root.travel

/-- The router of `newTestRouter`. -/
def newTestRouter : router Unit :=
  (((((newRouter Unit).addRoute "GET" "/" ()).addRoute "GET" "/hello/:name" ()).addRoute
    "GET" "/hello/b/c" ()).addRoute "GET" "/hi/:name" ()).addRoute "GET" "/assets/*filepath" ()

/-- The nodes below a node: `node.Path n w m` says that `m` is reached from `n`
by descending through children whose parts are, in order, the elements of `w`. -/
inductive node.Path : node → List String → node → Prop
  | nil (n : node) : node.Path n [] n
  | cons {n c m : node} {w : List String} :
      c ∈ n.children → node.Path c w m → node.Path n (c.part :: w) m

/-- The routers a program can hold: made by `newRouter` and then driven by any
finite sequence of `addRoute` calls; the second argument lists the method and
the pattern of each call, in order. -/
inductive router.Built {H : Type} : router H → List (String × String) → Prop
  | newRouter : router.Built (newRouter H) []
  | addRoute {r : router H} {routes : List (String × String)} (method pattern : String)
      (handler : H) :
      router.Built r routes →
      router.Built (r.addRoute method pattern handler) (routes ++ [(method, pattern)])

/-- The insertion of the parts `parts` below `n` ends at a node that carries no
pattern (or makes a new node): it follows the choices of `insert`. -/
def node.Fresh : List String → node → Bool
  | [], n => decide (n.pattern = "")
  | part :: rest, n =>
    match n.matchChild part with
    | some c => node.Fresh rest c
    | none => true

/-- The insertions of the patterns `patterns`, one after the other, into the
trie with root `T` all end at a node that carries no pattern: no `addRoute` of
the sequence overwrites the pattern of a node. -/
def node.NoOverwrite : node → List String → Bool
  | _, [] => true
  | T, pattern :: rest =>
    node.Fresh (parsePattern pattern) T &&
      node.NoOverwrite (node.insert.go pattern (parsePattern pattern) T) rest

/-- The insertion of the parts `parts` below `n` descends only through children
whose part is the part it places (never through a wildcard child with another
part): it follows the choices of `insert`. -/
def node.Exact : List String → node → Prop
  | [], _ => True
  | part :: rest, n =>
    match n.matchChild part with
    | some c => c.part = part ∧ node.Exact rest c
    | none => True

/-- A sequence of parts `s` is apart from a sequence `q` registered after it:
the two differ, and at the first place where both have a part and the parts
differ, the part of `s` is no wildcard (a part that starts with ':' or '*'). -/
def Apart : List String → List String → Bool
  | [], [] => false
  | [], _ :: _ => true
  | _ :: _, [] => true
  | a :: p, b :: q => if a = b then Apart p q else !isWildPart a

/-- The router after `addRoute` calls under one method, for the patterns and
handlers of `routes`, in order. -/
def router.addRoutes {H : Type} (r : router H) (method : String) (routes : List (String × H)) :
    router H :=
  routes.foldl (fun r ph => r.addRoute method ph.1 ph.2) r

/-- The routes of `newTestRouter`, in the order of their registration. -/
def testRoutes : List (String × Unit) :=
  [("/", ()), ("/hello/:name", ()), ("/hello/b/c", ()), ("/hi/:name", ()),
    ("/assets/*filepath", ())]

/-- The node of the pattern /p/:lang/doc in the trie of `docRouter`. -/
def docNode : node :=
  { pattern := "/p/:lang/doc", part := "doc", children := [], isWild := false }

/-- The trie of the method GET of `docRouter`. -/
def docRoot : node :=
  { pattern := "", part := "", isWild := false
    children :=
      [{ pattern := "", part := "p", isWild := false
         children := [{ pattern := "", part := ":lang", isWild := true, children := [docNode] }] },
       { pattern := "", part := "static", isWild := false
         children := [{ pattern := "/static/*filepath", part := "*filepath", isWild := true,
                        children := [] }] }] }

/-- The router of the examples of `getRoute`: the patterns /p/:lang/doc and
/static/*filepath under GET. -/
def docRouter : router Unit :=
  ((newRouter Unit).addRoute "GET" "/p/:lang/doc" ()).addRoute "GET" "/static/*filepath" ()

/-- The invariant of a trie into which the sequences of parts `S` were
inserted: every node but the root lies on the way of a sequence of `S`, a node
that carries a pattern lies at the end of one, and the flag `isWild` of every
node but the root tells whether its part is a wildcard. -/
structure node.Holds (T : node) (S : List (List String)) : Prop where
  covered : ∀ w m, node.Path T w m → w ≠ [] → ∃ s ∈ S, w <+: s
  carried : ∀ w m, node.Path T w m → m.pattern ≠ "" → w ∈ S
  wild : ∀ w m, node.Path T w m → w ≠ [] → m.isWild = isWildPart m.part

end gee

namespace GoMap

variable {α β : Type} [DecidableEq α]

theorem get_delete_self (m : List (α × β)) (a : α) : get (delete m a) a = none := by
  induction m with
  | nil => rfl
  | cons kv m ih =>
    obtain ⟨k, v⟩ := kv
    by_cases h : k = a
    · simp [delete, List.filter_cons, h] at ih ⊢
      exact ih
    · simp [delete, List.filter_cons, h, get] at ih ⊢
      exact ih

theorem get_delete_ne (m : List (α × β)) {a k : α} (h : k ≠ a) :
    get (delete m a) k = get m k := by
  induction m with
  | nil => rfl
  | cons kv m ih =>
    obtain ⟨k', v⟩ := kv
    by_cases h' : k' = a
    · have : a ≠ k := fun e => h e.symm
      simp [delete, List.filter_cons, h', get, this] at ih ⊢
      exact ih
    · simp [delete, List.filter_cons, h', get] at ih ⊢
      rw [ih]

theorem get_set_self (m : List (α × β)) (a : α) (b : β) : get (set m a b) a = some b := by
  simp [set, get]

theorem get_set_ne (m : List (α × β)) {a k : α} (b : β) (h : k ≠ a) :
    get (set m a b) k = get m k := by
  have : a ≠ k := fun e => h e.symm
  simp [set, get, this, get_delete_ne m h]

theorem get_eq_none_iff (m : List (α × β)) (a : α) : get m a = none ↔ a ∉ m.map Prod.fst := by
  induction m with
  | nil => simp [get]
  | cons kv m ih =>
    obtain ⟨k, v⟩ := kv
    by_cases h : k = a
    · simp [get, h]
    · have : a ≠ k := fun e => h e.symm
      simp [get, h, ih, this]

theorem keys_delete_sublist (m : List (α × β)) (a : α) :
    ((delete m a).map Prod.fst).Sublist (m.map Prod.fst) :=
  (List.filter_sublist m).map Prod.fst

theorem not_mem_keys_delete (m : List (α × β)) (a : α) : a ∉ (delete m a).map Prod.fst := by
  simp [delete, List.mem_map, List.mem_filter]

theorem nodup_keys_delete {m : List (α × β)} (a : α) (h : (m.map Prod.fst).Nodup) :
    ((delete m a).map Prod.fst).Nodup :=
  h.sublist (keys_delete_sublist m a)

theorem nodup_keys_set {m : List (α × β)} (a : α) (b : β) (h : (m.map Prod.fst).Nodup) :
    ((set m a b).map Prod.fst).Nodup := by
  simp only [set, List.map_cons, List.nodup_cons]
  exact ⟨not_mem_keys_delete m a, nodup_keys_delete a h⟩

end GoMap

namespace lru

theorem deref_some {l : List Element} {p : Nat} {e : Element} (h : deref l p = some e) :
    e ∈ l ∧ e.ptr = p := by
  unfold deref at h
  exact ⟨List.mem_of_find?_eq_some h, by simpa using List.find?_some h⟩

theorem Remove_of_forall_ne {l : List Element} {p : Nat} (h : ∀ x ∈ l, x.ptr ≠ p) :
    Remove l p = l := by
  unfold Remove
  rw [List.filter_eq_self]
  intro x hx
  simpa using h x hx

theorem setValue_of_forall_ne {l : List Element} {p : Nat} (v : Value)
    (h : ∀ x ∈ l, x.ptr ≠ p) : setValue l p v = l := by
  unfold setValue
  conv_rhs => rw [← List.map_id l]
  apply List.map_congr_left
  intro x hx
  simp [h x hx]

/-- An element of a list with distinct addresses splits the list around itself. -/
theorem split_of_mem {l : List Element} {p : Nat} {e : Element}
    (hn : (l.map (fun e => e.ptr)).Nodup) (he : e ∈ l) (hp : e.ptr = p) :
    ∃ l1 l2, l = l1 ++ e :: l2 ∧ deref l p = some e ∧ Remove l p = l1 ++ l2 ∧
      ∀ x ∈ l1 ++ l2, x.ptr ≠ p := by
  obtain ⟨l1, l2, rfl⟩ := List.append_of_mem he
  have hn' := hn
  rw [List.map_append, List.map_cons, List.nodup_append, List.nodup_cons] at hn'
  obtain ⟨-, ⟨h2, -⟩, h3⟩ := hn'
  have h1 : ∀ x ∈ l1, x.ptr ≠ p := by
    intro x hx hxp
    refine h3 (List.mem_map_of_mem (fun e => e.ptr) hx) ?_
    simp [hxp, hp]
  have h2' : ∀ x ∈ l2, x.ptr ≠ p := by
    intro x hx hxp
    exact h2 (List.mem_map.2 ⟨x, hx, hxp.trans hp.symm⟩)
  refine ⟨l1, l2, rfl, ?_, ?_, ?_⟩
  · unfold deref
    rw [List.find?_append]
    have : l1.find? (fun e => decide (e.ptr = p)) = none := by
      rw [List.find?_eq_none]
      intro x hx
      simpa using h1 x hx
    simp [this, hp]
  · have e1 := Remove_of_forall_ne h1
    have e2 := Remove_of_forall_ne h2'
    unfold Remove at e1 e2 ⊢
    rw [List.filter_append, e1, List.filter_cons, e2]
    simp [hp]
  · intro x hx
    rcases List.mem_append.1 hx with h | h
    · exact h1 x h
    · exact h2' x h

theorem WF_get_index {c : Cache} (h : WF c) {e : Element} (he : e ∈ c.ll) :
    GoMap.get c.cache e.Value.key = some e.ptr :=
  (h.index _ _).2 ⟨e, he, rfl, rfl⟩

theorem WF_get_none {c : Cache} (h : WF c) {key : String} (hk : key ∉ residentKeys c) :
    GoMap.get c.cache key = none := by
  rw [Option.eq_none_iff_forall_not_mem]
  intro p hp
  obtain ⟨e, he, -, hek⟩ := (h.index _ _).1 hp
  exact hk (List.mem_map.2 ⟨e, he, hek⟩)

/-- Two elements of a well-formed cache with the same key are the same element. -/
theorem WF_eq_of_key {c : Cache} (h : WF c) {e e' : Element} (he : e ∈ c.ll) (he' : e' ∈ c.ll)
    (hk : e.Value.key = e'.Value.key) : e = e' := by
  have h1 := WF_get_index h he
  have h2 := WF_get_index h he'
  rw [hk, h2] at h1
  exact List.inj_on_of_nodup_map h.ptr_nodup he he' (Option.some.inj h1).symm

theorem WF_key_nodup {c : Cache} (h : WF c) : (residentKeys c).Nodup := by
  unfold residentKeys
  exact List.Nodup.map_on (fun x hx y hy hxy => WF_eq_of_key h hx hy hxy)
    (List.Nodup.of_map _ h.ptr_nodup)

/-- The shape of `Add.store` on a resident key. -/
theorem store_hit {c : Cache} (h : WF c) {e : Element} (he : e ∈ c.ll) (value : Value) :
    ∃ l1 l2, c.ll = l1 ++ e :: l2 ∧
      Add.store c e.Value.key value =
        { c with
          ll := { e with Value := { e.Value with value := value } } :: (l1 ++ l2)
          nbytes := c.nbytes + (value.Len - e.Value.value.Len) } := by
  obtain ⟨l1, l2, hl, hd, hr, hne⟩ := split_of_mem h.ptr_nodup he rfl
  refine ⟨l1, l2, hl, ?_⟩
  unfold Add.store
  rw [WF_get_index h he]
  simp only [hd, MoveToFront, hr]
  have : setValue (e :: (l1 ++ l2)) e.ptr value =
      { e with Value := { e.Value with value := value } } :: (l1 ++ l2) := by
    have := setValue_of_forall_ne value hne
    unfold setValue at this ⊢
    rw [List.map_cons, this]
    simp
  rw [this]

/-- The shape of `Add.store` on a key that is not resident. -/
theorem store_miss {c : Cache} (h : WF c) {key : String} (hk : key ∉ residentKeys c)
    (value : Value) :
    Add.store c key value =
      { c with
        ll := { ptr := c.nextPtr, Value := { key := key, value := value } } :: c.ll
        cache := GoMap.set c.cache key c.nextPtr
        nbytes := c.nbytes + ((key.utf8ByteSize : Int) + value.Len)
        nextPtr := c.nextPtr + 1 } := by
  unfold Add.store
  rw [WF_get_none h hk]

/-- The shape of `Get` on a resident key. -/
theorem Get_hit {c : Cache} (h : WF c) {e : Element} (he : e ∈ c.ll) :
    ∃ l1 l2, c.ll = l1 ++ e :: l2 ∧
      Get c e.Value.key = ({ c with ll := e :: (l1 ++ l2) }, some e.Value.value) := by
  obtain ⟨l1, l2, hl, hd, hr, -⟩ := split_of_mem h.ptr_nodup he rfl
  refine ⟨l1, l2, hl, ?_⟩
  unfold Get
  rw [WF_get_index h he]
  simp only [hd, MoveToFront, hr]

/-- The shape of `Get` on a key that is not resident. -/
theorem Get_miss {c : Cache} (h : WF c) {key : String} (hk : key ∉ residentKeys c) :
    Get c key = (c, none) := by
  unfold Get
  rw [WF_get_none h hk]

/-- The shape of `RemoveOldest` on a cache that is not empty. -/
theorem RemoveOldest_concat {c : Cache} (h : WF c) {init : List Element} {e : Element}
    (hl : c.ll = init ++ [e]) :
    RemoveOldest c =
      { c with
        ll := init
        cache := GoMap.delete c.cache e.Value.key
        nbytes := c.nbytes - e.Value.size
        calls := if c.OnEvicted then c.calls ++ [(e.Value.key, e.Value.value)] else c.calls } := by
  have he : e ∈ c.ll := by rw [hl]; simp
  obtain ⟨l1, l2, hl', -, hr, -⟩ := split_of_mem h.ptr_nodup he rfl
  have hnd : c.ll.Nodup := List.Nodup.of_map _ h.ptr_nodup
  have : l1 = init ∧ l2 = [] := by
    rw [hl] at hl' hnd
    have h12 : l2 = [] := by
      rcases List.eq_nil_or_concat l2 with h0 | ⟨l2', x, h0⟩
      · exact h0
      · exfalso
        subst h0
        rw [List.concat_eq_append,
          show l1 ++ e :: (l2' ++ [x]) = (l1 ++ e :: l2') ++ [x] by simp] at hl'
        have := List.append_inj' hl' rfl
        obtain ⟨h1, h2⟩ := this
        have hx : x = e := by simpa using h2.symm
        subst hx
        rw [h1] at hnd
        simp [List.nodup_append] at hnd
    subst h12
    exact ⟨((List.append_inj' hl' rfl).1).symm, rfl⟩
  obtain ⟨rfl, rfl⟩ := this
  unfold RemoveOldest
  rw [hl, List.getLast?_concat]
  simp only
  rw [← hl, hr, List.append_nil]

theorem RemoveOldest_nil {c : Cache} (hl : c.ll = []) : RemoveOldest c = c := by
  unfold RemoveOldest
  rw [hl]
  rfl

theorem WF_New (maxBytes : Int) (onEvicted : Bool) : WF (New maxBytes onEvicted) := by
  constructor <;> simp [New, residentBytes, GoMap.get]

theorem WF_store {c : Cache} (h : WF c) (key : String) (value : Value) :
    WF (Add.store c key value) := by
  by_cases hk : key ∈ residentKeys c
  · obtain ⟨e, he, rfl⟩ := List.mem_map.1 hk
    obtain ⟨l1, l2, hl, hs⟩ := store_hit h he value
    rw [hs]
    have hperm : (l1 ++ e :: l2).Perm (e :: (l1 ++ l2)) := List.perm_middle
    constructor
    · have := h.ptr_nodup
      rw [hl] at this
      have h2 := (hperm.map (fun e => e.ptr)).nodup_iff.1 this
      simpa using h2
    · intro x hx
      have := h.ptr_lt
      rw [hl] at this
      simp only [List.mem_cons, List.mem_append] at hx
      rcases hx with rfl | hx | hx
      · exact this e (by simp)
      · exact this x (by simp [hx])
      · exact this x (by simp [hx])
    · exact h.index_nodup
    · intro k p
      show GoMap.get c.cache k = some p ↔ _
      rw [h.index, hl]
      constructor
      · rintro ⟨x, hx, hp, hxk⟩
        simp only [List.mem_cons, List.mem_append] at hx
        rcases hx with hx | rfl | hx
        · exact ⟨x, by simp [hx], hp, hxk⟩
        · exact ⟨_, List.mem_cons_self _ _, hp, hxk⟩
        · exact ⟨x, by simp [hx], hp, hxk⟩
      · rintro ⟨x, hx, hp, hxk⟩
        simp only [List.mem_cons, List.mem_append] at hx
        rcases hx with rfl | hx | hx
        · exact ⟨e, by simp, hp, hxk⟩
        · exact ⟨x, by simp [hx], hp, hxk⟩
        · exact ⟨x, by simp [hx], hp, hxk⟩
    · have := h.bytes
      simp only [residentBytes, hl, List.map_append, List.map_cons, List.sum_append,
        List.sum_cons, entry.size] at this ⊢
      omega
  · rw [store_miss h hk]
    constructor
    · simp only [List.map_cons, List.nodup_cons]
      refine ⟨?_, h.ptr_nodup⟩
      intro hm
      obtain ⟨x, hx, hxp⟩ := List.mem_map.1 hm
      have := h.ptr_lt x hx
      omega
    · intro x hx
      simp only [List.mem_cons] at hx
      rcases hx with rfl | hx
      · simp
      · have := h.ptr_lt x hx
        simp only
        omega
    · exact GoMap.nodup_keys_set _ _ h.index_nodup
    · intro k p
      simp only
      by_cases hkk : k = key
      · subst hkk
        rw [GoMap.get_set_self]
        constructor
        · intro hp
          exact ⟨_, List.mem_cons_self _ _, Option.some.inj hp, rfl⟩
        · rintro ⟨x, hx, hp, hxk⟩
          simp only [List.mem_cons] at hx
          rcases hx with rfl | hx
          · simp only at hp
            rw [hp]
          · exact absurd (List.mem_map.2 ⟨x, hx, hxk⟩) hk
      · rw [GoMap.get_set_ne _ _ hkk, h.index]
        constructor
        · rintro ⟨x, hx, hp, hxk⟩
          exact ⟨x, List.mem_cons_of_mem _ hx, hp, hxk⟩
        · rintro ⟨x, hx, hp, hxk⟩
          simp only [List.mem_cons] at hx
          rcases hx with rfl | hx
          · exact absurd hxk.symm hkk
          · exact ⟨x, hx, hp, hxk⟩
    · have := h.bytes
      simp only [residentBytes, List.map_cons, List.sum_cons, entry.size] at this ⊢
      omega

theorem WF_Get {c : Cache} (h : WF c) (key : String) : WF (Get c key).1 := by
  by_cases hk : key ∈ residentKeys c
  · obtain ⟨e, he, rfl⟩ := List.mem_map.1 hk
    obtain ⟨l1, l2, hl, hs⟩ := Get_hit h he
    rw [hs]
    have hperm : (l1 ++ e :: l2).Perm (e :: (l1 ++ l2)) := List.perm_middle
    constructor
    · have := h.ptr_nodup
      rw [hl] at this
      exact (hperm.map (fun e => e.ptr)).nodup_iff.1 this
    · intro x hx
      exact h.ptr_lt x (by rw [hl]; exact hperm.symm.subset hx)
    · exact h.index_nodup
    · intro k p
      show GoMap.get c.cache k = some p ↔ _
      rw [h.index, hl]
      constructor
      · rintro ⟨x, hx, hp, hxk⟩
        exact ⟨x, hperm.subset hx, hp, hxk⟩
      · rintro ⟨x, hx, hp, hxk⟩
        exact ⟨x, hperm.symm.subset hx, hp, hxk⟩
    · have := h.bytes
      simp only [residentBytes, hl] at this ⊢
      rw [this]
      exact ((hperm.map (fun e => e.Value.size)).sum_eq)
  · rw [Get_miss h hk]
    exact h

theorem WF_RemoveOldest {c : Cache} (h : WF c) : WF (RemoveOldest c) := by
  rcases List.eq_nil_or_concat c.ll with hl | ⟨init, e, hl⟩
  · rw [RemoveOldest_nil hl]
    exact h
  · rw [List.concat_eq_append] at hl
    rw [RemoveOldest_concat h hl]
    have he : e ∈ c.ll := by rw [hl]; simp
    have hsub : ∀ x ∈ init, x ∈ c.ll := fun x hx => by rw [hl]; simp [hx]
    have hnot : e ∉ init := by
      have := List.Nodup.of_map _ h.ptr_nodup
      rw [hl, List.nodup_append] at this
      intro hm
      exact this.2.2 hm (by simp)
    constructor
    · have := h.ptr_nodup
      rw [hl, List.map_append, List.nodup_append] at this
      exact this.1
    · intro x hx
      exact h.ptr_lt x (hsub x hx)
    · exact GoMap.nodup_keys_delete _ h.index_nodup
    · intro k p
      simp only
      by_cases hkk : k = e.Value.key
      · subst hkk
        rw [GoMap.get_delete_self]
        constructor
        · intro hp
          exact absurd hp (by simp)
        · rintro ⟨x, hx, -, hxk⟩
          have := WF_eq_of_key h (hsub x hx) he hxk
          exact absurd (this ▸ hx) hnot
      · rw [GoMap.get_delete_ne _ hkk, h.index, hl]
        constructor
        · rintro ⟨x, hx, hp, hxk⟩
          simp only [List.mem_append, List.mem_singleton] at hx
          rcases hx with hx | rfl
          · exact ⟨x, hx, hp, hxk⟩
          · exact absurd hxk.symm hkk
        · rintro ⟨x, hx, hp, hxk⟩
          exact ⟨x, by simp [hx], hp, hxk⟩
    · have := h.bytes
      simp only [residentBytes, hl, List.map_append, List.map_cons, List.sum_append,
        List.sum_cons, List.map_nil, List.sum_nil] at this ⊢
      omega

theorem WF_evict {fuel : Nat} {c c' : Cache} (h : WF c) (hc : Add.evict fuel c = some c') :
    WF c' := by
  induction fuel generalizing c with
  | zero => simp [Add.evict] at hc
  | succ n ih =>
    unfold Add.evict at hc
    split at hc
    · exact ih (WF_RemoveOldest h) hc
    · cases hc
      exact h

theorem WF_Add {fuel : Nat} {c c' : Cache} {key : String} {value : Value} (h : WF c)
    (hc : Add fuel c key value = some c') : WF c' :=
  WF_evict (WF_store h key value) hc

theorem Reachable_wf {c : Cache} (h : Reachable c) : WF c := by
  induction h with
  | new maxBytes onEvicted => exact WF_New _ _
  | add fuel key value _ hc ih => exact WF_Add ih hc
  | get key _ ih => exact WF_Get ih key
  | removeOldest _ ih => exact WF_RemoveOldest ih

theorem residentBytes_nonneg (c : Cache) : 0 ≤ residentBytes c := by
  unfold residentBytes
  apply List.sum_nonneg
  intro x hx
  obtain ⟨e, -, rfl⟩ := List.mem_map.1 hx
  simp only [entry.size, Value.Len]
  omega

theorem RemoveOldest_maxBytes (c : Cache) : (RemoveOldest c).maxBytes = c.maxBytes := by
  unfold RemoveOldest
  split <;> rfl

theorem RemoveOldest_OnEvicted (c : Cache) : (RemoveOldest c).OnEvicted = c.OnEvicted := by
  unfold RemoveOldest
  split <;> rfl

theorem store_maxBytes (c : Cache) (key : String) (value : Value) :
    (Add.store c key value).maxBytes = c.maxBytes := by
  unfold Add.store
  split
  · split <;> rfl
  · rfl

theorem store_OnEvicted (c : Cache) (key : String) (value : Value) :
    (Add.store c key value).OnEvicted = c.OnEvicted := by
  unfold Add.store
  split
  · split <;> rfl
  · rfl

theorem store_calls (c : Cache) (key : String) (value : Value) :
    (Add.store c key value).calls = c.calls := by
  unfold Add.store
  split
  · split <;> rfl
  · rfl

/-- What the eviction loop does when it returns: it removes a suffix `ev` of the
list, last element first, reports each removed entry to the callback, and stops
with the budget respected. -/
theorem evict_spec {fuel : Nat} {c c' : Cache} (h : WF c) (hc : Add.evict fuel c = some c') :
    ∃ ev : List Element, c.ll = c'.ll ++ ev ∧
      c'.calls = c.calls ++
        (if c.OnEvicted then ev.reverse.map (fun e => (e.Value.key, e.Value.value)) else []) ∧
      c'.maxBytes = c.maxBytes ∧ c'.OnEvicted = c.OnEvicted ∧
      ¬ (c'.maxBytes ≠ 0 ∧ c'.maxBytes < c'.nbytes) := by
  induction fuel generalizing c with
  | zero => simp [Add.evict] at hc
  | succ n ih =>
    unfold Add.evict at hc
    split at hc
    · obtain ⟨ev, h1, h2, h3, h4, h5⟩ := ih (WF_RemoveOldest h) hc
      rcases List.eq_nil_or_concat c.ll with hl | ⟨init, e, hl⟩
      · rw [RemoveOldest_nil hl] at h1 h2 h3 h4
        exact ⟨ev, h1, h2, h3, h4, h5⟩
      · rw [List.concat_eq_append] at hl
        rw [RemoveOldest_concat h hl] at h1 h2 h3 h4
        simp only at h1 h2 h3 h4
        refine ⟨ev ++ [e], ?_, ?_, h3, h4, h5⟩
        · rw [hl, h1, List.append_assoc]
        · rw [h2]
          cases c.OnEvicted <;> simp
    · cases hc
      exact ⟨[], by simp, by simp, rfl, rfl, by assumption⟩

/-- The eviction loop returns on a cache with a positive budget: one test of the
condition per resident entry, and one more, are enough. -/
theorem evict_terminates (fuel : Nat) {c : Cache} (h : WF c) (hm : 0 < c.maxBytes)
    (hf : c.ll.length < fuel) : ∃ c', Add.evict fuel c = some c' := by
  induction fuel generalizing c with
  | zero => omega
  | succ n ih =>
    unfold Add.evict
    split
    · rename_i hcond
      rcases List.eq_nil_or_concat c.ll with hl | ⟨init, e, hl⟩
      · exfalso
        have := h.bytes
        simp only [residentBytes, hl, List.map_nil, List.sum_nil] at this
        omega
      · rw [List.concat_eq_append] at hl
        apply ih (WF_RemoveOldest h)
        · rw [RemoveOldest_maxBytes]
          exact hm
        · rw [RemoveOldest_concat h hl]
          simp only
          rw [hl] at hf
          simp only [List.length_append, List.length_singleton] at hf
          omega
    · exact ⟨c, rfl⟩

/-- The eviction loop never returns on a cache with a negative budget. -/
theorem evict_diverges {c : Cache} (h : WF c) (hm : c.maxBytes < 0) (fuel : Nat) :
    Add.evict fuel c = none := by
  induction fuel generalizing c with
  | zero => rfl
  | succ n ih =>
    unfold Add.evict
    have hb := h.bytes
    have := residentBytes_nonneg c
    rw [if_pos ⟨by omega, by omega⟩]
    exact ih (WF_RemoveOldest h) (by rw [RemoveOldest_maxBytes]; exact hm)

theorem store_length_le {c : Cache} (h : WF c) (key : String) (value : Value) :
    (Add.store c key value).ll.length ≤ c.ll.length + 1 := by
  by_cases hk : key ∈ residentKeys c
  · obtain ⟨e, he, rfl⟩ := List.mem_map.1 hk
    obtain ⟨l1, l2, hl, hs⟩ := store_hit h he value
    rw [hs, hl]
    simp
  · rw [store_miss h hk]
    simp

theorem RemoveOldest_ll {c : Cache} (h : WF c) : (RemoveOldest c).ll = c.ll.dropLast := by
  rcases List.eq_nil_or_concat c.ll with hl | ⟨init, e, hl⟩
  · rw [RemoveOldest_nil hl, hl]
    rfl
  · rw [List.concat_eq_append] at hl
    rw [RemoveOldest_concat h hl, hl, List.dropLast_concat]

theorem Recency_removeOldest {c : Cache} {t : String → Nat} {n : Nat} (h : WF c)
    (hr : Recency c t n) : Recency (RemoveOldest c) t n := by
  have hsub : (RemoveOldest c).ll.Sublist c.ll := by
    rw [RemoveOldest_ll h]
    exact List.dropLast_sublist _
  exact ⟨hr.sorted.sublist hsub, fun e he => hr.lt e (hsub.subset he)⟩

theorem Stored_removeOldest {c : Cache} {a : String → Option Value} (h : WF c)
    (hs : Stored c a) : Stored (RemoveOldest c) a := by
  intro e he
  rw [RemoveOldest_ll h] at he
  exact hs e ((List.dropLast_sublist _).subset he)

theorem Recency_mono {c : Cache} {t : String → Nat} {n m : Nat} (hr : Recency c t n)
    (hnm : n ≤ m) : Recency c t m :=
  ⟨hr.sorted, fun e he => lt_of_lt_of_le (hr.lt e he) hnm⟩

/-- Moving (or inserting) the element of `key` to the front and stamping it with
the current time keeps the list in recency order. -/
theorem recency_front {l : List Element} {t : String → Nat} {n : Nat} {key : String}
    (e : Element) (hek : e.Value.key = key)
    (hs : l.Pairwise (fun x y => t y.Value.key < t x.Value.key))
    (hlt : ∀ x ∈ l, t x.Value.key < n) (hne : ∀ x ∈ l, x.Value.key ≠ key) :
    (e :: l).Pairwise (fun x y => touch t key n y.Value.key < touch t key n x.Value.key) ∧
      ∀ x ∈ e :: l, touch t key n x.Value.key < n + 1 := by
  have hx : ∀ x ∈ l, touch t key n x.Value.key = t x.Value.key := by
    intro x hx
    simp [touch, hne x hx]
  have he : touch t key n e.Value.key = n := by simp [touch, hek]
  constructor
  · rw [List.pairwise_cons]
    constructor
    · intro x hxl
      rw [he, hx x hxl]
      exact hlt x hxl
    · exact hs.imp_of_mem (fun {x y} hxl hyl hxy => by rw [hx x hxl, hx y hyl]; exact hxy)
  · intro x hxl
    rcases List.mem_cons.1 hxl with rfl | hxl
    · rw [he]
      omega
    · rw [hx x hxl]
      have := hlt x hxl
      omega

theorem evict_inv {P : Cache → Prop} (hP : ∀ c, WF c → P c → P (RemoveOldest c))
    {fuel : Nat} {c c' : Cache} (h : WF c) (hc : P c) (he : Add.evict fuel c = some c') :
    P c' := by
  induction fuel generalizing c with
  | zero => simp [Add.evict] at he
  | succ n ih =>
    unfold Add.evict at he
    split at he
    · exact ih (WF_RemoveOldest h) (hP c h hc) he
    · cases he
      exact hc

theorem evictions_inv {P : Cache → Prop} (hP : ∀ c, WF c → P c → P (RemoveOldest c))
    {fuel : Nat} {c : Cache} (h : WF c) (hc : P c) :
    ∀ s ∈ Add.evictions fuel c, WF s ∧ P s := by
  induction fuel generalizing c with
  | zero => simp [Add.evictions]
  | succ n ih =>
    unfold Add.evictions
    split
    · intro s hs
      rcases List.mem_cons.1 hs with rfl | hs
      · exact ⟨h, hc⟩
      · exact ih (WF_RemoveOldest h) (hP c h hc) s hs
    · simp

/-- The list after `Add.store` is in recency order for the touch record in which
`key` is touched now, and its entries hold the recorded values. -/
theorem store_recency {c : Cache} {t : String → Nat} {a : String → Option Value} {n : Nat}
    (h : WF c) (hr : Recency c t n) (hs : Stored c a) (key : String) (value : Value) :
    Recency (Add.store c key value) (touch t key n) (n + 1) ∧
      Stored (Add.store c key value) (record a key value) := by
  by_cases hk : key ∈ residentKeys c
  · obtain ⟨e, he, rfl⟩ := List.mem_map.1 hk
    obtain ⟨l1, l2, hl, hst⟩ := store_hit h he value
    rw [hst]
    have hsub : (l1 ++ l2).Sublist c.ll := by
      rw [hl]
      exact List.Sublist.append (List.Sublist.refl l1) (List.sublist_cons_self e l2)
    have hne : ∀ x ∈ l1 ++ l2, x.Value.key ≠ e.Value.key := by
      intro x hx hxe
      have hxe' := WF_eq_of_key h (hsub.subset hx) he hxe
      subst hxe'
      have hnd := List.Nodup.of_map _ h.ptr_nodup
      rw [hl] at hnd
      have := (List.nodup_middle.1 hnd)
      exact (List.nodup_cons.1 this).1 hx
    have := recency_front (t := t) (n := n)
      ({ e with Value := { e.Value with value := value } } : Element) rfl
      (hr.sorted.sublist hsub) (fun x hx => hr.lt x (hsub.subset hx)) hne
    refine ⟨⟨this.1, this.2⟩, ?_⟩
    intro x hx
    rcases List.mem_cons.1 hx with rfl | hx
    · simp [record]
    · simp only [record, hne x hx, if_false]
      exact hs x (hsub.subset hx)
  · rw [store_miss h hk]
    have hne : ∀ x ∈ c.ll, x.Value.key ≠ key :=
      fun x hx hxk => hk (List.mem_map.2 ⟨x, hx, hxk⟩)
    have := recency_front (t := t) (n := n)
      ({ ptr := c.nextPtr, Value := { key := key, value := value } } : Element) rfl
      hr.sorted hr.lt hne
    refine ⟨⟨this.1, this.2⟩, ?_⟩
    intro x hx
    rcases List.mem_cons.1 hx with rfl | hx
    · simp [record]
    · simp only [record, hne x hx, if_false]
      exact hs x hx

theorem History_inv {c : Cache} {t : String → Nat} {a : String → Option Value} {n : Nat}
    (h : History c t a n) : WF c ∧ Recency c t n ∧ Stored c a := by
  induction h with
  | new maxBytes onEvicted =>
    refine ⟨WF_New _ _, ⟨?_, ?_⟩, ?_⟩ <;> simp [New, Stored]
  | @add c c' t a n fuel key value _ hc ih =>
    obtain ⟨hw, hr, hs⟩ := ih
    have hst := store_recency hw hr hs key value
    have hws := WF_store hw key value
    refine ⟨WF_Add hw hc, ?_, ?_⟩
    · exact evict_inv (P := fun c => Recency c (touch t key n) (n + 1))
        (fun c hc hp => Recency_removeOldest hc hp) hws hst.1 hc
    · exact evict_inv (P := fun c => Stored c (record a key value))
        (fun c hc hp => Stored_removeOldest hc hp) hws hst.2 hc
  | @get c t a n key _ ih =>
    obtain ⟨hw, hr, hs⟩ := ih
    refine ⟨WF_Get hw key, ?_, ?_⟩
    · by_cases hk : key ∈ residentKeys c
      · obtain ⟨e, he, rfl⟩ := List.mem_map.1 hk
        obtain ⟨l1, l2, hl, hg⟩ := Get_hit hw he
        rw [hg]
        have hsub : (l1 ++ l2).Sublist c.ll := by
          rw [hl]
          exact List.Sublist.append (List.Sublist.refl l1) (List.sublist_cons_self e l2)
        have hne : ∀ x ∈ l1 ++ l2, x.Value.key ≠ e.Value.key := by
          intro x hx hxe
          have hxe' := WF_eq_of_key hw (hsub.subset hx) he hxe
          subst hxe'
          have hnd := List.Nodup.of_map _ hw.ptr_nodup
          rw [hl] at hnd
          exact (List.nodup_cons.1 (List.nodup_middle.1 hnd)).1 hx
        have := recency_front (t := t) (n := n) e rfl
          (hr.sorted.sublist hsub) (fun x hx => hr.lt x (hsub.subset hx)) hne
        exact ⟨this.1, this.2⟩
      · rw [Get_miss hw hk]
        exact Recency_mono hr (Nat.le_succ n)
    · by_cases hk : key ∈ residentKeys c
      · obtain ⟨e, he, rfl⟩ := List.mem_map.1 hk
        obtain ⟨l1, l2, hl, hg⟩ := Get_hit hw he
        rw [hg]
        intro x hx
        apply hs x
        rw [hl]
        exact List.perm_middle.symm.subset hx
      · rw [Get_miss hw hk]
        exact hs
  | removeOldest _ ih =>
    obtain ⟨hw, hr, hs⟩ := ih
    exact ⟨WF_RemoveOldest hw, Recency_mono (Recency_removeOldest hw hr) (Nat.le_succ _), Stored_removeOldest hw hs⟩

theorem Reachable_addAll (fuel : Nat) (kvs : List (String × String)) {c c' : Cache}
    (h : Reachable c) (hc : AddAll fuel c kvs = some c') : Reachable c' := by
  induction kvs generalizing c with
  | nil =>
    cases hc
    exact h
  | cons kv rest ih =>
    obtain ⟨k, v⟩ := kv
    unfold AddAll at hc
    cases hadd : Add fuel c k { data := v } with
    | none => simp [hadd] at hc
    | some c1 =>
      simp only [hadd, Option.bind_some] at hc
      exact ih (Reachable.add fuel k _ h hadd) hc

theorem testAddCache_reachable : Reachable testAddCache :=
  Reachable_addAll 1 [("key", "1"), ("key", "111")] (Reachable.new 0 false) (by decide)

theorem testTwoCache_reachable : Reachable testTwoCache :=
  Reachable_addAll 1 [("key1", "value1"), ("key2", "value2")] (Reachable.new 20 false)
    (by decide)

theorem testEvictedCache_reachable : Reachable testEvictedCache :=
  Reachable_addAll 2 [("key1", "123456"), ("k2", "k2"), ("k3", "k3")] (Reachable.new 10 true)
    (by decide)

/-- The head of the list after `Add.store` is the entry `(key, value)`. -/
theorem store_head {c : Cache} (h : WF c) (key : String) (value : Value) :
    ∃ (e : Element) (rest : List Element), (Add.store c key value).ll = e :: rest ∧
      e.Value = { key := key, value := value } := by
  by_cases hk : key ∈ residentKeys c
  · obtain ⟨e, he, rfl⟩ := List.mem_map.1 hk
    obtain ⟨l1, l2, -, hs⟩ := store_hit h he value
    rw [hs]
    exact ⟨_, _, rfl, rfl⟩
  · rw [store_miss h hk]
    exact ⟨_, _, rfl, rfl⟩

theorem evict_unbounded {c : Cache} (hm : c.maxBytes = 0) (fuel : Nat) :
    Add.evict (fuel + 1) c = some c := by
  unfold Add.evict
  simp [hm]

/-- `Get` of the key at the head of the list returns its value. -/
theorem Get_head {c : Cache} (h : WF c) {e : Element} {rest : List Element}
    (hl : c.ll = e :: rest) : (Get c e.Value.key).2 = some e.Value.value := by
  obtain ⟨l1, l2, -, hg⟩ := Get_hit h (show e ∈ c.ll by rw [hl]; simp)
  rw [hg]

/-- C1: for every cache created by `New` and every finite sequence of `Add`, `Get`
and `RemoveOldest` calls on it, after each call `nbytes` equals the sum of
`len(key) + value.Len()` over the entries resident in the cache. -/
theorem nbytes_eq_residentBytes {c : Cache} (h : Reachable c) :
    c.nbytes = residentBytes c :=
  (Reachable_wf h).bytes

theorem nbytes_eq_residentBytes_witness :
    Reachable testAddCache ∧ testAddCache.nbytes = residentBytes testAddCache ∧
      testAddCache.nbytes = 6 :=
  ⟨testAddCache_reachable, nbytes_eq_residentBytes testAddCache_reachable, rfl⟩

/-- C2: for every cache whose `maxBytes` is not 0 and every key and value, when
`Add(key, value)` returns, `nbytes <= maxBytes` (and `maxBytes` is unchanged);
with a positive `maxBytes` the call does return, after at most one test of the
loop condition per entry on the list and one more. -/
theorem Add_nbytes_le_maxBytes {c : Cache} (h : Reachable c) (hm : c.maxBytes ≠ 0)
    (key : String) (value : Value) :
    (∀ fuel c', Add fuel c key value = some c' →
      c'.nbytes ≤ c'.maxBytes ∧ c'.maxBytes = c.maxBytes) ∧
    (0 < c.maxBytes →
      ∃ c', Add (c.ll.length + 2) c key value = some c' ∧ c'.nbytes ≤ c.maxBytes) := by
  have hws := WF_store (Reachable_wf h) key value
  have hbound : ∀ fuel c', Add fuel c key value = some c' →
      c'.nbytes ≤ c'.maxBytes ∧ c'.maxBytes = c.maxBytes := by
    intro fuel c' hc
    obtain ⟨ev, -, -, h3, -, h5⟩ := evict_spec hws hc
    rw [store_maxBytes] at h3
    constructor
    · have : c'.maxBytes ≠ 0 := by rw [h3]; exact hm
      simp only [not_and, not_lt] at h5
      exact h5 this
    · exact h3
  refine ⟨hbound, fun hpos => ?_⟩
  have hlen := store_length_le (Reachable_wf h) key value
  obtain ⟨c', hc'⟩ := evict_terminates (c.ll.length + 2) hws
    (by rw [store_maxBytes]; exact hpos) (by omega)
  refine ⟨c', hc', ?_⟩
  have := hbound _ _ hc'
  omega

theorem Add_nbytes_le_maxBytes_witness :
    Reachable testTwoCache ∧ testTwoCache.maxBytes ≠ 0 ∧
      (∀ fuel c', Add fuel testTwoCache "k3" { data := "v3" } = some c' →
        c'.nbytes ≤ c'.maxBytes ∧ c'.maxBytes = testTwoCache.maxBytes) ∧
      (0 < testTwoCache.maxBytes →
        ∃ c', Add (testTwoCache.ll.length + 2) testTwoCache "k3" { data := "v3" } = some c' ∧
          c'.nbytes ≤ testTwoCache.maxBytes) :=
  ⟨testTwoCache_reachable, by decide,
    Add_nbytes_le_maxBytes testTwoCache_reachable (by decide) "k3" { data := "v3" }⟩

theorem evictions_trace (fuel : Nat) (c : Cache) :
    (∀ s, (Add.evictions fuel c).head? = some s → s = c) ∧
      (Add.evictions fuel c).Chain' (fun s s' => s' = RemoveOldest s) := by
  induction fuel generalizing c with
  | zero => simp [Add.evictions]
  | succ n ih =>
    unfold Add.evictions
    split
    · refine ⟨fun s hs => by simpa using hs.symm, ?_⟩
      rw [List.chain'_cons']
      refine ⟨fun y hy => ?_, (ih (RemoveOldest c)).2⟩
      exact (ih (RemoveOldest c)).1 y hy
    · simp

theorem evict_eq_foldl {fuel : Nat} {c c' : Cache} (hc : Add.evict fuel c = some c') :
    c' = (Add.evictions fuel c).foldl (fun s _ => RemoveOldest s) c := by
  induction fuel generalizing c with
  | zero => simp [Add.evict] at hc
  | succ n ih =>
    unfold Add.evict at hc
    unfold Add.evictions
    split at hc
    · rename_i hcond
      rw [if_pos hcond, List.foldl_cons]
      exact ih hc
    · rename_i hcond
      rw [if_neg hcond]
      cases hc
      rfl

/-- C3: for every cache and every sequence of `Add` and `Get` calls, at each
moment of eviction of an `Add` (each cache `s` on which its loop calls
`RemoveOldest`) the entry evicted is the last element `old` of the list, and
the most recent touch of `old` is older than that of every other resident
entry.  The moments of eviction are the successive states of the loop: the
first is the cache after the insertion, each next one is `RemoveOldest` of the
one before, and the cache `Add` returns is `RemoveOldest` of the last one.  In
particular, with capacity 20, which holds exactly key1/value1 and key2/value2,
adding key1, key2 and k3 evicts key1 and leaves `Len() = 2`. -/
theorem evicts_least_recently_touched {c : Cache} {t : String → Nat}
    {a : String → Option Value} {n : Nat} (h : History c t a n) (fuel : Nat)
    (key : String) (value : Value) :
    (∀ s ∈ Add.evictions fuel (Add.store c key value), ∀ old : Element,
      s.ll.getLast? = some old →
        (RemoveOldest s).ll = s.ll.dropLast ∧
        ∀ y ∈ s.ll, y ≠ old → touch t key n old.Value.key < touch t key n y.Value.key) ∧
    ((∀ s, (Add.evictions fuel (Add.store c key value)).head? = some s →
        s = Add.store c key value) ∧
      (Add.evictions fuel (Add.store c key value)).Chain' (fun s s' => s' = RemoveOldest s) ∧
      ∀ c', Add fuel c key value = some c' →
        c' = (Add.evictions fuel (Add.store c key value)).foldl (fun s _ => RemoveOldest s)
          (Add.store c key value)) ∧
    (∃ c3, AddAll 2 (New 20 false) [("key1", "value1"), ("key2", "value2"), ("k3", "v3")]
        = some c3 ∧
      (Get c3 "key1").2 = none ∧ Len c3 = 2 ∧ residentKeys c3 = ["k3", "key2"]) := by
  refine ⟨?_, ⟨(evictions_trace _ _).1, (evictions_trace _ _).2, fun c' hc => evict_eq_foldl hc⟩,
    ?_⟩
  · obtain ⟨hw, hr, hs⟩ := History_inv h
    have hst := (store_recency hw hr hs key value).1
    have hws := WF_store hw key value
    intro s hs' old hold
    obtain ⟨hsw, hsr⟩ := evictions_inv (P := fun c => Recency c (touch t key n) (n + 1))
      (fun c hc hp => Recency_removeOldest hc hp) hws hst s hs'
    refine ⟨RemoveOldest_ll hsw, ?_⟩
    intro y hy hne
    obtain ⟨init, hl⟩ : ∃ init, s.ll = init ++ [old] := by
      rcases List.eq_nil_or_concat s.ll with h0 | ⟨init, e, h0⟩
      · rw [h0] at hold
        simp at hold
      · rw [List.concat_eq_append] at h0
        rw [h0, List.getLast?_concat] at hold
        cases hold
        exact ⟨init, h0⟩
    have hp := hsr.sorted
    rw [hl, List.pairwise_append] at hp
    rw [hl] at hy
    rcases List.mem_append.1 hy with hy | hy
    · exact hp.2.2 y hy old (by simp)
    · exact absurd (List.mem_singleton.1 hy) hne
  · exact ⟨_, (by decide : AddAll 2 (New 20 false)
      [("key1", "value1"), ("key2", "value2"), ("k3", "v3")] =
        some { maxBytes := 20, nbytes := 14,
               ll := [{ ptr := 2, Value := { key := "k3", value := { data := "v3" } } },
                      { ptr := 1, Value := { key := "key2", value := { data := "value2" } } }],
               cache := [("k3", 2), ("key2", 1)], OnEvicted := false, calls := [],
               nextPtr := 3 }), by decide, by decide, by decide⟩

theorem testTwoCache_history :
    History testTwoCache (touch (touch (fun _ => 0) "key1" 0) "key2" 1)
      (record (record (fun _ => none) "key1" { data := "value1" }) "key2" { data := "value2" })
      2 :=
  History.add 1 "key2" { data := "value2" }
    (History.add 1 "key1" { data := "value1" } (History.new 20 false)
      (by decide : Add 1 (New 20 false) "key1" { data := "value1" } =
        some { maxBytes := 20, nbytes := 10,
               ll := [{ ptr := 0, Value := { key := "key1", value := { data := "value1" } } }],
               cache := [("key1", 0)], OnEvicted := false, calls := [], nextPtr := 1 }))
    (by decide)

theorem evicts_least_recently_touched_witness :
    History testTwoCache (touch (touch (fun _ => 0) "key1" 0) "key2" 1)
      (record (record (fun _ => none) "key1" { data := "value1" }) "key2" { data := "value2" })
      2 ∧
    Add.evictions 2 (Add.store testTwoCache "k3" { data := "v3" }) =
      [Add.store testTwoCache "k3" { data := "v3" }] ∧
    (Add.store testTwoCache "k3" { data := "v3" }).ll.getLast? =
      some { ptr := 0, Value := { key := "key1", value := { data := "value1" } } } ∧
    (∀ s ∈ Add.evictions 2 (Add.store testTwoCache "k3" { data := "v3" }), ∀ old : Element,
      s.ll.getLast? = some old →
        (RemoveOldest s).ll = s.ll.dropLast ∧
        ∀ y ∈ s.ll, y ≠ old →
          touch (touch (touch (fun _ => 0) "key1" 0) "key2" 1) "k3" 2 old.Value.key <
            touch (touch (touch (fun _ => 0) "key1" 0) "key2" 1) "k3" 2 y.Value.key) :=
  ⟨testTwoCache_history, by decide, by decide,
    (evicts_least_recently_touched testTwoCache_history 2 "k3" { data := "v3" }).1⟩

theorem Get_calls (c : Cache) (key : String) : (Get c key).1.calls = c.calls := by
  unfold Get
  split
  · split <;> rfl
  · rfl

theorem Get_OnEvicted (c : Cache) (key : String) : (Get c key).1.OnEvicted = c.OnEvicted := by
  unfold Get
  split
  · split <;> rfl
  · rfl

/-- `Get` on a cache holding exactly two keys leaves the key it was given in
front of the other one. -/
theorem Get_two {c : Cache} (h : WF c) {a b : String} (hab : a ≠ b)
    (hres : residentKeys c = [b, a] ∨ residentKeys c = [a, b]) :
    ∃ ea eb : Element, ea.Value.key = a ∧ eb.Value.key = b ∧ (Get c a).1.ll = [ea, eb] := by
  have hmem : a ∈ residentKeys c := by rcases hres with h | h <;> rw [h] <;> simp
  obtain ⟨e, he, rfl⟩ := List.mem_map.1 hmem
  obtain ⟨l1, l2, hl, hg⟩ := Get_hit h he
  rw [hg]
  simp only [residentKeys, hl, List.map_append, List.map_cons] at hres
  rcases hres with hres | hres
  · rcases l1 with _ | ⟨x, _ | ⟨y, l1⟩⟩
    · simp only [List.map_nil, List.nil_append, List.cons.injEq] at hres
      exact absurd hres.1 hab
    · simp only [List.map_cons, List.map_nil, List.singleton_append, List.cons.injEq,
        true_and, List.map_eq_nil_iff] at hres
      obtain ⟨hx, rfl⟩ := hres
      exact ⟨e, x, rfl, hx, rfl⟩
    · simp at hres
  · rcases l1 with _ | ⟨x, l1⟩
    · rcases l2 with _ | ⟨y, _ | ⟨z, l2⟩⟩
      · simp at hres
      · simp only [List.map_nil, List.nil_append, List.map_cons, List.cons.injEq, true_and,
          and_true] at hres
        exact ⟨e, y, rfl, hres, rfl⟩
      · simp at hres
    · simp only [List.map_cons, List.cons_append, List.cons.injEq] at hres
      obtain ⟨hx, hrest⟩ := hres
      rcases l1 with _ | ⟨y, l1⟩
      · simp only [List.map_nil, List.nil_append, List.cons.injEq] at hrest
        exact absurd hrest.1 hab
      · simp at hrest

/-- C4: for every cache holding exactly the two keys `a` and `b` (in either
recency order, so also when `a` was added before `b`), if `Get(a)` is called and
then a new key `k` is added whose insertion forces exactly one eviction (two
entries are left), the evicted key is `b` and `a` remains resident. -/
theorem Get_promotes {c c' : Cache} (h : Reachable c) {a b k : String} (hab : a ≠ b)
    (hres : residentKeys c = [b, a] ∨ residentKeys c = [a, b]) (hka : k ≠ a) (hkb : k ≠ b)
    (fuel : Nat) (value : Value) (hadd : Add fuel (Get c a).1 k value = some c')
    (hone : Len c' = 2) :
    residentKeys c' = [k, a] ∧ b ∉ residentKeys c' ∧ a ∈ residentKeys c' ∧
      (c.OnEvicted = true → ∃ v, c'.calls = c.calls ++ [(b, v)]) := by
  have hw := (Reachable_wf h)
  have hwg := WF_Get hw a
  obtain ⟨ea, eb, hea, heb, hg⟩ := Get_two hw hab hres
  have hk : k ∉ residentKeys (Get c a).1 := by
    simp [residentKeys, hg, hea, heb, hka, hkb]
  have hst := store_miss hwg hk value
  obtain ⟨ev, h1, h2, -, -, -⟩ := evict_spec (WF_store hwg k value) hadd
  rw [hst] at h1 h2
  simp only [hg] at h1 h2
  have hlen : c'.ll.length = 2 := by
    have := hone
    unfold Len at this
    exact_mod_cast this
  have hev : c'.ll = [{ ptr := (Get c a).1.nextPtr, Value := { key := k, value := value } }, ea] ∧
      ev = [eb] := by
    rcases hc : c'.ll with _ | ⟨x, _ | ⟨y, _ | ⟨z, l⟩⟩⟩
    · rw [hc] at hlen; simp at hlen
    · rw [hc] at hlen; simp at hlen
    · rw [hc] at h1
      simp only [List.cons_append, List.nil_append, List.cons.injEq] at h1
      obtain ⟨rfl, rfl, h1⟩ := h1
      exact ⟨rfl, h1.symm⟩
    · rw [hc] at hlen; simp at hlen
  obtain ⟨hc', rfl⟩ := hev
  have hkeys : residentKeys c' = [k, a] := by simp [residentKeys, hc', hea]
  refine ⟨hkeys, ?_, ?_, ?_⟩
  · rw [hkeys]
    simp only [List.mem_cons, List.mem_singleton, List.not_mem_nil, or_false, not_or]
    exact ⟨fun e => hkb e.symm, fun e => hab e.symm⟩
  · rw [hkeys]
    simp
  · intro hcb
    refine ⟨eb.Value.value, ?_⟩
    rw [h2, Get_calls, Get_OnEvicted, hcb]
    simp [heb]

theorem Get_promotes_witness :
    Reachable testTwoCache ∧ "key1" ≠ "key2" ∧
      (residentKeys testTwoCache = ["key2", "key1"] ∨
        residentKeys testTwoCache = ["key1", "key2"]) ∧
      Add 2 (Get testTwoCache "key1").1 "k3" { data := "v3" } =
        some { maxBytes := 20, nbytes := 14,
               ll := [{ ptr := 2, Value := { key := "k3", value := { data := "v3" } } },
                      { ptr := 0, Value := { key := "key1", value := { data := "value1" } } }],
               cache := [("k3", 2), ("key1", 0)], OnEvicted := false, calls := [],
               nextPtr := 3 } ∧
      "key2" ∉ residentKeys
        ({ maxBytes := 20, nbytes := 14,
           ll := [{ ptr := 2, Value := { key := "k3", value := { data := "v3" } } },
                  { ptr := 0, Value := { key := "key1", value := { data := "value1" } } }],
           cache := [("k3", 2), ("key1", 0)], OnEvicted := false, calls := [],
           nextPtr := 3 } : Cache) :=
  ⟨testTwoCache_reachable, by decide, by decide, by decide,
    (Get_promotes testTwoCache_reachable (a := "key1") (b := "key2") (k := "k3") (by decide)
      (by decide) (by decide) (by decide) 2 { data := "v3" } (by decide) (by decide)).2.1⟩

/-- C5: for every cache and key `k`, `Get(k)` returns `(v, true)` when `k` is
resident, where `v` is the value given by the most recent `Add(k, v)`, and the
not-found result when `k` is not resident; in particular on an unbounded cache
`Add(k, v)` followed by `Get(k)` returns `(v, true)`, and `Get` of a key that
was never added returns not-found. -/
theorem Get_returns_last_added {c : Cache} {t : String → Nat} {a : String → Option Value}
    {n : Nat} (h : History c t a n) (k : String) :
    (k ∈ residentKeys c → ∃ v, a k = some v ∧ (Get c k).2 = some v) ∧
    (k ∉ residentKeys c → (Get c k).2 = none) ∧
    (c.maxBytes = 0 → ∀ v, ∃ c', Add 1 c k v = some c' ∧ (Get c' k).2 = some v) ∧
    (a k = none → (Get c k).2 = none) := by
  obtain ⟨hw, -, hs⟩ := History_inv h
  have hmiss : k ∉ residentKeys c → (Get c k).2 = none := by
    intro hk
    rw [Get_miss hw hk]
  refine ⟨?_, hmiss, ?_, ?_⟩
  · intro hk
    obtain ⟨e, he, rfl⟩ := List.mem_map.1 hk
    obtain ⟨l1, l2, -, hg⟩ := Get_hit hw he
    exact ⟨e.Value.value, hs e he, by rw [hg]⟩
  · intro hm v
    refine ⟨Add.store c k v, ?_, ?_⟩
    · unfold Add
      exact evict_unbounded (by rw [store_maxBytes]; exact hm) 0
    · obtain ⟨e, rest, hl, he⟩ := store_head hw k v
      have := Get_head (WF_store hw k v) hl
      rw [he] at this
      exact this
  · intro hak
    apply hmiss
    intro hk
    obtain ⟨e, he, rfl⟩ := List.mem_map.1 hk
    rw [hs e he] at hak
    cases hak

theorem Get_returns_last_added_witness :
    History testTwoCache (touch (touch (fun _ => 0) "key1" 0) "key2" 1)
      (record (record (fun _ => none) "key1" { data := "value1" }) "key2" { data := "value2" })
      2 ∧
    "key1" ∈ residentKeys testTwoCache ∧
    ∃ v, record (record (fun _ => none) "key1" { data := "value1" }) "key2" { data := "value2" }
        "key1" = some v ∧ (Get testTwoCache "key1").2 = some v :=
  ⟨testTwoCache_history, by decide,
    (Get_returns_last_added testTwoCache_history "key1").1 (by decide)⟩

/-- C6: for every cache in which key `k` is resident with value `old`, `Add(k, new)`
on an unbounded cache returns, keeps the number of entries (of the list and of
the index) unchanged, makes the stored value of `k` equal to `new`, changes
`nbytes` by exactly `new.Len() - old.Len()`, and makes `k` the most recently
used entry (the front of the list). -/
theorem Add_resident_unbounded {c : Cache} (h : Reachable c) (hm : c.maxBytes = 0)
    {k : String} {old : Value} (hk : ({ key := k, value := old } : entry) ∈ entries c)
    (new : Value) (fuel : Nat) :
    ∃ c', Add (fuel + 1) c k new = some c' ∧
      Len c' = Len c ∧ c'.cache = c.cache ∧
      (entries c').head? = some { key := k, value := new } ∧
      (Get c' k).2 = some new ∧
      c'.nbytes = c.nbytes + (new.Len - old.Len) := by
  have hw := (Reachable_wf h)
  obtain ⟨e, he, hev⟩ := List.mem_map.1 hk
  have hek : e.Value.key = k := by rw [hev]
  have heo : e.Value.value = old := by rw [hev]
  obtain ⟨l1, l2, hl, hs⟩ := store_hit hw he new
  rw [hek, heo] at hs
  refine ⟨Add.store c k new, ?_, ?_, ?_, ?_, ?_, ?_⟩
  · unfold Add
    exact evict_unbounded (by rw [store_maxBytes]; exact hm) fuel
  · rw [hs]
    simp only [Len, hl, List.length_cons, List.length_append]
    push_cast
    ring
  · rw [hs]
  · rw [hs]
    simp [entries, hek]
  · have hws := WF_store hw k new
    have hl' : (Add.store c k new).ll =
        { e with Value := { e.Value with value := new } } :: (l1 ++ l2) := by rw [hs]
    have := Get_head hws hl'
    simp only [hek] at this
    exact this
  · rw [hs]

theorem Add_resident_unbounded_witness :
    Reachable testAddCache ∧ testAddCache.maxBytes = 0 ∧
      ({ key := "key", value := { data := "111" } } : entry) ∈ entries testAddCache ∧
      ∃ c', Add 1 testAddCache "key" { data := "12345" } = some c' ∧
        Len c' = Len testAddCache ∧ c'.cache = testAddCache.cache ∧
        (entries c').head? = some { key := "key", value := { data := "12345" } } ∧
        (Get c' "key").2 = some { data := "12345" } ∧
        c'.nbytes =
          testAddCache.nbytes + ((⟨"12345"⟩ : Value).Len - (⟨"111"⟩ : Value).Len) :=
  ⟨testAddCache_reachable, by decide, by decide,
    Add_resident_unbounded testAddCache_reachable (by decide) (by decide) { data := "12345" } 0⟩

/-- C7: for every cache with a non-nil `OnEvicted` callback, an `Add` that
returns has removed a suffix `ev` of the list and has invoked the callback
exactly once for each entry of `ev`, with that entry's key and value, in the
order of eviction (from the back of the list, least recently used first), and
for no entry that stays resident.  With `maxBytes = 10`, adding key1/123456,
k2/k2, k3/k3, k4/k4 yields the callback key sequence [key1, k2]. -/
theorem OnEvicted_calls {c c' : Cache} (h : Reachable c) (hcb : c.OnEvicted = true)
    {fuel : Nat} {key : String} {value : Value} (hadd : Add fuel c key value = some c') :
    (∃ ev : List Element,
      (Add.store c key value).ll = c'.ll ++ ev ∧
      c'.calls = c.calls ++ ev.reverse.map (fun e => (e.Value.key, e.Value.value)) ∧
      (ev.map (fun e => e.Value.key)).Nodup ∧
      ∀ e ∈ c'.ll, e.Value.key ∉ ev.map (fun e => e.Value.key)) ∧
    (∃ c4, AddAll 2 (New 10 true)
        [("key1", "123456"), ("k2", "k2"), ("k3", "k3"), ("k4", "k4")] = some c4 ∧
      c4.calls.map Prod.fst = ["key1", "k2"] ∧ residentKeys c4 = ["k4", "k3"]) := by
  constructor
  · have hws := WF_store (Reachable_wf h) key value
    obtain ⟨ev, h1, h2, -, -, -⟩ := evict_spec hws hadd
    rw [store_calls, store_OnEvicted, hcb] at h2
    have hnd := WF_key_nodup hws
    simp only [residentKeys, h1, List.map_append] at hnd
    rw [List.nodup_append] at hnd
    refine ⟨ev, h1, by simpa using h2, hnd.2.1, ?_⟩
    intro e he hmem
    exact hnd.2.2 (List.mem_map_of_mem (fun e => e.Value.key) he) hmem
  · exact ⟨_, (by decide : AddAll 2 (New 10 true)
      [("key1", "123456"), ("k2", "k2"), ("k3", "k3"), ("k4", "k4")] =
        some { maxBytes := 10, nbytes := 8,
               ll := [{ ptr := 3, Value := { key := "k4", value := { data := "k4" } } },
                      { ptr := 2, Value := { key := "k3", value := { data := "k3" } } }],
               cache := [("k4", 3), ("k3", 2)], OnEvicted := true,
               calls := [("key1", { data := "123456" }), ("k2", { data := "k2" })],
               nextPtr := 4 }), by decide, by decide⟩

theorem OnEvicted_calls_witness :
    Reachable testEvictedCache ∧ testEvictedCache.OnEvicted = true ∧
      Add 2 testEvictedCache "k4" { data := "k4" } =
        some { maxBytes := 10, nbytes := 8,
               ll := [{ ptr := 3, Value := { key := "k4", value := { data := "k4" } } },
                      { ptr := 2, Value := { key := "k3", value := { data := "k3" } } }],
               cache := [("k4", 3), ("k3", 2)], OnEvicted := true,
               calls := [("key1", { data := "123456" }), ("k2", { data := "k2" })],
               nextPtr := 4 } ∧
      ∃ ev : List Element,
        (Add.store testEvictedCache "k4" { data := "k4" }).ll =
          [{ ptr := 3, Value := { key := "k4", value := { data := "k4" } } },
           { ptr := 2, Value := { key := "k3", value := { data := "k3" } } }] ++ ev ∧
        [("key1", ({ data := "123456" } : Value)), ("k2", { data := "k2" })] =
          testEvictedCache.calls ++ ev.reverse.map (fun e => (e.Value.key, e.Value.value)) :=
  ⟨testEvictedCache_reachable, by decide, by decide,
    (OnEvicted_calls testEvictedCache_reachable (by decide)
      (by decide : Add 2 testEvictedCache "k4" { data := "k4" } =
        some { maxBytes := 10, nbytes := 8,
               ll := [{ ptr := 3, Value := { key := "k4", value := { data := "k4" } } },
                      { ptr := 2, Value := { key := "k3", value := { data := "k3" } } }],
               cache := [("k4", 3), ("k3", 2)], OnEvicted := true,
               calls := [("key1", { data := "123456" }), ("k2", { data := "k2" })],
               nextPtr := 4 })).1.imp
      (fun _ hev => ⟨hev.1, hev.2.1⟩)⟩

/-- C8 (the behaviour of the code on a negative budget): `Add` on the cache
`New(-1, nil)` does not return, whatever the number of iterations allowed to its
eviction loop: once the list is empty `RemoveOldest` changes nothing and
`maxBytes < nbytes` stays true. -/
theorem Add_negative_maxBytes_diverges :
    ∀ fuel : Nat, Add fuel (New (-1) false) "key" { data := "value" } = none := by
  intro fuel
  unfold Add
  exact evict_diverges (WF_store (WF_New _ _) _ _) (by rw [store_maxBytes]; decide) fuel

end lru

namespace sort

/-- Binary search between `i` and `j` on a predicate that is monotone below `n`
keeps the loop invariant of `sort.Search` and ends on the boundary. -/
theorem Search_loop_spec (f : Nat → Bool) (n : Nat)
    (hmono : ∀ x y, x ≤ y → y < n → f x = true → f y = true) :
    ∀ fuel i j, i ≤ j → j ≤ n → j - i ≤ fuel → (∀ k, k < i → f k = false) →
      (∀ k, j ≤ k → k < n → f k = true) →
      i ≤ Search.loop f fuel i j ∧ Search.loop f fuel i j ≤ j ∧
        (∀ k, k < Search.loop f fuel i j → f k = false) ∧
        (∀ k, Search.loop f fuel i j ≤ k → k < n → f k = true) := by
  intro fuel
  induction fuel with
  | zero =>
    intro i j hij _ hf hlo hhi
    have : i = j := by omega
    subst this
    exact ⟨le_refl _, le_refl _, hlo, hhi⟩
  | succ m ih =>
    intro i j hij hjn hf hlo hhi
    unfold Search.loop
    by_cases hlt : i < j
    · rw [if_pos hlt]
      have h1 : i ≤ (i + j) / 2 := by omega
      have h2 : (i + j) / 2 < j := by omega
      cases hfh : f ((i + j) / 2) with
      | false =>
        simp only [Bool.not_false, if_true]
        have hlo' : ∀ k, k < (i + j) / 2 + 1 → f k = false := by
          intro k hk
          cases hfk : f k with
          | false => rfl
          | true =>
            have := hmono k ((i + j) / 2) (by omega) (by omega) hfk
            rw [hfh] at this
            cases this
        obtain ⟨r1, r2, r3, r4⟩ := ih ((i + j) / 2 + 1) j (by omega) hjn (by omega) hlo' hhi
        exact ⟨by omega, r2, r3, r4⟩
      | true =>
        simp only [Bool.not_true, Bool.false_eq_true, if_false]
        have hhi' : ∀ k, (i + j) / 2 ≤ k → k < n → f k = true :=
          fun k hk hkn => hmono _ k hk hkn hfh
        obtain ⟨r1, r2, r3, r4⟩ := ih i ((i + j) / 2) h1 (by omega) (by omega) hlo hhi'
        exact ⟨r1, by omega, r3, r4⟩
    · rw [if_neg hlt]
      have : i = j := by omega
      subst this
      exact ⟨le_refl _, le_refl _, hlo, hhi⟩

theorem Search_spec (f : Nat → Bool) (n : Nat)
    (hmono : ∀ x y, x ≤ y → y < n → f x = true → f y = true) :
    Search n f ≤ n ∧ (∀ k, k < Search n f → f k = false) ∧
      (∀ k, Search n f ≤ k → k < n → f k = true) := by
  obtain ⟨-, r2, r3, r4⟩ := Search_loop_spec f n hmono n 0 n (Nat.zero_le _) (le_refl _)
    (by omega) (fun k hk => absurd hk (Nat.not_lt_zero k)) (fun k h1 h2 => by omega)
  exact ⟨r2, r3, r4⟩

theorem getD_le_of_sorted {a : List Int} (hs : a.Sorted (fun x y => x ≤ y)) {i j : Nat}
    (hij : i ≤ j) (hj : j < a.length) : a.getD i 0 ≤ a.getD j 0 := by
  have hi : i < a.length := by omega
  rw [List.getD_eq_getElem _ _ hi, List.getD_eq_getElem _ _ hj]
  rcases Nat.eq_or_lt_of_le hij with rfl | hlt
  · exact le_refl _
  · exact List.pairwise_iff_getElem.1 hs i j hi hj hlt

/-- The search of `Map.Get` and `sort.SearchInts` on a sorted slice: the index
of the first element that is at least `x`, or the length when there is none. -/
theorem search_sorted {a : List Int} (hs : a.Sorted (fun x y => x ≤ y)) (x : Int) :
    Search a.length (fun i => decide (a.getD i 0 ≥ x)) ≤ a.length ∧
      (∀ k, k < Search a.length (fun i => decide (a.getD i 0 ≥ x)) → a.getD k 0 < x) ∧
      (∀ k, Search a.length (fun i => decide (a.getD i 0 ≥ x)) ≤ k → k < a.length →
        x ≤ a.getD k 0) := by
  have hmono : ∀ p q, p ≤ q → q < a.length →
      (fun i => decide (a.getD i 0 ≥ x)) p = true → (fun i => decide (a.getD i 0 ≥ x)) q = true := by
    intro p q hpq hq hp
    simp only [ge_iff_le, decide_eq_true_eq] at hp ⊢
    exact le_trans hp (getD_le_of_sorted hs hpq hq)
  obtain ⟨r1, r2, r3⟩ := Search_spec _ a.length hmono
  refine ⟨r1, ?_, ?_⟩
  · intro k hk
    have := r2 k hk
    simp only [ge_iff_le, decide_eq_false_iff_not, not_le] at this
    exact this
  · intro k hk hkn
    have := r3 k hk hkn
    simp only [ge_iff_le, decide_eq_true_eq] at this
    exact this

theorem Ints_sorted (a : List Int) : (Ints a).Sorted (fun x y => x ≤ y) :=
  List.sorted_insertionSort _ a

theorem mem_Ints {a : List Int} {x : Int} : x ∈ Ints a ↔ x ∈ a :=
  (List.perm_insertionSort _ a).mem_iff

end sort

namespace consistenthash

theorem Add_keys_sorted (m : Map) (keys : List String) :
    (Add m keys).keys.Sorted (fun x y => x ≤ y) :=
  sort.Ints_sorted _

theorem Mapped_virtual {m : Map} (h : Mapped m) (key : String) (i : Nat) :
    Mapped (Add.virtual m key i) := by
  intro k hk
  simp only [Add.virtual, List.mem_append, List.mem_singleton] at hk ⊢
  by_cases hkp : k = m.position (strconv.Itoa i ++ key)
  · subst hkp
    exact ⟨key, GoMap.get_set_self _ _ _⟩
  · rw [GoMap.get_set_ne _ _ hkp]
    rcases hk with hk | hk
    · exact h k hk
    · exact absurd hk hkp

theorem Mapped_append {m : Map} (h : Mapped m) (keys : List String) :
    Mapped (Add.append m keys) := by
  unfold Add.append
  induction keys generalizing m with
  | nil => exact h
  | cons key rest ih =>
    rw [List.foldl_cons]
    apply ih
    generalize List.range m.replicas.toNat = is
    induction is generalizing m with
    | nil => exact h
    | cons i is ih2 =>
      rw [List.foldl_cons]
      exact ih2 (Mapped_virtual h key i)

theorem Mapped_Add {m : Map} (h : Mapped m) (keys : List String) : Mapped (Add m keys) := by
  intro k hk
  simp only [Add] at hk ⊢
  exact Mapped_append h keys k (sort.mem_Ints.1 hk)

/-- An invariant of the body of the loop of `Remove` is an invariant of `Remove`. -/
theorem Remove_inv {P : Map → Prop} {key : String}
    (hP : ∀ m i m', P m → Remove.virtual m key i = some m' → P m')
    {m m' : Map} (h : P m) (hr : Remove m key = some m') : P m' := by
  unfold Remove at hr
  generalize List.range m.replicas.toNat = is at hr
  induction is generalizing m with
  | nil =>
    simp only [List.foldlM_nil] at hr
    cases hr
    exact h
  | cons i is ih =>
    rw [List.foldlM_cons] at hr
    cases hv : Remove.virtual m key i with
    | none => simp [hv] at hr
    | some m1 =>
      rw [hv] at hr
      exact ih (hP m i m1 h hv) hr

theorem virtual_keys_sublist {m m' : Map} {key : String} {i : Nat}
    (hv : Remove.virtual m key i = some m') : m'.keys.Sublist m.keys := by
  unfold Remove.virtual at hv
  split at hv
  · cases hv
    simp only
    rw [← List.eraseIdx_eq_take_drop_succ]
    exact List.eraseIdx_sublist _ _
  · cases hv

theorem Sorted_virtual {m m' : Map} {key : String} {i : Nat}
    (h : m.keys.Sorted (fun x y => x ≤ y)) (hv : Remove.virtual m key i = some m') :
    m'.keys.Sorted (fun x y => x ≤ y) :=
  List.Pairwise.sublist (virtual_keys_sublist hv) h

/-- One iteration of `Remove` on a sorted ring without duplicates keeps every
remaining position mapped. -/
theorem Mapped_Remove_virtual {m m' : Map} {key : String} {i : Nat}
    (hs : m.keys.Sorted (fun x y => x ≤ y)) (hn : m.keys.Nodup) (h : Mapped m)
    (hv : Remove.virtual m key i = some m') : Mapped m' := by
  have hsub := virtual_keys_sublist hv
  unfold Remove.virtual at hv
  split at hv
  · rename_i hidx
    cases hv
    obtain ⟨-, r2, r3⟩ := sort.search_sorted hs (m.position (strconv.Itoa i ++ key))
    intro k hk
    have hkm : k ∈ m.keys := hsub.subset hk
    have hne : k ≠ m.position (strconv.Itoa i ++ key) := by
      simp only [sort.SearchInts, List.mem_append] at hk hidx
      generalize sort.Search m.keys.length
        (fun i_1 => decide (m.keys.getD i_1 0 ≥ m.position (strconv.Itoa i ++ key))) = idx
        at hk hidx r2 r3
      have hlt : idx < m.keys.length := by omega
      rcases hk with hk | hk
      · obtain ⟨j, hj, rfl⟩ := List.mem_take_iff_getElem.1 hk
        have hj' : j < m.keys.length := by omega
        have := r2 j (by omega)
        rw [List.getD_eq_getElem _ _ hj'] at this
        omega
      · obtain ⟨j, hj, rfl⟩ := List.mem_drop_iff_getElem.1 hk
        intro heq
        have h1 := r3 idx (le_refl _) hlt
        rw [List.getD_eq_getElem _ _ hlt] at h1
        have hj' : idx + 1 + j < m.keys.length := by omega
        have h2 := List.pairwise_iff_getElem.1 hs idx (idx + 1 + j) hlt hj' (by omega)
        have h3 := List.pairwise_iff_getElem.1 hn idx (idx + 1 + j) hlt hj' (by omega)
        apply h3
        omega
    simp only
    rw [GoMap.get_delete_ne _ hne]
    exact h k hkm
  · cases hv

theorem Reachable_sorted {m : Map} (h : Reachable m) : m.keys.Sorted (fun x y => x ≤ y) := by
  induction h with
  | new ChecksumIEEE replicas fn => simp [New]
  | add keys _ _ => exact Add_keys_sorted _ keys
  | remove key _ hr ih =>
    exact Remove_inv (P := fun m => m.keys.Sorted (fun x y => x ≤ y))
      (fun m i m' hm hv => Sorted_virtual hm hv) ih hr

theorem ReachableDistinct_reachable {m : Map} (h : ReachableDistinct m) : Reachable m := by
  induction h with
  | new ChecksumIEEE replicas fn => exact Reachable.new _ _ _
  | add keys _ ih => exact Reachable.add keys ih
  | remove key _ _ hr ih => exact Reachable.remove key ih hr

theorem ReachableDistinct_inv {m : Map} (h : ReachableDistinct m) :
    m.keys.Sorted (fun x y => x ≤ y) ∧ Mapped m := by
  induction h with
  | new ChecksumIEEE replicas fn => simp [New, Mapped]
  | add keys _ ih => exact ⟨Add_keys_sorted _ keys, Mapped_Add ih.2 keys⟩
  | remove key _ hn hr ih =>
    have := Remove_inv
      (P := fun m => m.keys.Sorted (fun x y => x ≤ y) ∧ m.keys.Nodup ∧ Mapped m)
      (fun m i m' hm hv => ⟨Sorted_virtual hm.1 hv, hm.2.1.sublist (virtual_keys_sublist hv),
        Mapped_Remove_virtual hm.1 hm.2.1 hm.2.2 hv⟩) ⟨ih.1, hn, ih.2⟩ hr
    exact ⟨this.1, this.2.2⟩

theorem testRing_reachable : Reachable testRing :=
  Reachable.add _ (Reachable.new testHash 3 (some testHash))

theorem testRingRemoved_distinct : ReachableDistinct testRingRemoved :=
  ReachableDistinct.remove "4"
    (ReachableDistinct.add _ (ReachableDistinct.new testHash 3 (some testHash)))
    (by decide : testRing.keys.Nodup) (rfl : Remove testRing "4" = some testRingRemoved)

/-- C9: for every map and key, `Get(key)` returns the empty string if the ring
is empty; otherwise it returns the node that `hashMap` assigns to the smallest
ring position `>= hash(key)`, or, when no ring position is `>= hash(key)`, the
node assigned to the smallest ring position overall.  With the decimal hash, 3
replicas and nodes 6, 4, 2 (positions 2, 4, 6, 12, 14, 16, 22, 24, 26), keys 2,
11, 23, 27 map to nodes 2, 2, 4, 2. -/
theorem Get_clockwise {m : Map} (h : Reachable m) (key : String) :
    (m.keys = [] → Get m key = "") ∧
    (∀ p ∈ m.keys, m.position key ≤ p → (∀ q ∈ m.keys, m.position key ≤ q → p ≤ q) →
      Get m key = m.node p) ∧
    ((∀ q ∈ m.keys, q < m.position key) → ∀ p ∈ m.keys, (∀ q ∈ m.keys, p ≤ q) →
      Get m key = m.node p) ∧
    (testRing.keys = [2, 4, 6, 12, 14, 16, 22, 24, 26] ∧
      Get testRing "2" = "2" ∧ Get testRing "11" = "2" ∧ Get testRing "23" = "4" ∧
      Get testRing "27" = "2") := by
  have hs := Reachable_sorted h
  obtain ⟨r1, r2, r3⟩ := sort.search_sorted hs (m.position key)
  refine ⟨?_, ?_, ?_, by decide⟩
  · intro h0
    simp [Get, h0]
  · intro p hp hle hmin
    obtain ⟨i, hi, rfl⟩ := List.getElem_of_mem hp
    unfold Get
    rw [if_neg (by omega)]
    generalize sort.Search m.keys.length
      (fun i => decide (m.keys.getD i 0 ≥ m.position key)) = idx at r1 r2 r3
    have hidx : idx ≤ i := by
      by_contra hc
      have := r2 i (by omega)
      rw [List.getD_eq_getElem _ _ hi] at this
      omega
    have hlt : idx < m.keys.length := by omega
    rw [Nat.mod_eq_of_lt hlt]
    have h1 := r3 idx (le_refl _) hlt
    have h2 := sort.getD_le_of_sorted hs hidx hi
    rw [List.getD_eq_getElem _ _ hlt] at h1 h2 ⊢
    rw [List.getD_eq_getElem _ _ hi] at h2
    have h3 := hmin _ (List.getElem_mem hlt) h1
    congr 1
    omega
  · intro hall p hp hmin
    obtain ⟨i, hi, rfl⟩ := List.getElem_of_mem hp
    unfold Get
    rw [if_neg (by omega)]
    generalize sort.Search m.keys.length
      (fun i => decide (m.keys.getD i 0 ≥ m.position key)) = idx at r1 r2 r3
    have hidx : idx = m.keys.length := by
      by_contra hc
      have hlt : idx < m.keys.length := by omega
      have h1 := r3 idx (le_refl _) hlt
      rw [List.getD_eq_getElem _ _ hlt] at h1
      have := hall _ (List.getElem_mem hlt)
      omega
    have h0 : 0 < m.keys.length := by omega
    rw [hidx, Nat.mod_self]
    have h2 := sort.getD_le_of_sorted hs (Nat.zero_le i) hi
    rw [List.getD_eq_getElem _ _ h0] at h2 ⊢
    rw [List.getD_eq_getElem _ _ hi] at h2
    have h3 := hmin _ (List.getElem_mem h0)
    congr 1
    omega

theorem Get_clockwise_witness :
    Reachable testRing ∧ (12 : Int) ∈ testRing.keys ∧ testRing.position "11" ≤ 12 ∧
      (∀ q ∈ testRing.keys, testRing.position "11" ≤ q → 12 ≤ q) ∧
      Get testRing "11" = testRing.node 12 ∧ testRing.node 12 = "2" :=
  ⟨testRing_reachable, by decide, by decide, by decide,
    (Get_clockwise testRing_reachable "11").2.1 12 (by decide) (by decide) (by decide),
    by decide⟩

/-- C10, as stated, fails: after `Add("2")`, `Add("2")` and `Remove("2")` on a
map with one replica and the decimal hash, the ring is `[2]` and the
position-to-node mapping is empty, so position 2 of the ring is not a key of
the mapping. -/
theorem ring_position_unmapped :
    ¬ ∀ m : Map, Reachable m →
      m.keys.Sorted (fun x y => x ≤ y) ∧ ∀ k ∈ m.keys, ∃ node, GoMap.get m.hashMap k = some node := by
  intro hall
  have hsome : (Remove (Add (Add (New testHash 1 (some testHash)) ["2"]) ["2"]) "2").map
      (fun m => (m.keys, m.hashMap)) = some ([2], []) := by decide
  cases hr : Remove (Add (Add (New testHash 1 (some testHash)) ["2"]) ["2"]) "2" with
  | none => simp [hr] at hsome
  | some m =>
    rw [hr] at hsome
    simp only [Option.map_some', Option.some.injEq, Prod.mk.injEq] at hsome
    have hreach : Reachable m :=
      Reachable.remove "2" (Reachable.add _ (Reachable.add _ (Reachable.new _ _ _))) hr
    obtain ⟨node, hnode⟩ := (hall m hreach).2 2 (by rw [hsome.1]; simp)
    rw [hsome.2] at hnode
    simp [GoMap.get] at hnode

/-- C10, amended: for every map created by `New` and every finite sequence of
`Add` and `Remove` calls that return, after each call the ring `keys` is sorted
in ascending order; and every value in `keys` is a key of `hashMap` as long as
each `Remove` of the sequence is called on a ring that holds no position twice. -/
theorem keys_sorted_and_mapped (m : Map) :
    (Reachable m → m.keys.Sorted (fun x y => x ≤ y)) ∧
    (ReachableDistinct m →
      Reachable m ∧ ∀ k ∈ m.keys, ∃ node, GoMap.get m.hashMap k = some node) :=
  ⟨Reachable_sorted, fun h => ⟨ReachableDistinct_reachable h, (ReachableDistinct_inv h).2⟩⟩

theorem keys_sorted_and_mapped_witness :
    ReachableDistinct testRingRemoved ∧
      testRingRemoved.keys.Sorted (fun x y => x ≤ y) ∧
      ∀ k ∈ testRingRemoved.keys, ∃ node, GoMap.get testRingRemoved.hashMap k = some node :=
  ⟨testRingRemoved_distinct,
    (keys_sorted_and_mapped testRingRemoved).1
      ((keys_sorted_and_mapped testRingRemoved).2 testRingRemoved_distinct).1,
    ((keys_sorted_and_mapped testRingRemoved).2 testRingRemoved_distinct).2⟩

end consistenthash

namespace singleflight

/-- `Do` on a group with no record for `key`, when `fn` returns. -/
theorem Do_idle {α σ : Type} (g : Group α) (key : String)
    (fn : σ → Option ((Option α × Option String) × σ)) (s : σ)
    (r : Option α × Option String) (s' : σ)
    (hi : GoMap.get (g.m.getD []) key = none) (hf : fn s = some (r, s')) :
    Do g key fn s = some (r,
      { m := some (GoMap.delete
          (GoMap.set (g.m.getD []) key { done := true, val := r.1, err := r.2 }) key) },
      s') := by
  unfold Do
  rw [hi]
  simp only [hf]

/-- After `Do` has returned the map holds the records it held before, and none
for `key`. -/
theorem get_after_Do {α : Type} (m : List (String × call α)) (key : String) (c : call α)
    (k : String) (hk : GoMap.get m k = none) :
    GoMap.get (GoMap.delete (GoMap.set m key c) key) k = none := by
  by_cases h : k = key
  · subst h
    exact GoMap.get_delete_self _ _
  · rw [GoMap.get_delete_ne _ h, GoMap.get_set_ne _ _ h]
    exact hk

theorem Do_idle_exists {α σ : Type} (g : Group α) (key : String)
    (fn : σ → Option ((Option α × Option String) × σ)) (s : σ)
    (r : Option α × Option String) (s' : σ)
    (hi : GoMap.get (g.m.getD []) key = none) (hf : fn s = some (r, s')) :
    ∃ g', Do g key fn s = some (r, g', s') ∧ GoMap.get (g'.m.getD []) key = none :=
  ⟨_, Do_idle g key fn s r s' hi hf, by
    simp only [Option.getD_some]
    exact GoMap.get_delete_self _ _⟩

/-- C20: sequential behaviour of `Do`.  On a group with no pending record for
`key`, `Do(key, fn)` invokes `fn` exactly once (the state afterwards is the
state after one run of `fn`), returns the value and the error of `fn` unchanged
and leaves no record for `key` in the map, whether `fn` succeeded or failed;
`Do` returns if and only if `fn` does.  Hence a second `Do(key, fn)` after the
first has returned invokes `fn` again: two sequential calls of a function that
counts its invocations give the count 2. -/
theorem Do_sequential {α σ : Type} (g : Group α) (key : String)
    (fn : σ → Option ((Option α × Option String) × σ)) (s : σ)
    (hidle : GoMap.get (g.m.getD []) key = none) :
    (∀ r s', fn s = some (r, s') →
      ∃ g', Do g key fn s = some (r, g', s') ∧ GoMap.get (g'.m.getD []) key = none ∧
        ∀ r2 s2, fn s' = some (r2, s2) →
          ∃ g2, Do g' key fn s' = some (r2, g2, s2) ∧ GoMap.get (g2.m.getD []) key = none) ∧
    (fn s = none → Do g key fn s = none) ∧
    (∀ (g0 : Group String) (v : String), GoMap.get (g0.m.getD []) key = none →
      ∃ g1 g2, Do g0 key (countingFn v) 0 = some ((some v, none), g1, 1) ∧
        Do g1 key (countingFn v) 1 = some ((some v, none), g2, 2)) := by
  refine ⟨?_, ?_, ?_⟩
  · intro r s' hf
    obtain ⟨g', h1, h2⟩ := Do_idle_exists g key fn s r s' hidle hf
    refine ⟨g', h1, h2, ?_⟩
    intro r2 s2 hf2
    exact Do_idle_exists g' key fn s' r2 s2 h2 hf2
  · intro hf
    unfold Do
    rw [hidle]
    simp only [hf]
  · intro g0 v h0
    obtain ⟨g1, h1, h2⟩ := Do_idle_exists g0 key (countingFn v) 0 (some v, none) 1 h0 rfl
    obtain ⟨g2, h3, -⟩ := Do_idle_exists g1 key (countingFn v) 1 (some v, none) 2 h2 rfl
    exact ⟨g1, g2, h1, h3⟩

theorem Do_sequential_witness :
    GoMap.get ((({ m := none } : Group String)).m.getD []) "Tom" = none ∧
    countingFn "630" 0 = some ((some "630", none), 1) ∧
    ∃ g', Do ({ m := none } : Group String) "Tom" (countingFn "630") 0 =
        some ((some "630", none), g', 1) ∧
      GoMap.get (g'.m.getD []) "Tom" = none ∧
      ∀ r2 s2, countingFn "630" 1 = some (r2, s2) →
        ∃ g2, Do g' "Tom" (countingFn "630") 1 = some (r2, g2, s2) ∧
          GoMap.get (g2.m.getD []) "Tom" = none :=
  ⟨rfl, rfl,
    (Do_sequential ({ m := none } : Group String) "Tom" (countingFn "630") 0 rfl).1
      (some "630", none) 1 rfl⟩

end singleflight

namespace geecache

/-- C14: for every group, `Get("")` returns the error "key is required" with an
empty `ByteView` and leaves the group as it was: no call to the loader or to the
peer picker is recorded and the local cache is unchanged. -/
theorem Get_empty_key (g : Group) (fuel : Nat) :
    Group.Get fuel g "" = some (({ data := "" }, some "key is required"), g) := by
  simp [Group.Get]

/-- C19: for every group, a `RegisterPeers` call on a group without a peer
picker (so the first call) stores the given peer picker and does not panic, and
every `RegisterPeers` call made when a peer picker is registered panics and
leaves the group, and the first registered picker, as they were. -/
theorem RegisterPeers_once (g : Group) (peers : Option PeerPicker) :
    (g.peers = none → g.RegisterPeers peers = ({ g with peers := peers }, none)) ∧
    (∀ first, g.peers = some first →
      g.RegisterPeers peers = (g, some "RegisterPeerPicker called more than once") ∧
        (g.RegisterPeers peers).1.peers = some first) := by
  constructor
  · intro h
    simp [Group.RegisterPeers, h]
  · intro first h
    simp [Group.RegisterPeers, h]

theorem RegisterPeers_once_witness :
    testGroup.peers = none ∧
    testGroup.RegisterPeers (some upPicker) = ({ testGroup with peers := some upPicker }, none) ∧
    testGroupUp.peers = some upPicker ∧
    testGroupUp.RegisterPeers (some downPicker) =
      (testGroupUp, some "RegisterPeerPicker called more than once") ∧
    (testGroupUp.RegisterPeers (some downPicker)).1.peers = some upPicker :=
  ⟨rfl, (RegisterPeers_once testGroup (some upPicker)).1 rfl, rfl,
    (RegisterPeers_once testGroupUp (some downPicker)).2 upPicker rfl⟩

end geecache

namespace lru

theorem Get_maxBytes (c : Cache) (key : String) : (Get c key).1.maxBytes = c.maxBytes := by
  unfold Get
  split
  · split <;> rfl
  · rfl

theorem Get_snd_none {c : Cache} {key : String} (h : (Get c key).2 = none) :
    (Get c key).1 = c := by
  unfold Get at h ⊢
  cases h1 : GoMap.get c.cache key with
  | none => simp
  | some p =>
    cases h2 : deref c.ll p with
    | none => simp [h2]
    | some e => simp [h1, h2] at h

theorem Add_maxBytes {fuel : Nat} {c c' : Cache} {key : String} {value : Value} (h : WF c)
    (hc : Add fuel c key value = some c') : c'.maxBytes = c.maxBytes := by
  obtain ⟨ev, -, -, h3, -, -⟩ := evict_spec (WF_store h key value) hc
  rw [h3, store_maxBytes]

/-- The eviction loop does not evict the head of the list when the head alone
fits the budget. -/
theorem evict_keeps_head {fuel : Nat} {c c' : Cache} {e : Element} {rest : List Element}
    (h : WF c) (hl : c.ll = e :: rest)
    (hfit : c.maxBytes = 0 ∨ e.Value.size ≤ c.maxBytes)
    (hc : Add.evict fuel c = some c') : ∃ rest', c'.ll = e :: rest' := by
  induction fuel generalizing c rest with
  | zero => simp [Add.evict] at hc
  | succ n ih =>
    unfold Add.evict at hc
    split at hc
    · rename_i hcond
      rcases List.eq_nil_or_concat rest with h0 | ⟨init, x, h0⟩
      · exfalso
        have hb := h.bytes
        simp only [residentBytes, hl, h0, List.map_cons, List.map_nil, List.sum_cons,
          List.sum_nil] at hb
        rcases hfit with hz | hle
        · exact hcond.1 hz
        · omega
      · rw [List.concat_eq_append] at h0
        have hl' : c.ll = (e :: init) ++ [x] := by rw [hl, h0]; simp
        have hro := RemoveOldest_concat h hl'
        have hll : (RemoveOldest c).ll = e :: init := by rw [hro]
        exact ih (WF_RemoveOldest h) hll (by rw [RemoveOldest_maxBytes]; exact hfit) hc
    · cases hc
      exact ⟨rest, hl⟩

/-- An `Add` of an entry that fits the budget (or on an unbounded cache)
returns and leaves the entry resident, at the front of the list. -/
theorem Add_fits {c : Cache} (h : WF c) (key : String) (value : Value)
    (hfit : c.maxBytes = 0 ∨ (key.utf8ByteSize : Int) + value.Len ≤ c.maxBytes) :
    ∃ c', Add (c.ll.length + 2) c key value = some c' ∧ (Get c' key).2 = some value := by
  have hws := WF_store h key value
  obtain ⟨e, rest, hl, he⟩ := store_head h key value
  have hfit' : (Add.store c key value).maxBytes = 0 ∨
      e.Value.size ≤ (Add.store c key value).maxBytes := by
    rw [store_maxBytes, he]
    exact hfit
  have hterm : ∃ c', Add (c.ll.length + 2) c key value = some c' := by
    unfold Add
    by_cases hz : c.maxBytes = 0
    · exact ⟨_, evict_unbounded (by rw [store_maxBytes]; exact hz) _⟩
    · have hpos : 0 < c.maxBytes := by
        rcases hfit with h0 | hle
        · exact absurd h0 hz
        · have : (0 : Int) ≤ (key.utf8ByteSize : Int) + value.Len := by
            simp only [Value.Len]
            omega
          omega
      have hlen := store_length_le h key value
      exact evict_terminates _ hws (by rw [store_maxBytes]; exact hpos) (by omega)
  obtain ⟨c', hc'⟩ := hterm
  refine ⟨c', hc', ?_⟩
  obtain ⟨rest', hl'⟩ := evict_keeps_head hws hl hfit' hc'
  have := Get_head (WF_evict hws hc') hl'
  rw [he] at this
  exact this

end lru

namespace geecache

theorem cache_get_miss {c : cache} {key : String} (h : (c.get key).2 = none) :
    (c.get key).1 = c := by
  unfold cache.get at h ⊢
  cases hl : c.lru with
  | none => simp
  | some l =>
    simp only [hl] at h ⊢
    rw [lru.Get_snd_none h]
    cases c
    simp only at hl
    rw [hl]

theorem cache_get_OK {c : cache} (h : c.OK) (key : String) : (c.get key).1.OK := by
  unfold cache.get
  cases hl : c.lru with
  | none =>
    simp only
    exact h
  | some l =>
    intro l' hl'
    simp only [Option.some.injEq] at hl'
    subst hl'
    obtain ⟨h1, h2⟩ := h l hl
    exact ⟨lru.Reachable.get key h1, by rw [lru.Get_maxBytes]; exact h2⟩

theorem cache_getD_OK {c : cache} (h : c.OK) :
    lru.Reachable (c.lru.getD (lru.New c.cacheBytes false)) ∧
      (c.lru.getD (lru.New c.cacheBytes false)).maxBytes = c.cacheBytes := by
  cases hl : c.lru with
  | none => exact ⟨lru.Reachable.new _ _, rfl⟩
  | some l => exact h l hl

theorem cache_add_OK {fuel : Nat} {c c' : cache} {key : String} {value : ByteView}
    (h : c.OK) (hadd : c.add fuel key value = some c') : c'.OK := by
  unfold cache.add at hadd
  obtain ⟨h1, h2⟩ := cache_getD_OK h
  cases ha : lru.Add fuel (c.lru.getD (lru.New c.cacheBytes false)) key value with
  | none => simp [ha] at hadd
  | some l' =>
    simp only [ha, Option.map_some', Option.some.injEq] at hadd
    subst hadd
    intro l hl
    simp only [Option.some.injEq] at hl
    subst hl
    exact ⟨lru.Reachable.add fuel key value h1 ha,
      by rw [lru.Add_maxBytes (lru.Reachable_wf h1) ha]; exact h2⟩

/-- What `getLocally` does when it returns: one call to the getter, and either
the error of the getter with the cache unchanged, or the bytes of the getter,
which are passed to `mainCache.add`. -/
theorem getLocally_spec {fuel : Nat} {g g' : Group} {key : String}
    {r : ByteView × Option String} (h : Group.getLocally fuel g key = some (r, g')) :
    g'.calls = g.calls ++ [Call.getter key] ∧ g'.peers = g.peers ∧ g'.loader = g.loader ∧
      g'.getter = g.getter ∧ g'.name = g.name ∧
      ((∃ e, g.getter.Get g.calls key = .error e ∧ r = ({ data := "" }, some e) ∧
          g'.mainCache = g.mainCache) ∨
        (∃ b, g.getter.Get g.calls key = .ok b ∧ r = ({ data := b }, none) ∧
          g.mainCache.add fuel key { data := b } = some g'.mainCache)) := by
  unfold Group.getLocally at h
  cases hg : g.getter.Get g.calls key with
  | error e =>
    simp only [hg, Option.some.injEq, Prod.mk.injEq] at h
    obtain ⟨rfl, rfl⟩ := h
    exact ⟨rfl, rfl, rfl, rfl, rfl, Or.inl ⟨e, rfl, rfl, rfl⟩⟩
  | ok b =>
    simp only [hg, Group.populateCache] at h
    cases ha : g.mainCache.add fuel key { data := b } with
    | none => simp [ha] at h
    | some c' =>
      simp only [ha, Option.map_some', Option.some.injEq, Prod.mk.injEq] at h
      obtain ⟨rfl, rfl⟩ := h
      exact ⟨rfl, rfl, rfl, rfl, rfl, Or.inr ⟨b, rfl, rfl, ha⟩⟩

theorem getLocally_OK {fuel : Nat} {g g' : Group} {key : String}
    {r : ByteView × Option String} (hok : g.mainCache.OK)
    (h : Group.getLocally fuel g key = some (r, g')) : g'.mainCache.OK := by
  obtain ⟨-, -, -, -, -, h6⟩ := getLocally_spec h
  rcases h6 with ⟨e, -, -, hc⟩ | ⟨b, -, -, hc⟩
  · rw [hc]
    exact hok
  · exact cache_add_OK hok hc

theorem getFromPeer_spec (g : Group) (peer : PeerGetter) (key : String) :
    (g.getFromPeer peer key).2 =
      { g with calls := g.calls ++ [Call.peerGet { Group := g.name, Key := key }] } := by
  unfold Group.getFromPeer
  split <;> rfl

/-- The function literal of `load` keeps the invariant of the cache and leaves
the loader and the peers as they are. -/
theorem load_fn_frame {fuel : Nat} {g g' : Group} {key : String}
    {r : Option ByteView × Option String} (hok : g.mainCache.OK)
    (h : Group.load.fn fuel key g = some (r, g')) :
    g'.mainCache.OK ∧ g'.peers = g.peers ∧ g'.loader = g.loader ∧ ∃ v, r.1 = some v := by
  have hloc : ∀ (g1 : Group), g1.mainCache = g.mainCache → g1.peers = g.peers →
      g1.loader = g.loader →
      (Group.getLocally fuel g1 key).map (fun r => ((some r.1.1, r.1.2), r.2)) = some (r, g') →
      g'.mainCache.OK ∧ g'.peers = g.peers ∧ g'.loader = g.loader ∧ ∃ v, r.1 = some v := by
    intro g1 h1 h2 h3 hm
    cases hl : Group.getLocally fuel g1 key with
    | none => simp [hl] at hm
    | some x =>
      obtain ⟨r1, g2⟩ := x
      simp only [hl, Option.map_some', Option.some.injEq, Prod.mk.injEq] at hm
      obtain ⟨rfl, rfl⟩ := hm
      obtain ⟨-, hp, hlo, -, -, -⟩ := getLocally_spec hl
      exact ⟨getLocally_OK (by rw [h1]; exact hok) hl, hp.trans h2, hlo.trans h3, _, rfl⟩
  obtain ⟨name, getter, mainCache, peers, loader, calls⟩ := g
  unfold Group.load.fn at h
  simp only at h hloc hok ⊢
  cases peers with
  | none =>
    simp only at h
    exact hloc _ rfl rfl rfl h
  | some pk =>
    simp only at h
    cases hpick : pk.PickPeer calls key with
    | none =>
      simp only [hpick] at h
      exact hloc _ rfl rfl rfl h
    | some peer =>
      simp only [hpick] at h
      have hspec := getFromPeer_spec
        { name := name, getter := getter, mainCache := mainCache, peers := some pk,
          loader := loader, calls := calls ++ [Call.pickPeer key] } peer key
      generalize Group.getFromPeer
        { name := name, getter := getter, mainCache := mainCache, peers := some pk,
          loader := loader, calls := calls ++ [Call.pickPeer key] } peer key = x at hspec h
      obtain ⟨⟨value, err⟩, g2⟩ := x
      simp only at hspec
      cases err with
      | none =>
        simp only [Option.some.injEq, Prod.mk.injEq] at h
        obtain ⟨rfl, rfl⟩ := h
        rw [hspec]
        exact ⟨hok, rfl, rfl, _, rfl⟩
      | some e =>
        simp only at h
        exact hloc g2 (by rw [hspec]) (by rw [hspec]) (by rw [hspec]) h

/-- The method `load` on a group whose loader has no pending call: it returns
what the function literal returns, with `ByteView{}` in place of the value on
an error, and the loader has no pending call afterwards. -/
theorem load_spec (fuel : Nat) {g : Group} (key : String)
    (hidle : ∀ k, GoMap.get (g.loader.m.getD []) k = none) :
    (Group.load.fn fuel key g = none → Group.load fuel g key = none) ∧
    (∀ v g', Group.load.fn fuel key g = some ((some v, none), g') →
      ∃ L : singleflight.Group ByteView, (∀ k, GoMap.get (L.m.getD []) k = none) ∧
        Group.load fuel g key = some ((v, none), { g' with loader := L })) ∧
    (∀ v e g', Group.load.fn fuel key g = some ((some v, some e), g') →
      ∃ L : singleflight.Group ByteView, (∀ k, GoMap.get (L.m.getD []) k = none) ∧
        Group.load fuel g key = some (({ data := "" }, some e), { g' with loader := L })) := by
  refine ⟨?_, ?_, ?_⟩
  · intro hfn
    unfold Group.load singleflight.Do
    rw [hidle key]
    simp only [hfn]
  · intro v g' hfn
    refine ⟨{ m := some (GoMap.delete (GoMap.set (g.loader.m.getD []) key
      { done := true, val := some v, err := none }) key) }, ?_, ?_⟩
    · intro k
      simp only [Option.getD_some]
      exact singleflight.get_after_Do _ _ _ k (hidle k)
    · unfold Group.load
      rw [singleflight.Do_idle g.loader key _ g _ g' (hidle key) hfn]
  · intro v e g' hfn
    refine ⟨{ m := some (GoMap.delete (GoMap.set (g.loader.m.getD []) key
      { done := true, val := some v, err := some e }) key) }, ?_, ?_⟩
    · intro k
      simp only [Option.getD_some]
      exact singleflight.get_after_Do _ _ _ k (hidle k)
    · unfold Group.load
      rw [singleflight.Do_idle g.loader key _ g _ g' (hidle key) hfn]

theorem Get_empty_key_eq (g : Group) (fuel : Nat) :
    Group.Get fuel g "" = some (({ data := "" }, some "key is required"), g) := by
  simp [Group.Get]

theorem Get_on_miss {fuel : Nat} {g : Group} {key : String} (hk : key ≠ "")
    (hmiss : (g.mainCache.get key).2 = none) :
    Group.Get fuel g key = Group.load fuel g key := by
  unfold Group.Get
  rw [if_neg hk]
  simp only [hmiss, cache_get_miss hmiss]

theorem Get_on_hit {fuel : Nat} {g : Group} {key : String} {v : ByteView} (hk : key ≠ "")
    (hhit : (g.mainCache.get key).2 = some v) :
    Group.Get fuel g key = some ((v, none), { g with mainCache := (g.mainCache.get key).1 }) := by
  unfold Group.Get
  rw [if_neg hk]
  simp only [hhit]

theorem Valid_Get {fuel : Nat} {g g' : Group} {key : String} {r : ByteView × Option String}
    (hv : Valid g) (h : Group.Get fuel g key = some (r, g')) : Valid g' := by
  by_cases hk : key = ""
  · subst hk
    rw [Get_empty_key_eq] at h
    simp only [Option.some.injEq, Prod.mk.injEq] at h
    rw [← h.2]
    exact hv
  · cases hc : (g.mainCache.get key).2 with
    | some v =>
      rw [Get_on_hit hk hc] at h
      simp only [Option.some.injEq, Prod.mk.injEq] at h
      rw [← h.2]
      exact ⟨hv.idle, cache_get_OK hv.lru_ok key⟩
    | none =>
      rw [Get_on_miss hk hc] at h
      obtain ⟨h1, h2, h3⟩ := load_spec fuel key hv.idle
      cases hfn : Group.load.fn fuel key g with
      | none =>
        rw [h1 hfn] at h
        cases h
      | some x =>
        obtain ⟨⟨val, err⟩, g1⟩ := x
        obtain ⟨hok, -, -, v, hval⟩ := load_fn_frame hv.lru_ok hfn
        simp only at hval
        subst hval
        cases err with
        | none =>
          obtain ⟨L, hL, hload⟩ := h2 v g1 hfn
          rw [hload] at h
          simp only [Option.some.injEq, Prod.mk.injEq] at h
          rw [← h.2]
          exact ⟨hL, hok⟩
        | some e =>
          obtain ⟨L, hL, hload⟩ := h3 v e g1 hfn
          rw [hload] at h
          simp only [Option.some.injEq, Prod.mk.injEq] at h
          rw [← h.2]
          exact ⟨hL, hok⟩

theorem Reachable_valid {g : Group} (h : Reachable g) : Valid g := by
  induction h with
  | newGroup name cacheBytes getter =>
    constructor
    · intro k
      rfl
    · intro l hl
      cases hl
  | @registerPeers g peers _ ih =>
    unfold Group.RegisterPeers
    cases g.peers with
    | none => exact ⟨ih.idle, ih.lru_ok⟩
    | some pk => exact ih
  | get fuel key _ hget ih => exact Valid_Get ih hget

theorem getLocally_fail (fuel : Nat) (g : Group) (key : String) {e : String}
    (h : g.getter.Get g.calls key = .error e) :
    Group.getLocally fuel g key =
      some (({ data := "" }, some e), { g with calls := g.calls ++ [Call.getter key] }) := by
  unfold Group.getLocally
  simp only [h]

/-- The function literal of `load` when the picker names a peer whose `Get`
succeeds. -/
theorem load_fn_remote {fuel : Nat} {g : Group} {pk : PeerPicker} {peer : PeerGetter}
    {key b : String} (hp : g.peers = some pk) (hpick : pk.PickPeer g.calls key = some peer)
    (hpeer : peer.Get (g.calls ++ [Call.pickPeer key]) { Group := g.name, Key := key } =
      .ok { Value := b }) :
    Group.load.fn fuel key g =
      some ((some { data := b }, none),
        { g with calls := g.calls ++
            [Call.pickPeer key, Call.peerGet { Group := g.name, Key := key }] }) := by
  obtain ⟨name, getter, mainCache, peers, loader, calls⟩ := g
  simp only at hp hpick hpeer
  subst hp
  unfold Group.load.fn
  simp only [hpick, Group.getFromPeer, hpeer, List.append_assoc, List.singleton_append]

/-- The function literal of `load` when the picker names a peer whose `Get`
fails: the local load, after the two calls to the picker and to the peer. -/
theorem load_fn_fallback (fuel : Nat) {g : Group} {pk : PeerPicker} {peer : PeerGetter}
    {key e : String} (hp : g.peers = some pk) (hpick : pk.PickPeer g.calls key = some peer)
    (hpeer : peer.Get (g.calls ++ [Call.pickPeer key]) { Group := g.name, Key := key } =
      .error e) :
    Group.load.fn fuel key g =
      (Group.getLocally fuel
        { g with calls := g.calls ++
            [Call.pickPeer key, Call.peerGet { Group := g.name, Key := key }] } key).map
        (fun r => ((some r.1.1, r.1.2), r.2)) := by
  obtain ⟨name, getter, mainCache, peers, loader, calls⟩ := g
  simp only at hp hpick hpeer
  subst hp
  unfold Group.load.fn
  simp only [hpick, Group.getFromPeer, hpeer, List.append_assoc, List.singleton_append]

/-- C17: for every group with a registered peer picker and every non-empty key
`k` absent from the local cache, if the picker resolves `k` to a remote peer and
the `Get` of that peer succeeds with bytes `b`, then `Get(k)` returns a
`ByteView` of `b` with no error; the calls made are the one to the picker and
the one to the peer, so the local loader is not invoked; and the local cache is
unchanged, `k` still being absent from it. -/
theorem Get_from_peer {g : Group} (h : Reachable g) {pk : PeerPicker}
    (hp : g.peers = some pk) {k : String} (hk : k ≠ "")
    (habs : (g.mainCache.get k).2 = none) {peer : PeerGetter}
    (hpick : pk.PickPeer g.calls k = some peer) {b : String}
    (hpeer : peer.Get (g.calls ++ [Call.pickPeer k]) { Group := g.name, Key := k } =
      .ok { Value := b })
    (fuel : Nat) :
    ∃ g', Group.Get fuel g k = some (({ data := b }, none), g') ∧
      g'.calls = g.calls ++ [Call.pickPeer k, Call.peerGet { Group := g.name, Key := k }] ∧
      g'.mainCache = g.mainCache ∧ (g'.mainCache.get k).2 = none := by
  have hv := Reachable_valid h
  obtain ⟨L, -, hload⟩ := (load_spec fuel k hv.idle).2.1 _ _
    (load_fn_remote hp hpick hpeer)
  rw [Get_on_miss hk habs, hload]
  exact ⟨_, rfl, rfl, rfl, habs⟩

theorem testGroupUp_reachable : Reachable testGroupUp :=
  Reachable.registerPeers (some upPicker) (Reachable.newGroup "scores" 2048 dbGetter)

theorem testGroupDown_reachable : Reachable testGroupDown :=
  Reachable.registerPeers (some downPicker) (Reachable.newGroup "scores" 2048 dbGetter)

theorem Get_from_peer_witness :
    Reachable testGroupUp ∧ testGroupUp.peers = some upPicker ∧ "Tom" ≠ "" ∧
    (testGroupUp.mainCache.get "Tom").2 = none ∧
    upPicker.PickPeer testGroupUp.calls "Tom" = some upPeer ∧
    ∃ g', Group.Get 0 testGroupUp "Tom" = some (({ data := "remote" }, none), g') ∧
      g'.calls = testGroupUp.calls ++
        [Call.pickPeer "Tom", Call.peerGet { Group := testGroupUp.name, Key := "Tom" }] ∧
      g'.mainCache = testGroupUp.mainCache ∧ (g'.mainCache.get "Tom").2 = none :=
  ⟨testGroupUp_reachable, rfl, by decide, rfl, rfl,
    @Get_from_peer testGroupUp testGroupUp_reachable upPicker rfl "Tom" (by decide) rfl upPeer
      rfl "remote" rfl 0⟩

theorem cacheLen_eq (g : Group) :
    (g.mainCache.lru.getD (lru.New g.mainCache.cacheBytes false)).ll.length = g.cacheLen := by
  unfold Group.cacheLen
  cases g.mainCache.lru <;> rfl

/-- The function literal of `load` on a group without peers is the local load. -/
theorem load_fn_no_peers (fuel : Nat) {g : Group} (key : String) (hp : g.peers = none) :
    Group.load.fn fuel key g =
      (Group.getLocally fuel g key).map (fun r => ((some r.1.1, r.1.2), r.2)) := by
  unfold Group.load.fn
  simp only [hp]

/-- C15, as stated, fails: on the group of `TestGet` with a budget of one byte,
the entry of "Tom" (6 bytes) is evicted by the `Add` that inserts it, so the
cache does not hold "Tom" after the first `Get` and the second `Get("Tom")`
invokes the loader again. -/
theorem second_Get_reloads :
    testSmallGroup.peers = none ∧ "Tom" ≠ "" ∧
    (testSmallGroup.mainCache.get "Tom").2 = none ∧
    testSmallGroup.getter.Get testSmallGroup.calls "Tom" = .ok "630" ∧
    (testSmallGroup.Gets 3 ["Tom"]).map (fun x => (x.1, x.2.calls, (x.2.mainCache.get "Tom").2))
      = some ([(({ data := "630" } : ByteView), none)], [Call.getter "Tom"], none) ∧
    (testSmallGroup.Gets 3 ["Tom", "Tom"]).map (fun x => (x.1, x.2.calls)) =
      some ([(({ data := "630" } : ByteView), none), ({ data := "630" }, none)],
        [Call.getter "Tom", Call.getter "Tom"]) := by
  refine ⟨rfl, by decide, rfl, rfl, by decide, by decide⟩

/-- C15, amended: for every group with no peer picker registered, every
non-empty key `k` absent from the local cache and every loader that returns
bytes `b` for `k`, when the cache is unbounded (`cacheBytes = 0`) or the entry
fits its budget (`len(k) + len(b) <= cacheBytes`): the first `Get(k)` returns,
invokes the loader exactly once, returns a `ByteView` of `b` and leaves `k`
cached with that value; a second `Get(k)` does not invoke the loader again and
returns the same value. -/
theorem Get_loads_once {g : Group} (h : Reachable g) (hp : g.peers = none) {k b : String}
    (hk : k ≠ "") (habs : (g.mainCache.get k).2 = none)
    (hload : g.getter.Get g.calls k = .ok b)
    (hfit : g.mainCache.cacheBytes = 0 ∨
      (k.utf8ByteSize : Int) + (b.utf8ByteSize : Int) ≤ g.mainCache.cacheBytes) :
    ∃ g1, Group.Get (g.cacheLen + 2) g k = some (({ data := b }, none), g1) ∧
      g1.calls = g.calls ++ [Call.getter k] ∧
      (g1.mainCache.get k).2 = some { data := b } ∧
      ∀ fuel, ∃ g2, Group.Get fuel g1 k = some (({ data := b }, none), g2) ∧
        g2.calls = g1.calls := by
  have hv := Reachable_valid h
  obtain ⟨hreach, hmax⟩ := cache_getD_OK hv.lru_ok
  have hfit' : (g.mainCache.lru.getD (lru.New g.mainCache.cacheBytes false)).maxBytes = 0 ∨
      (k.utf8ByteSize : Int) + (({ data := b } : lru.Value)).Len ≤
        (g.mainCache.lru.getD (lru.New g.mainCache.cacheBytes false)).maxBytes := by
    rw [hmax]
    exact hfit
  obtain ⟨c', hadd, hget⟩ := lru.Add_fits (lru.Reachable_wf hreach) k { data := b } hfit'
  rw [cacheLen_eq] at hadd
  have hloc : Group.getLocally (g.cacheLen + 2) g k =
      some (({ data := b }, none),
        { g with calls := g.calls ++ [Call.getter k]
                 mainCache := { g.mainCache with lru := some c' } }) := by
    unfold Group.getLocally
    simp only [hload, Group.populateCache, cache.add, hadd, Option.map_some']
  have hfn := load_fn_no_peers (g.cacheLen + 2) k hp
  rw [hloc] at hfn
  simp only [Option.map_some'] at hfn
  obtain ⟨L, -, hl⟩ := (load_spec (g.cacheLen + 2) k hv.idle).2.1 _ _ hfn
  rw [← Get_on_miss hk habs] at hl
  have hcached : (({ g.mainCache with lru := some c' } : cache).get k).2 = some { data := b } := by
    unfold cache.get
    simp only [hget]
  refine ⟨_, hl, rfl, hcached, ?_⟩
  intro fuel
  exact ⟨_, Get_on_hit hk hcached, rfl⟩

theorem testGroup_reachable : Reachable testGroup :=
  Reachable.newGroup "scores" 2048 dbGetter

theorem Get_loads_once_witness :
    Reachable testGroup ∧ testGroup.peers = none ∧ "Tom" ≠ "" ∧
    (testGroup.mainCache.get "Tom").2 = none ∧
    testGroup.getter.Get testGroup.calls "Tom" = .ok "630" ∧
    (testGroup.mainCache.cacheBytes = 0 ∨
      (("Tom".utf8ByteSize : Nat) : Int) + (("630".utf8ByteSize : Nat) : Int) ≤
        testGroup.mainCache.cacheBytes) ∧
    ∃ g1, Group.Get (testGroup.cacheLen + 2) testGroup "Tom" =
        some (({ data := "630" }, none), g1) ∧
      g1.calls = testGroup.calls ++ [Call.getter "Tom"] ∧
      (g1.mainCache.get "Tom").2 = some { data := "630" } ∧
      ∀ fuel, ∃ g2, Group.Get fuel g1 "Tom" = some (({ data := "630" }, none), g2) ∧
        g2.calls = g1.calls :=
  ⟨testGroup_reachable, rfl, by decide, rfl, rfl, Or.inr (by decide),
    @Get_loads_once testGroup testGroup_reachable rfl "Tom" "630" (by decide) rfl rfl
      (Or.inr (by decide))⟩

end geecache

namespace consistenthash

theorem position_congr {m m' : Map} (h : m'.hash = m.hash) (s : String) :
    m'.position s = m.position s := by
  unfold Map.position
  rw [h]

theorem positions_congr {m m' : Map} (h : m'.hash = m.hash) (hr : m'.replicas = m.replicas)
    (key : String) : m'.positions key = m.positions key := by
  unfold Map.positions
  rw [hr]
  apply List.map_congr_left
  intro i _
  exact position_congr h _

/-- The inner loop of `Add` over the replica indices `is` of one node: the
positions of the virtual nodes are appended to the ring and mapped to the node;
no other entry of the mapping changes. -/
theorem virtuals_spec (key : String) (is : List Nat) (m : Map) :
    (is.foldl (fun m i => Add.virtual m key i) m).hash = m.hash ∧
    (is.foldl (fun m i => Add.virtual m key i) m).replicas = m.replicas ∧
    (is.foldl (fun m i => Add.virtual m key i) m).keys =
      m.keys ++ is.map (fun i => m.position (strconv.Itoa i ++ key)) ∧
    (∀ p, p ∉ is.map (fun i => m.position (strconv.Itoa i ++ key)) →
      GoMap.get (is.foldl (fun m i => Add.virtual m key i) m).hashMap p =
        GoMap.get m.hashMap p) ∧
    (∀ p, p ∈ is.map (fun i => m.position (strconv.Itoa i ++ key)) →
      GoMap.get (is.foldl (fun m i => Add.virtual m key i) m).hashMap p = some key) := by
  induction is generalizing m with
  | nil => simp
  | cons i rest ih =>
    rw [List.foldl_cons]
    obtain ⟨h1, h2, h3, h4, h5⟩ := ih (Add.virtual m key i)
    have hh : (Add.virtual m key i).hash = m.hash := rfl
    have hf : (fun j => (Add.virtual m key i).position (strconv.Itoa j ++ key)) =
        (fun j => m.position (strconv.Itoa j ++ key)) := by
      funext j
      exact position_congr hh _
    rw [hf] at h3 h4 h5
    refine ⟨h1.trans hh, h2, ?_, ?_, ?_⟩
    · rw [h3]
      simp [Add.virtual]
    · intro p hp
      simp only [List.map_cons, List.mem_cons, not_or] at hp
      rw [h4 p hp.2]
      simp only [Add.virtual]
      exact GoMap.get_set_ne _ _ hp.1
    · intro p hp
      by_cases hrest : p ∈ rest.map (fun j => m.position (strconv.Itoa j ++ key))
      · exact h5 p hrest
      · rw [h4 p hrest]
        simp only [List.map_cons, List.mem_cons] at hp
        rcases hp with rfl | hp
        · simp only [Add.virtual]
          exact GoMap.get_set_self _ _ _
        · exact absurd hp hrest

/-- The two loops of `Add`: the positions of the nodes are appended to the ring,
node after node; an entry of the mapping either is the one of a virtual node of
an added node, or was there before. -/
theorem append_spec (keys : List String) (m : Map) :
    (Add.append m keys).hash = m.hash ∧
    (Add.append m keys).replicas = m.replicas ∧
    (Add.append m keys).keys = m.keys ++ keys.flatMap (fun k => m.positions k) ∧
    (∀ p, p ∉ keys.flatMap (fun k => m.positions k) →
      GoMap.get (Add.append m keys).hashMap p = GoMap.get m.hashMap p) ∧
    (∀ p x, GoMap.get (Add.append m keys).hashMap p = some x →
      (x ∈ keys ∧ p ∈ m.positions x) ∨ GoMap.get m.hashMap p = some x) := by
  unfold Add.append
  induction keys generalizing m with
  | nil => simp
  | cons k rest ih =>
    rw [List.foldl_cons]
    obtain ⟨v1, v2, v3, v4, v5⟩ := virtuals_spec k (List.range m.replicas.toNat) m
    obtain ⟨h1, h2, h3, h4, h5⟩ :=
      ih ((List.range m.replicas.toNat).foldl (fun m i => Add.virtual m k i) m)
    simp only [positions_congr v1 v2] at h3 h4 h5
    have hP : (List.range m.replicas.toNat).map (fun i => m.position (strconv.Itoa i ++ k)) =
        m.positions k := rfl
    rw [hP] at v3 v4 v5
    refine ⟨h1.trans v1, h2.trans v2, ?_, ?_, ?_⟩
    · rw [h3, v3]
      simp
    · intro p hp
      simp only [List.flatMap_cons, List.mem_append, not_or] at hp
      rw [h4 p hp.2, v4 p hp.1]
    · intro p x hx
      rcases h5 p x hx with ⟨hxr, hpx⟩ | hold
      · exact Or.inl ⟨List.mem_cons_of_mem _ hxr, hpx⟩
      · by_cases hpk : p ∈ m.positions k
        · rw [v5 p hpk] at hold
          cases hold
          exact Or.inl ⟨List.mem_cons_self _ _, hpk⟩
        · rw [v4 p hpk] at hold
          exact Or.inr hold

theorem Add_hash (m : Map) (keys : List String) : (Add m keys).hash = m.hash :=
  (append_spec keys m).1

theorem Add_replicas (m : Map) (keys : List String) : (Add m keys).replicas = m.replicas :=
  (append_spec keys m).2.1

theorem Add_keys_perm (m : Map) (keys : List String) :
    (Add m keys).keys.Perm (m.keys ++ keys.flatMap (fun k => m.positions k)) := by
  have := (append_spec keys m).2.2.1
  simp only [Add, sort.Ints]
  rw [← this]
  exact List.perm_insertionSort _ _

theorem virtual_hash {m m' : Map} {key : String} {i : Nat}
    (hv : Remove.virtual m key i = some m') : m'.hash = m.hash ∧ m'.replicas = m.replicas := by
  unfold Remove.virtual at hv
  split at hv
  · cases hv
    exact ⟨rfl, rfl⟩
  · cases hv

theorem get_delete_some {α β : Type} [DecidableEq α] {m : List (α × β)} {a k : α} {v : β}
    (h : GoMap.get (GoMap.delete m a) k = some v) : GoMap.get m k = some v := by
  by_cases hk : k = a
  · subst hk
    rw [GoMap.get_delete_self] at h
    cases h
  · rwa [GoMap.get_delete_ne _ hk] at h

/-- In every map built by `New`, `Add` and `Remove`, a position that the mapping
assigns to a node is one of the positions of the virtual nodes of that node. -/
theorem Reachable_placed {m : Map} (h : Reachable m) :
    ∀ p x, GoMap.get m.hashMap p = some x → p ∈ m.positions x := by
  induction h with
  | new ChecksumIEEE replicas fn =>
    intro p x hx
    simp [New, GoMap.get] at hx
  | @add m keys _ ih =>
    intro p x hx
    rw [positions_congr (Add_hash m keys) (Add_replicas m keys)]
    have hx' : GoMap.get (Add.append m keys).hashMap p = some x := hx
    rcases (append_spec keys m).2.2.2.2 p x hx' with ⟨-, hp⟩ | hold
    · exact hp
    · exact ih p x hold
  | @remove m m' key _ hr ih =>
    have := Remove_inv
      (P := fun m1 => (m1.hash = m.hash ∧ m1.replicas = m.replicas) ∧
        ∀ p x, GoMap.get m1.hashMap p = some x → p ∈ m.positions x)
      (fun m1 i m2 hm hv => by
        obtain ⟨⟨e1, e2⟩, hp⟩ := hm
        obtain ⟨f1, f2⟩ := virtual_hash hv
        refine ⟨⟨f1.trans e1, f2.trans e2⟩, ?_⟩
        intro p x hx
        unfold Remove.virtual at hv
        split at hv
        · cases hv
          exact hp p x (get_delete_some hx)
        · cases hv)
      ⟨⟨rfl, rfl⟩, ih⟩ hr
    intro p x hx
    rw [positions_congr this.1.1 this.1.2]
    exact this.2 p x hx

theorem owned_Add_fresh {m : Map} (h : Reachable m) (n : String)
    (hfresh : ∀ p ∈ m.positions n, p ∉ m.keys) :
    (Add m [n]).owned n = m.replicas.toNat := by
  obtain ⟨-, -, -, a4, a5⟩ := append_spec [n] m
  have hnew : [n].flatMap (fun k => m.positions k) = m.positions n := by simp
  rw [hnew] at a4
  unfold Map.owned
  rw [(Add_keys_perm m [n]).countP_eq, hnew, List.countP_append]
  have hold : List.countP (fun p => decide (GoMap.get (Add m [n]).hashMap p = some n)) m.keys
      = 0 := by
    rw [List.countP_eq_zero]
    intro p hp hpred
    simp only [decide_eq_true_eq] at hpred
    have hpP : p ∉ m.positions n := fun hc => hfresh p hc hp
    have hx : GoMap.get (Add.append m [n]).hashMap p = some n := hpred
    rw [a4 p hpP] at hx
    exact hpP (Reachable_placed h p n hx)
  have hP : List.countP (fun p => decide (GoMap.get (Add m [n]).hashMap p = some n))
      (m.positions n) = (m.positions n).length := by
    rw [List.countP_eq_length]
    intro p hp
    simp only [decide_eq_true_eq]
    have := (virtuals_spec n (List.range m.replicas.toNat) m).2.2.2.2 p hp
    exact this
  rw [hold, hP]
  simp [Map.positions]

theorem owned_Add_other {m : Map} (h : Reachable m) (n : String) (keys : List String)
    (hother : ∀ k ∈ keys, ∀ p ∈ m.positions k, p ∉ m.positions n) :
    (Add m keys).owned n = m.owned n := by
  obtain ⟨-, -, -, a4, a5⟩ := append_spec keys m
  have hnot : ∀ p ∈ keys.flatMap (fun k => m.positions k),
      GoMap.get (Add.append m keys).hashMap p ≠ some n ∧ GoMap.get m.hashMap p ≠ some n := by
    intro p hp
    obtain ⟨k, hk, hpk⟩ := List.mem_flatMap.1 hp
    have hpn : p ∉ m.positions n := hother k hk p hpk
    constructor
    · intro hx
      rcases a5 p n hx with ⟨-, hc⟩ | hold
      · exact hpn hc
      · exact hpn (Reachable_placed h p n hold)
    · intro hold
      exact hpn (Reachable_placed h p n hold)
  unfold Map.owned
  rw [(Add_keys_perm m keys).countP_eq, List.countP_append]
  have hnew : List.countP (fun p => decide (GoMap.get (Add m keys).hashMap p = some n))
      (keys.flatMap (fun k => m.positions k)) = 0 := by
    rw [List.countP_eq_zero]
    intro p hp hpred
    simp only [decide_eq_true_eq] at hpred
    exact (hnot p hp).1 hpred
  rw [hnew, Nat.add_zero]
  apply List.countP_congr
  intro p _
  simp only [decide_eq_true_eq]
  by_cases hp : p ∈ keys.flatMap (fun k => m.positions k)
  · constructor
    · intro hx
      exact absurd hx (hnot p hp).1
    · intro hx
      exact absurd hx (hnot p hp).2
  · have : GoMap.get (Add m keys).hashMap p = GoMap.get m.hashMap p := a4 p hp
    rw [this]

theorem owned_later {m : Map} (h : Reachable m) (n : String) (later : List (List String))
    (hother : ∀ ks ∈ later, ∀ k ∈ ks, ∀ p ∈ m.positions k, p ∉ m.positions n) :
    (later.foldl Add m).owned n = m.owned n := by
  induction later generalizing m with
  | nil => rfl
  | cons ks rest ih =>
    rw [List.foldl_cons]
    have hpos := positions_congr (Add_hash m ks) (Add_replicas m ks)
    rw [ih (Reachable.add ks h) (by
      intro ks' hks' k hk p hp
      rw [hpos] at hp ⊢
      exact hother ks' (List.mem_cons_of_mem _ hks') k hk p hp)]
    exact owned_Add_other h n ks (hother ks (List.mem_cons_self _ _))

/-- C11, as stated, fails: on a ring with one replica and the decimal hash that
holds node "2" (one position maps to it), adding "2" again leaves two entries of
the ring mapped to "2", and adding the other node "02", whose position is that
of "2", leaves no position mapped to "2". -/
theorem ring_positions_collide :
    (Add (New testHash 1 (some testHash)) ["2"]).owned "2" = 1 ∧
    (Add (Add (New testHash 1 (some testHash)) ["2"]) ["2"]).owned "2" = 2 ∧
    (Add (Add (New testHash 1 (some testHash)) ["2"]) ["02"]).owned "2" = 0 ∧
    (Add (Add (New testHash 1 (some testHash)) ["2"]) ["02"]).owned "02" = 2 := by
  decide

/-- C11, amended: for every map with `replicas = R` and every node `n` none of
whose `R` positions `hash(i + n)` is on the ring, after `Add(n)` exactly `R`
entries of the ring (none if `R` is negative) map to `n`, and this stays true
across later `Add` calls of nodes whose positions differ from those of `n`. -/
theorem owned_after_Add {m : Map} (h : Reachable m) (n : String)
    (hfresh : ∀ p ∈ m.positions n, p ∉ m.keys) :
    (Add m [n]).owned n = m.replicas.toNat ∧
    ∀ later : List (List String),
      (∀ ks ∈ later, ∀ k ∈ ks, ∀ p ∈ m.positions k, p ∉ m.positions n) →
      (later.foldl Add (Add m [n])).owned n = m.replicas.toNat := by
  refine ⟨owned_Add_fresh h n hfresh, ?_⟩
  intro later hother
  have hpos := positions_congr (Add_hash m [n]) (Add_replicas m [n])
  rw [owned_later (Reachable.add [n] h) n later (by
    intro ks hks k hk p hp
    rw [hpos] at hp ⊢
    exact hother ks hks k hk p hp)]
  exact owned_Add_fresh h n hfresh

theorem owned_after_Add_witness :
    Reachable testRing ∧ (∀ p ∈ testRing.positions "8", p ∉ testRing.keys) ∧
    (Add testRing ["8"]).owned "8" = testRing.replicas.toNat ∧
    testRing.replicas.toNat = 3 ∧
    ([["10"], ["12", "14"]].foldl Add (Add testRing ["8"])).owned "8" = 3 :=
  ⟨testRing_reachable, by decide,
    (owned_after_Add testRing_reachable "8" (by decide)).1, by decide,
    (owned_after_Add testRing_reachable "8" (by decide)).2 [["10"], ["12", "14"]] (by decide)⟩

/-- On a sorted ring that is not empty, `Get` returns the node of a position `p`
of the ring that is either the smallest position at or after the hash of the
key, or, when there is none, the smallest position of the ring. -/
theorem Get_succ {m : Map} (hs : m.keys.Sorted (fun x y => x ≤ y)) (hne : m.keys ≠ [])
    (key : String) :
    ∃ p ∈ m.keys, Get m key = m.node p ∧
      ((m.position key ≤ p ∧ ∀ q ∈ m.keys, m.position key ≤ q → p ≤ q) ∨
        ((∀ q ∈ m.keys, q < m.position key) ∧ ∀ q ∈ m.keys, p ≤ q)) := by
  obtain ⟨r1, r2, r3⟩ := sort.search_sorted hs (m.position key)
  have hlen : 0 < m.keys.length := List.length_pos.2 hne
  unfold Get
  rw [if_neg (by omega)]
  generalize sort.Search m.keys.length
    (fun i => decide (m.keys.getD i 0 ≥ m.position key)) = idx at r1 r2 r3
  by_cases hidx : idx < m.keys.length
  · refine ⟨m.keys[idx], List.getElem_mem hidx, ?_, Or.inl ⟨?_, ?_⟩⟩
    · rw [Nat.mod_eq_of_lt hidx, List.getD_eq_getElem _ _ hidx]
    · have := r3 idx (le_refl _) hidx
      rwa [List.getD_eq_getElem _ _ hidx] at this
    · intro q hq hle
      obtain ⟨j, hj, rfl⟩ := List.getElem_of_mem hq
      have hij : idx ≤ j := by
        by_contra hc
        have := r2 j (by omega)
        rw [List.getD_eq_getElem _ _ hj] at this
        omega
      have := sort.getD_le_of_sorted hs hij hj
      rwa [List.getD_eq_getElem _ _ hidx, List.getD_eq_getElem _ _ hj] at this
  · have hidx' : idx = m.keys.length := by omega
    refine ⟨m.keys[0], List.getElem_mem hlen, ?_, Or.inr ⟨?_, ?_⟩⟩
    · rw [hidx', Nat.mod_self, List.getD_eq_getElem _ _ hlen]
    · intro q hq
      obtain ⟨j, hj, rfl⟩ := List.getElem_of_mem hq
      have := r2 j (by omega)
      rwa [List.getD_eq_getElem _ _ hj] at this
    · intro q hq
      obtain ⟨j, hj, rfl⟩ := List.getElem_of_mem hq
      have := sort.getD_le_of_sorted hs (Nat.zero_le j) hj
      rwa [List.getD_eq_getElem _ _ hlen, List.getD_eq_getElem _ _ hj] at this

/-- The position that `Get_succ` describes is unique, so any position of the
ring with that description gives the node `Get` returns. -/
theorem Get_eq_node {m : Map} (hs : m.keys.Sorted (fun x y => x ≤ y)) (key : String)
    {p : Int} (hp : p ∈ m.keys)
    (hcase : (m.position key ≤ p ∧ ∀ q ∈ m.keys, m.position key ≤ q → p ≤ q) ∨
      ((∀ q ∈ m.keys, q < m.position key) ∧ ∀ q ∈ m.keys, p ≤ q)) :
    Get m key = m.node p := by
  obtain ⟨p0, hp0, hget, hcase0⟩ := Get_succ hs (List.ne_nil_of_mem hp) key
  rw [hget]
  congr 1
  rcases hcase with ⟨h1, h2⟩ | ⟨h1, h2⟩
  · rcases hcase0 with ⟨g1, g2⟩ | ⟨g1, g2⟩
    · exact le_antisymm (g2 p hp h1) (h2 p0 hp0 g1)
    · have := g1 p hp
      omega
  · rcases hcase0 with ⟨g1, g2⟩ | ⟨g1, g2⟩
    · have := h1 p0 hp0
      omega
    · exact le_antisymm (g2 p hp) (h2 p0 hp0)

/-- C12: for every map, every node `n` and every key `k`: after `Add(n)`,
`Get(k)` is either the node `Get(k)` returned before the `Add` or the node `n`;
no key moves from one pre-existing node to another.  In the ring of the test,
adding node 8 changes the owner of key 27 from 2 to 8 and leaves keys 2, 11, 23
on their previous owners. -/
theorem Add_keeps_or_takes {m : Map} (h : Reachable m) (n k : String) :
    (Get (Add m [n]) k = Get m k ∨ Get (Add m [n]) k = n) ∧
    (Get testRing "27" = "2" ∧ Get (Add testRing ["8"]) "27" = "8" ∧
      Get (Add testRing ["8"]) "2" = Get testRing "2" ∧
      Get (Add testRing ["8"]) "11" = Get testRing "11" ∧
      Get (Add testRing ["8"]) "23" = Get testRing "23") := by
  refine ⟨?_, by decide⟩
  have hs := Reachable_sorted h
  have hs' : (Add m [n]).keys.Sorted (fun x y => x ≤ y) := Add_keys_sorted m [n]
  have hpos : (Add m [n]).position k = m.position k := position_congr (Add_hash m [n]) k
  have hmem : ∀ q, q ∈ (Add m [n]).keys ↔ q ∈ m.keys ∨ q ∈ m.positions n := by
    intro q
    rw [(Add_keys_perm m [n]).mem_iff]
    simp
  obtain ⟨-, -, -, a4, -⟩ := append_spec [n] m
  have hnew : [n].flatMap (fun k => m.positions k) = m.positions n := by simp
  rw [hnew] at a4
  by_cases hne : (Add m [n]).keys = []
  · left
    have hm : m.keys = [] := by
      rcases hk : m.keys with _ | ⟨q, l⟩
      · rfl
      · have : q ∈ (Add m [n]).keys := (hmem q).2 (Or.inl (by rw [hk]; simp))
        rw [hne] at this
        cases this
    simp [Get, hne, hm]
  · obtain ⟨p, hp, hget, hcase⟩ := Get_succ hs' hne k
    rw [hpos] at hcase
    by_cases hpn : p ∈ m.positions n
    · right
      rw [hget]
      have := (virtuals_spec n (List.range m.replicas.toNat) m).2.2.2.2 p hpn
      have hx : GoMap.get (Add m [n]).hashMap p = some n := this
      simp [Map.node, hx]
    · left
      have hpm : p ∈ m.keys := ((hmem p).1 hp).resolve_right hpn
      have hnode : (Add m [n]).node p = m.node p := by
        have : GoMap.get (Add m [n]).hashMap p = GoMap.get m.hashMap p := a4 p hpn
        simp [Map.node, this]
      rw [hget, hnode]
      symm
      apply Get_eq_node hs k hpm
      rcases hcase with ⟨h1, h2⟩ | ⟨h1, h2⟩
      · exact Or.inl ⟨h1, fun q hq hle => h2 q ((hmem q).2 (Or.inl hq)) hle⟩
      · exact Or.inr ⟨fun q hq => h1 q ((hmem q).2 (Or.inl hq)),
          fun q hq => h2 q ((hmem q).2 (Or.inl hq))⟩

theorem Add_keeps_or_takes_witness :
    Reachable testRing ∧
    (Get (Add testRing ["8"]) "27" = Get testRing "27" ∨ Get (Add testRing ["8"]) "27" = "8") ∧
    Get (Add testRing ["8"]) "27" ≠ Get testRing "27" :=
  ⟨testRing_reachable, (Add_keeps_or_takes testRing_reachable "8" "27").1, by decide⟩

theorem filter_notin_cons (a : Int) (R : List Int) (l : List (Int × String)) :
    (l.filter (fun kv => decide (kv.1 ∉ R))).filter (fun kv => decide (kv.1 ≠ a)) =
      l.filter (fun kv => decide (kv.1 ∉ a :: R)) := by
  rw [List.filter_filter]
  apply List.filter_congr
  intro x _
  simp only [List.mem_cons, not_or, Bool.decide_and]

theorem filter_ne_notin (a : Int) (R : List Int) (l : List (Int × String)) :
    (l.filter (fun kv => decide (kv.1 ≠ a))).filter (fun kv => decide (kv.1 ∉ R)) =
      l.filter (fun kv => decide (kv.1 ∉ a :: R)) := by
  rw [List.filter_filter]
  apply List.filter_congr
  intro x _
  simp only [List.mem_cons, not_or, Bool.decide_and, Bool.and_comm]

theorem filter_notin_set (a : Int) (x : String) (R : List Int) (l : List (Int × String)) :
    (GoMap.set l a x).filter (fun kv => decide (kv.1 ∉ a :: R)) =
      l.filter (fun kv => decide (kv.1 ∉ a :: R)) := by
  unfold GoMap.set GoMap.delete
  rw [List.filter_cons, if_neg (by simp), List.filter_filter]
  apply List.filter_congr
  intro y _
  by_cases hy : y.1 = a <;> simp [hy]

/-- The entries of the mapping whose positions are not those of the virtual
nodes are left in place, and in order, by the inner loop of `Add`. -/
theorem virtuals_filter (key : String) (is : List Nat) (m : Map) :
    (is.foldl (fun m i => Add.virtual m key i) m).hashMap.filter
        (fun kv => decide (kv.1 ∉ is.map (fun i => m.position (strconv.Itoa i ++ key)))) =
      m.hashMap.filter
        (fun kv => decide (kv.1 ∉ is.map (fun i => m.position (strconv.Itoa i ++ key)))) := by
  induction is generalizing m with
  | nil => rfl
  | cons i rest ih =>
    rw [List.foldl_cons, List.map_cons]
    have hh : (Add.virtual m key i).hash = m.hash := rfl
    have hf : (fun j => (Add.virtual m key i).position (strconv.Itoa j ++ key)) =
        (fun j => m.position (strconv.Itoa j ++ key)) := by
      funext j
      exact position_congr hh _
    have := ih (Add.virtual m key i)
    rw [hf] at this
    rw [← filter_notin_cons, this, filter_notin_cons]
    exact filter_notin_set _ _ _ _

/-- One iteration of `Remove` for a position that is on the sorted ring: one
copy of the position leaves the ring and its entry leaves the mapping. -/
theorem Remove_virtual_present {m : Map} (key : String) (i : Nat)
    (hs : m.keys.Sorted (fun x y => x ≤ y))
    (hmem : m.position (strconv.Itoa i ++ key) ∈ m.keys) :
    ∃ m', Remove.virtual m key i = some m' ∧ m'.hash = m.hash ∧ m'.replicas = m.replicas ∧
      m'.hashMap = GoMap.delete m.hashMap (m.position (strconv.Itoa i ++ key)) ∧
      (m.position (strconv.Itoa i ++ key) :: m'.keys).Perm m.keys ∧
      m'.keys.Sorted (fun x y => x ≤ y) := by
  obtain ⟨r1, r2, r3⟩ := sort.search_sorted hs (m.position (strconv.Itoa i ++ key))
  obtain ⟨j, hj, hjeq⟩ := List.getElem_of_mem hmem
  have hidx : ∃ hlt : sort.SearchInts m.keys (m.position (strconv.Itoa i ++ key)) <
      m.keys.length,
      m.keys[sort.SearchInts m.keys (m.position (strconv.Itoa i ++ key))] =
        m.position (strconv.Itoa i ++ key) := by
    unfold sort.SearchInts
    generalize sort.Search m.keys.length
      (fun i_1 => decide (m.keys.getD i_1 0 ≥ m.position (strconv.Itoa i ++ key))) = idx
      at r1 r2 r3
    have hij : idx ≤ j := by
      by_contra hc
      have := r2 j (by omega)
      rw [List.getD_eq_getElem _ _ hj] at this
      omega
    have hlt : idx < m.keys.length := by omega
    refine ⟨hlt, ?_⟩
    have h1 := r3 idx (le_refl _) hlt
    have h2 := sort.getD_le_of_sorted hs hij hj
    rw [List.getD_eq_getElem _ _ hlt] at h1 h2
    rw [List.getD_eq_getElem _ _ hj] at h2
    omega
  obtain ⟨hlt, hget⟩ := hidx
  have hv : Remove.virtual m key i = some
      { m with
        keys := m.keys.take (sort.SearchInts m.keys (m.position (strconv.Itoa i ++ key))) ++
          m.keys.drop (sort.SearchInts m.keys (m.position (strconv.Itoa i ++ key)) + 1)
        hashMap := GoMap.delete m.hashMap (m.position (strconv.Itoa i ++ key)) } := by
    unfold Remove.virtual
    rw [if_pos (by omega)]
  refine ⟨_, hv, rfl, rfl, rfl, ?_, Sorted_virtual hs hv⟩
  simp only
  have hsplit := List.take_append_drop
    (sort.SearchInts m.keys (m.position (strconv.Itoa i ++ key))) m.keys
  rw [List.drop_eq_getElem_cons hlt, hget] at hsplit
  conv_rhs => rw [← hsplit]
  exact List.perm_middle.symm

/-- The loop of `Remove` over replica indices `is` whose positions are all on
the sorted ring (with their multiplicities, next to the positions `base`): it
returns, the ring is `base` again and the entries of the positions leave the
mapping. -/
theorem Remove_fold (m0 : Map) (n : String) (is : List Nat) (m1 : Map) (base : List Int)
    (hh : m1.hash = m0.hash) (hs : m1.keys.Sorted (fun x y => x ≤ y))
    (hperm : m1.keys.Perm (base ++ is.map (fun i => m0.position (strconv.Itoa i ++ n)))) :
    ∃ m2, is.foldlM (fun m i => Remove.virtual m n i) m1 = some m2 ∧ m2.hash = m0.hash ∧
      m2.replicas = m1.replicas ∧ m2.keys.Sorted (fun x y => x ≤ y) ∧ m2.keys.Perm base ∧
      m2.hashMap = m1.hashMap.filter
        (fun kv => decide (kv.1 ∉ is.map (fun i => m0.position (strconv.Itoa i ++ n)))) := by
  induction is generalizing m1 with
  | nil =>
    refine ⟨m1, rfl, hh, rfl, hs, by simpa using hperm, ?_⟩
    symm
    rw [List.filter_eq_self]
    intro x _
    simp
  | cons i rest ih =>
    have hpos : m1.position (strconv.Itoa i ++ n) = m0.position (strconv.Itoa i ++ n) :=
      position_congr hh _
    have hmem : m1.position (strconv.Itoa i ++ n) ∈ m1.keys := by
      rw [hperm.mem_iff, hpos]
      simp
    obtain ⟨m', hv, e1, e2, e3, e4, e5⟩ := Remove_virtual_present n i hs hmem
    rw [hpos] at e3 e4
    have hperm' : m'.keys.Perm
        (base ++ rest.map (fun i => m0.position (strconv.Itoa i ++ n))) := by
      have h1 := e4.trans hperm
      rw [List.map_cons] at h1
      exact (h1.trans List.perm_middle).cons_inv
    obtain ⟨m2, f1, f2, f3, f4, f5, f6⟩ := ih m' (e1.trans hh) e5 hperm'
    refine ⟨m2, ?_, f2, f3.trans e2, f4, f5, ?_⟩
    · rw [List.foldlM_cons, hv]
      exact f1
    · rw [f6, e3, List.map_cons]
      exact filter_ne_notin _ _ _

/-- C13, as stated, fails: on the ring with one replica and the decimal hash
that holds node "2", `Add("02")` followed by `Remove("02")` leaves the ring
`[2]` with an empty mapping, where the mapping held `2 -> "2"` before; `Get("2")`
returned "2" before and returns the empty string afterwards.  The same happens
with `Add("2")` followed by `Remove("2")`, node "2" being on the ring already. -/
theorem Add_Remove_loses_entry :
    (Add (New testHash 1 (some testHash)) ["2"]).keys = [2] ∧
    (Add (New testHash 1 (some testHash)) ["2"]).hashMap = [(2, "2")] ∧
    Get (Add (New testHash 1 (some testHash)) ["2"]) "2" = "2" ∧
    (Remove (Add (Add (New testHash 1 (some testHash)) ["2"]) ["02"]) "02").map
      (fun m => (m.keys, m.hashMap, Get m "2")) = some ([2], [], "") ∧
    (Remove (Add (Add (New testHash 1 (some testHash)) ["2"]) ["2"]) "2").map
      (fun m => (m.keys, m.hashMap, Get m "2")) = some ([2], [], "") := by
  decide

/-- C13, amended: for every map state `s` and every node `n` none of whose
positions is on the ring or in the mapping of `s`, `Add(n)` followed by
`Remove(n)` returns and restores `s`: the ring sequence and the position-to-node
mapping (and so the result of `Get` for every key) are those of `s`. -/
theorem Add_Remove_restores {m : Map} (h : Reachable m) (n : String)
    (hfresh : ∀ p ∈ m.positions n, p ∉ m.keys ∧ GoMap.get m.hashMap p = none) :
    Remove (Add m [n]) n = some m ∧
    ∀ m', Remove (Add m [n]) n = some m' →
      m'.keys = m.keys ∧ m'.hashMap = m.hashMap ∧ ∀ k, Get m' k = Get m k := by
  have hs := Reachable_sorted h
  have hperm : (Add m [n]).keys.Perm
      (m.keys ++ (List.range m.replicas.toNat).map
        (fun i => m.position (strconv.Itoa i ++ n))) := by
    have := Add_keys_perm m [n]
    simpa [Map.positions] using this
  obtain ⟨m2, f1, f2, f3, f4, f5, f6⟩ := Remove_fold m n (List.range m.replicas.toNat)
    (Add m [n]) m.keys (Add_hash m [n]) (Add_keys_sorted m [n]) hperm
  have hkeys : m2.keys = m.keys := List.eq_of_perm_of_sorted f5 f4 hs
  have hmap : m2.hashMap = m.hashMap := by
    rw [f6]
    have hv := virtuals_filter n (List.range m.replicas.toNat) m
    have hadd : (Add m [n]).hashMap =
        ((List.range m.replicas.toNat).foldl (fun m i => Add.virtual m n i) m).hashMap := rfl
    rw [hadd, hv, List.filter_eq_self]
    intro kv hkv
    simp only [decide_eq_true_eq]
    intro hc
    have := (hfresh kv.1 hc).2
    rw [GoMap.get_eq_none_iff] at this
    exact this (List.mem_map_of_mem Prod.fst hkv)
  have hrem : Remove (Add m [n]) n = some m := by
    unfold Remove
    rw [Add_replicas, f1]
    congr 1
    obtain ⟨a, b, c, d⟩ := m2
    obtain ⟨a', b', c', d'⟩ := m
    simp only at f2 f3 hkeys hmap
    rw [Add_replicas] at f3
    simp only at f3
    subst f2 f3 hkeys hmap
    rfl
  refine ⟨hrem, ?_⟩
  intro m' hm'
  rw [hrem] at hm'
  cases hm'
  exact ⟨rfl, rfl, fun _ => rfl⟩

theorem Add_Remove_restores_witness :
    Reachable testRing ∧
    (∀ p ∈ testRing.positions "8", p ∉ testRing.keys ∧ GoMap.get testRing.hashMap p = none) ∧
    (Add testRing ["8"]).keys = [2, 4, 6, 8, 12, 14, 16, 18, 22, 24, 26, 28] ∧
    Remove (Add testRing ["8"]) "8" = some testRing :=
  ⟨testRing_reachable, by decide, by decide,
    (Add_Remove_restores testRing_reachable "8" (by decide)).1⟩

end consistenthash

namespace lru

theorem Get_ll_subset (c : Cache) (key : String) : ∀ e ∈ (Get c key).1.ll, e ∈ c.ll := by
  intro e he
  unfold Get at he
  cases h1 : GoMap.get c.cache key with
  | none =>
    simp only [h1] at he
    exact he
  | some p =>
    simp only [h1] at he
    cases h2 : deref c.ll p with
    | none =>
      simp only [h2] at he
      exact he
    | some x =>
      simp only [h2, MoveToFront] at he
      rcases List.mem_cons.1 he with rfl | he
      · exact (deref_some h2).1
      · exact (List.mem_filter.1 he).1

/-- The entries on the list after `Add(key, value)` are entries that were on the
list before, or the entry `(key, value)`. -/
theorem Add_mem {fuel : Nat} {c c' : Cache} {key : String} {value : Value} (h : WF c)
    (hc : Add fuel c key value = some c') :
    ∀ e ∈ c'.ll, e ∈ c.ll ∨ e.Value = { key := key, value := value } := by
  obtain ⟨ev, h1, -⟩ := evict_spec (WF_store h key value) hc
  intro e he
  have hes : e ∈ (Add.store c key value).ll := by
    rw [h1]
    exact List.mem_append_left _ he
  by_cases hk : key ∈ residentKeys c
  · obtain ⟨x, hx, rfl⟩ := List.mem_map.1 hk
    obtain ⟨l1, l2, hl, hs⟩ := store_hit h hx value
    rw [hs] at hes
    simp only [List.mem_cons, List.mem_append] at hes
    rcases hes with rfl | hes | hes
    · exact Or.inr rfl
    · exact Or.inl (by rw [hl]; simp [hes])
    · exact Or.inl (by rw [hl]; simp [hes])
  · rw [store_miss h hk] at hes
    simp only [List.mem_cons] at hes
    rcases hes with rfl | hes
    · exact Or.inr rfl
    · exact Or.inl hes

theorem Get_some_resident {c : Cache} (h : WF c) {key : String} {v : Value}
    (hg : (Get c key).2 = some v) : key ∈ residentKeys c := by
  by_contra hk
  rw [Get_miss h hk] at hg
  cases hg

end lru

namespace geecache

theorem getLocally_sourced {fuel : Nat} {g g' : Group} {key : String}
    {r : ByteView × Option String} (hok : g.mainCache.OK) (hs : g.Sourced)
    (h : Group.getLocally fuel g key = some (r, g')) :
    g'.Sourced ∧ g'.getter = g.getter := by
  obtain ⟨-, -, -, hget, -, hcase⟩ := getLocally_spec h
  refine ⟨?_, hget⟩
  rcases hcase with ⟨e, -, -, hc⟩ | ⟨b, hb, -, hc⟩
  · intro l hl x hx
    rw [hget]
    rw [hc] at hl
    exact hs l hl x hx
  · intro l hl x hx
    rw [hget]
    unfold cache.add at hc
    obtain ⟨h1, -⟩ := cache_getD_OK hok
    cases ha : lru.Add fuel (g.mainCache.lru.getD (lru.New g.mainCache.cacheBytes false)) key
        { data := b } with
    | none => simp [ha] at hc
    | some l' =>
      simp only [ha, Option.map_some', Option.some.injEq] at hc
      rw [← hc] at hl
      simp only [Option.some.injEq] at hl
      subst hl
      rcases lru.Add_mem (lru.Reachable_wf h1) ha x hx with hold | hnew
      · cases hlru : g.mainCache.lru with
        | none =>
          rw [hlru] at hold
          simp [lru.New] at hold
        | some l0 =>
          rw [hlru] at hold
          exact hs l0 hlru x hold
      · exact ⟨g.calls, by rw [hnew]; exact hb⟩

theorem load_fn_sourced {fuel : Nat} {g g' : Group} {key : String}
    {r : Option ByteView × Option String} (hok : g.mainCache.OK) (hs : g.Sourced)
    (h : Group.load.fn fuel key g = some (r, g')) :
    g'.Sourced ∧ g'.getter = g.getter := by
  have hloc : ∀ (g1 : Group), g1.mainCache = g.mainCache → g1.getter = g.getter →
      (Group.getLocally fuel g1 key).map (fun r => ((some r.1.1, r.1.2), r.2)) = some (r, g') →
      g'.Sourced ∧ g'.getter = g.getter := by
    intro g1 h1 h2 hm
    cases hl : Group.getLocally fuel g1 key with
    | none => simp [hl] at hm
    | some x =>
      obtain ⟨r1, g2⟩ := x
      simp only [hl, Option.map_some', Option.some.injEq, Prod.mk.injEq] at hm
      obtain ⟨-, rfl⟩ := hm
      have hs1 : g1.Sourced := by
        unfold Group.Sourced
        rw [h1, h2]
        exact hs
      obtain ⟨k1, k2⟩ := getLocally_sourced (by rw [h1]; exact hok) hs1 hl
      exact ⟨k1, k2.trans h2⟩
  obtain ⟨name, getter, mainCache, peers, loader, calls⟩ := g
  unfold Group.load.fn at h
  simp only at h hloc hok ⊢
  cases peers with
  | none =>
    simp only at h
    exact hloc _ rfl rfl h
  | some pk =>
    simp only at h
    cases hpick : pk.PickPeer calls key with
    | none =>
      simp only [hpick] at h
      exact hloc _ rfl rfl h
    | some peer =>
      simp only [hpick] at h
      have hspec := getFromPeer_spec
        { name := name, getter := getter, mainCache := mainCache, peers := some pk,
          loader := loader, calls := calls ++ [Call.pickPeer key] } peer key
      generalize Group.getFromPeer
        { name := name, getter := getter, mainCache := mainCache, peers := some pk,
          loader := loader, calls := calls ++ [Call.pickPeer key] } peer key = x at hspec h
      obtain ⟨⟨value, err⟩, g2⟩ := x
      simp only at hspec
      cases err with
      | none =>
        simp only [Option.some.injEq, Prod.mk.injEq] at h
        obtain ⟨-, rfl⟩ := h
        rw [hspec]
        exact ⟨hs, rfl⟩
      | some e =>
        simp only at h
        exact hloc g2 (by rw [hspec]) (by rw [hspec]) h

theorem Sourced_Get {fuel : Nat} {g g' : Group} {key : String} {r : ByteView × Option String}
    (hv : Valid g) (hs : g.Sourced) (h : Group.Get fuel g key = some (r, g')) :
    g'.Sourced := by
  by_cases hk : key = ""
  · subst hk
    rw [Get_empty_key_eq] at h
    simp only [Option.some.injEq, Prod.mk.injEq] at h
    rw [← h.2]
    exact hs
  · cases hc : (g.mainCache.get key).2 with
    | some v =>
      rw [Get_on_hit hk hc] at h
      simp only [Option.some.injEq, Prod.mk.injEq] at h
      rw [← h.2]
      intro l hl x hx
      unfold cache.get at hl
      cases hlru : g.mainCache.lru with
      | none => simp [hlru] at hl
      | some l0 =>
        simp only [hlru, Option.some.injEq] at hl
        subst hl
        exact hs l0 hlru x (lru.Get_ll_subset l0 key x hx)
    | none =>
      rw [Get_on_miss hk hc] at h
      obtain ⟨h1, h2, h3⟩ := load_spec fuel key hv.idle
      cases hfn : Group.load.fn fuel key g with
      | none =>
        rw [h1 hfn] at h
        cases h
      | some x =>
        obtain ⟨⟨val, err⟩, g1⟩ := x
        obtain ⟨-, -, -, v, hval⟩ := load_fn_frame hv.lru_ok hfn
        obtain ⟨hs1, -⟩ := load_fn_sourced hv.lru_ok hs hfn
        simp only at hval
        subst hval
        cases err with
        | none =>
          obtain ⟨L, -, hload⟩ := h2 v g1 hfn
          rw [hload] at h
          simp only [Option.some.injEq, Prod.mk.injEq] at h
          rw [← h.2]
          exact hs1
        | some e =>
          obtain ⟨L, -, hload⟩ := h3 v e g1 hfn
          rw [hload] at h
          simp only [Option.some.injEq, Prod.mk.injEq] at h
          rw [← h.2]
          exact hs1

theorem Reachable_sourced {g : Group} (h : Reachable g) : g.Sourced := by
  induction h with
  | newGroup name cacheBytes getter =>
    intro l hl
    cases hl
  | @registerPeers g peers _ ih =>
    unfold Group.RegisterPeers
    cases g.peers with
    | none => exact ih
    | some pk => exact ih
  | get fuel key hr hget ih => exact Sourced_Get (Reachable_valid hr) ih hget

/-- A key for which the loader always fails is absent from the local cache. -/
theorem absent_of_loader_fails {g : Group} (h : Reachable g) {k e : String}
    (hfail : ∀ tr, g.getter.Get tr k = .error e) : (g.mainCache.get k).2 = none := by
  have hv := Reachable_valid h
  have hs := Reachable_sourced h
  unfold cache.get
  cases hlru : g.mainCache.lru with
  | none => rfl
  | some l =>
    simp only
    cases hg : (lru.Get l k).2 with
    | none => rfl
    | some v =>
      exfalso
      obtain ⟨hreach, -⟩ := hv.lru_ok l hlru
      have hres := lru.Get_some_resident (lru.Reachable_wf hreach) hg
      obtain ⟨x, hx, hxk⟩ := List.mem_map.1 hres
      obtain ⟨tr, htr⟩ := hs l hlru x hx
      rw [hxk, hfail tr] at htr
      cases htr

/-- The function literal of `load` when no remote peer answers and the loader
fails: the error of the loader, after the calls `pre` to the picker and the
peer and one call to the loader. -/
theorem load_fn_local_fail (fuel : Nat) {g : Group} {k e : String}
    (hfail : ∀ tr, g.getter.Get tr k = .error e) (hloc : g.NoRemote k) :
    ∃ pre : List Call, Group.load.fn fuel k g =
      some ((some { data := "" }, some e),
        { g with calls := g.calls ++ pre ++ [Call.getter k] }) := by
  obtain ⟨name, getter, mainCache, peers, loader, calls⟩ := g
  simp only at hfail
  unfold Group.NoRemote at hloc
  simp only at hloc
  unfold Group.load.fn
  cases peers with
  | none =>
    refine ⟨[], ?_⟩
    simp only
    rw [getLocally_fail fuel _ k (hfail _)]
    simp
  | some pk =>
    simp only
    cases hpick : pk.PickPeer calls k with
    | none =>
      refine ⟨[Call.pickPeer k], ?_⟩
      simp only
      rw [getLocally_fail fuel _ k (hfail _)]
      simp
    | some peer =>
      obtain ⟨e', he'⟩ := hloc pk rfl calls peer hpick (calls ++ [Call.pickPeer k])
      refine ⟨[Call.pickPeer k, Call.peerGet { Group := name, Key := k }], ?_⟩
      simp only [Group.getFromPeer, he']
      rw [getLocally_fail fuel _ k (hfail _)]
      simp

/-- One `Get` of a key whose loader fails and for which no remote peer answers. -/
theorem Get_loader_fails {g : Group} (h : Reachable g) {k : String} (hk : k ≠ "")
    {e : String} (hfail : ∀ tr, g.getter.Get tr k = .error e) (hloc : g.NoRemote k)
    (fuel : Nat) :
    ∃ (g1 : Group) (pre : List Call),
      Group.Get fuel g k = some (({ data := "" }, some e), g1) ∧
      g1.calls = g.calls ++ pre ++ [Call.getter k] ∧ g1.mainCache = g.mainCache ∧
      g1.getter = g.getter ∧ g1.peers = g.peers ∧ g1.name = g.name := by
  have hv := Reachable_valid h
  have habs := absent_of_loader_fails h hfail
  obtain ⟨pre, hfn⟩ := load_fn_local_fail fuel hfail hloc
  obtain ⟨L, -, hload⟩ := (load_spec fuel k hv.idle).2.2 _ e _ hfn
  rw [← Get_on_miss hk habs] at hload
  exact ⟨_, pre, hload, rfl, rfl, rfl, rfl, rfl⟩

/-- C16, as stated, fails: the loader of `TestGet` fails for the key "unknown",
yet on a group whose peer picker names a remote peer that answers, `Get` returns
the bytes of the peer with no error and the loader is not invoked. -/
theorem remote_answer_hides_loader_failure :
    (∀ tr, testGroupUp.getter.Get tr "unknown" = .error "unknown not exist") ∧
    (testGroupUp.mainCache.get "unknown").2 = none ∧
    (Group.Get 2 testGroupUp "unknown").map (fun x => (x.1, x.2.calls)) =
      some ((({ data := "remote" } : ByteView), none),
        [Call.pickPeer "unknown", Call.peerGet { Group := "scores", Key := "unknown" }]) := by
  refine ⟨fun tr => rfl, rfl, by decide⟩

/-- C16, amended: for every group and non-empty key `k` for which the loader
fails, when no remote peer answers for `k` (no peer picker is registered, or the
picker names no remote peer for `k`, or the `Get` of the named peer fails):
`Get(k)` returns the error of the loader with an empty `ByteView`, the local
cache is left unchanged, the loader has been invoked (the last call made), and
a subsequent `Get(k)` invokes the loader again and returns its error again. -/
theorem loader_failure_not_cached {g : Group} (h : Reachable g) {k : String} (hk : k ≠ "")
    {e : String} (hfail : ∀ tr, g.getter.Get tr k = .error e) (hloc : g.NoRemote k)
    (fuel fuel2 : Nat) :
    ∃ (g1 g2 : Group) (pre pre2 : List Call),
      Group.Get fuel g k = some (({ data := "" }, some e), g1) ∧
      g1.mainCache = g.mainCache ∧ g1.calls = g.calls ++ pre ++ [Call.getter k] ∧
      Group.Get fuel2 g1 k = some (({ data := "" }, some e), g2) ∧
      g2.mainCache = g.mainCache ∧ g2.calls = g1.calls ++ pre2 ++ [Call.getter k] := by
  obtain ⟨g1, pre, hget, hcalls, hcache, hgetter, hpeers, hname⟩ :=
    Get_loader_fails h hk hfail hloc fuel
  have h1 : Reachable g1 := Reachable.get fuel k h hget
  have hloc1 : g1.NoRemote k := by
    unfold Group.NoRemote at hloc ⊢
    rw [hpeers, hname]
    exact hloc
  obtain ⟨g2, pre2, hget2, hcalls2, hcache2, -, -, -⟩ :=
    Get_loader_fails h1 hk (by rw [hgetter]; exact hfail) hloc1 fuel2
  exact ⟨g1, g2, pre, pre2, hget, hcache, hcalls, hget2, hcache2.trans hcache, hcalls2⟩

theorem testGroupDown_NoRemote (key : String) : testGroupDown.NoRemote key := by
  intro pk hpk tr peer hpick tr'
  have h1 : some downPicker = some pk := hpk
  cases h1
  have h2 : some downPeer = some peer := hpick
  cases h2
  exact ⟨_, rfl⟩

theorem loader_failure_not_cached_witness :
    Reachable testGroupDown ∧ "unknown" ≠ "" ∧
    (∀ tr, testGroupDown.getter.Get tr "unknown" = .error "unknown not exist") ∧
    testGroupDown.NoRemote "unknown" ∧
    ∃ (g1 g2 : Group) (pre pre2 : List Call),
      Group.Get 0 testGroupDown "unknown" =
        some (({ data := "" }, some "unknown not exist"), g1) ∧
      g1.mainCache = testGroupDown.mainCache ∧
      g1.calls = testGroupDown.calls ++ pre ++ [Call.getter "unknown"] ∧
      Group.Get 0 g1 "unknown" = some (({ data := "" }, some "unknown not exist"), g2) ∧
      g2.mainCache = testGroupDown.mainCache ∧
      g2.calls = g1.calls ++ pre2 ++ [Call.getter "unknown"] :=
  ⟨testGroupDown_reachable, by decide, fun _ => rfl, testGroupDown_NoRemote "unknown",
    @loader_failure_not_cached testGroupDown testGroupDown_reachable "unknown" (by decide)
      "unknown not exist" (fun _ => rfl) (testGroupDown_NoRemote "unknown") 0 0⟩

end geecache

namespace lru

/-- The eviction loop empties the list when the entry at its head alone
exceeds a positive budget. -/
theorem evict_oversized {fuel : Nat} {c c' : Cache} {e : Element} {rest : List Element}
    (h : WF c) (hl : c.ll = e :: rest) (hm : 0 < c.maxBytes) (hbig : c.maxBytes < e.Value.size)
    (hc : Add.evict fuel c = some c') : c'.ll = [] := by
  obtain ⟨ev, h1, -, h3, -, h5⟩ := evict_spec h hc
  have hw := WF_evict h hc
  rcases hcl : c'.ll with _ | ⟨x, xs⟩
  · rfl
  · exfalso
    rw [hcl, hl] at h1
    simp only [List.cons_append, List.cons.injEq] at h1
    have hb := hw.bytes
    have hnn : 0 ≤ (xs.map (fun e => e.Value.size)).sum := by
      apply List.sum_nonneg
      intro y hy
      obtain ⟨z, -, rfl⟩ := List.mem_map.1 hy
      simp only [entry.size, Value.Len]
      omega
    simp only [residentBytes, hcl, List.map_cons, List.sum_cons] at hb
    rw [← h1.1] at hb
    apply h5
    constructor <;> omega

/-- C27: on a cache built by `New` and the methods with a positive budget, an
`Add(k, v)` with `len(k) + v.Len() > maxBytes` returns and leaves the cache
empty: `Len() = 0`, `nbytes = 0` and `Get(k)` reports not-found. -/
theorem Add_oversized_empties {c : Cache} (h : Reachable c) (key : String) (value : Value)
    (hm : 0 < c.maxBytes) (hbig : c.maxBytes < (key.utf8ByteSize : Int) + value.Len) :
    ∃ c', Add (c.ll.length + 2) c key value = some c' ∧
      Len c' = 0 ∧ c'.nbytes = 0 ∧ c'.ll = [] ∧ c'.cache = [] ∧ (Get c' key).2 = none := by
  have hwf := Reachable_wf h
  have hws := WF_store hwf key value
  obtain ⟨e, rest, hl, he⟩ := store_head hwf key value
  have hlen := store_length_le hwf key value
  obtain ⟨c', hc'⟩ := evict_terminates (c.ll.length + 2) hws
    (by rw [store_maxBytes]; exact hm) (by omega)
  have hnil : c'.ll = [] := by
    refine evict_oversized hws hl (by rw [store_maxBytes]; exact hm) ?_ hc'
    rw [store_maxBytes, he]
    exact hbig
  have hw' := WF_evict hws hc'
  refine ⟨c', hc', ?_, ?_, hnil, ?_, ?_⟩
  · simp [Len, hnil]
  · rw [hw'.bytes]
    simp [residentBytes, hnil]
  · rcases hcc : c'.cache with _ | ⟨⟨k, p⟩, tl⟩
    · rfl
    · exfalso
      have : GoMap.get c'.cache k = some p := by simp [hcc, GoMap.get]
      obtain ⟨x, hx, -⟩ := (hw'.index _ _).1 this
      rw [hnil] at hx
      simp at hx
  · rw [Get_miss hw' (by simp [residentKeys, hnil])]

theorem Add_oversized_empties_witness :
    Len testTwoCache = 2 ∧
    ∃ c', Add (testTwoCache.ll.length + 2) testTwoCache "key1" { data := "0123456789abcdefg" }
        = some c' ∧
      Len c' = 0 ∧ c'.nbytes = 0 ∧ c'.ll = [] ∧ c'.cache = [] ∧ (Get c' "key1").2 = none :=
  ⟨by decide, Add_oversized_empties testTwoCache_reachable "key1" { data := "0123456789abcdefg" }
    (by decide) (by decide)⟩


/-- The keys of the index of a well-formed cache are the keys of the list, in
some order. -/
theorem WF_index_perm {c : Cache} (h : WF c) : (c.cache.map Prod.fst).Perm (residentKeys c) := by
  rw [List.perm_ext_iff_of_nodup h.index_nodup (WF_key_nodup h)]
  intro k
  constructor
  · intro hk
    by_contra hn
    exact (GoMap.get_eq_none_iff _ _).1 (WF_get_none h hn) hk
  · intro hk
    obtain ⟨e, he, rfl⟩ := List.mem_map.1 hk
    by_contra hn
    have := (GoMap.get_eq_none_iff _ _).2 hn
    rw [WF_get_index h he] at this
    cases this

/-- C28: for every cache created by `New` and every finite sequence of `Add`,
`Get` and `RemoveOldest` calls, the index and the list are in one-to-one
correspondence: every key of the index points to a list element that carries
that key, the key of every list element is in the index (and points to that
element), no key occurs twice in the list or in the index, and `Len()` equals
the number of keys of the index. -/
theorem index_list_correspondence {c : Cache} (h : Reachable c) :
    (∀ k p, GoMap.get c.cache k = some p → ∃ e ∈ c.ll, e.ptr = p ∧ e.Value.key = k) ∧
    (∀ k ∈ c.cache.map Prod.fst, ∃ p e, GoMap.get c.cache k = some p ∧ e ∈ c.ll ∧
      e.ptr = p ∧ e.Value.key = k) ∧
    (∀ e ∈ c.ll, GoMap.get c.cache e.Value.key = some e.ptr) ∧
    (residentKeys c).Nodup ∧
    (c.cache.map Prod.fst).Nodup ∧
    Len c = (c.cache.map Prod.fst).length := by
  have hwf := Reachable_wf h
  refine ⟨fun k p hp => (hwf.index k p).1 hp, ?_, fun e he => WF_get_index hwf he,
    WF_key_nodup hwf, hwf.index_nodup, ?_⟩
  · intro k hk
    cases hg : GoMap.get c.cache k with
    | none => exact absurd hk ((GoMap.get_eq_none_iff _ _).1 hg)
    | some p =>
      obtain ⟨e, he, h1, h2⟩ := (hwf.index k p).1 hg
      exact ⟨p, e, rfl, he, h1, h2⟩
  · have := (WF_index_perm hwf).length_eq
    simp only [residentKeys, List.length_map] at this
    simp [Len, this]

theorem index_list_correspondence_witness :
    (∀ k p, GoMap.get testTwoCache.cache k = some p →
      ∃ e ∈ testTwoCache.ll, e.ptr = p ∧ e.Value.key = k) ∧
    (∀ k ∈ testTwoCache.cache.map Prod.fst, ∃ p e, GoMap.get testTwoCache.cache k = some p ∧
      e ∈ testTwoCache.ll ∧ e.ptr = p ∧ e.Value.key = k) ∧
    (∀ e ∈ testTwoCache.ll, GoMap.get testTwoCache.cache e.Value.key = some e.ptr) ∧
    (residentKeys testTwoCache).Nodup ∧
    (testTwoCache.cache.map Prod.fst).Nodup ∧
    Len testTwoCache = (testTwoCache.cache.map Prod.fst).length :=
  index_list_correspondence testTwoCache_reachable

end lru

namespace consistenthash

/-- C24, evaluated at a failing input.  In the ring of `TestHashing` (nodes 6, 4,
2; three replicas; positions 2, 4, 6, 12, 14, 16, 22, 24, 26) neither node 8 nor
node 1 is on the ring: none of their positions is a position of the ring and
the mapping names neither.  `Remove("8")` takes the positions 12 and 22 of node
2 off the ring and then panics on the slice expression `m.keys[idx+1:]`, the
index for position 28 being the length of the ring.  `Remove("1")` returns, but
it has taken the three positions 2, 12, 22 of node 2 off the ring (the mapping
is unchanged), so that `Get("2")` returns node 4 where it returned node 2. -/
theorem Remove_absent_node_faults :
    (∀ p ∈ testRing.positions "8", p ∉ testRing.keys) ∧
    (∀ p ∈ testRing.positions "1", p ∉ testRing.keys) ∧
    "8" ∉ testRing.hashMap.map Prod.snd ∧ "1" ∉ testRing.hashMap.map Prod.snd ∧
    testRing.keys = [2, 4, 6, 12, 14, 16, 22, 24, 26] ∧
    ((Remove.virtual testRing "8" 0).bind (fun m => Remove.virtual m "8" 1)).map
      (fun m => (m.keys, m.position "28", sort.SearchInts m.keys (m.position "28"))) =
        some ([2, 4, 6, 14, 16, 24, 26], 28, 7) ∧
    (Remove testRing "8").isNone = true ∧
    (Remove testRing "1").map (fun m => (m.keys, m.hashMap)) =
      some ([4, 6, 14, 16, 24, 26], testRing.hashMap) ∧
    Get testRing "2" = "2" ∧
    (Remove testRing "1").map (fun m => Get m "2") = some "4" := by
  decide

theorem Built_reachable {m : Map} {nodes : List String} (h : Built m nodes) : Reachable m := by
  induction h with
  | new c r f => exact Reachable.new c r f
  | add keys _ ih => exact Reachable.add keys ih

/-- In a map built by `New` and `Add` calls, every position of the ring is
mapped, the mapping names added nodes only, and the positions of every added
node are on the ring. -/
theorem Built_inv {m : Map} {nodes : List String} (h : Built m nodes) :
    Mapped m ∧ (∀ p x, GoMap.get m.hashMap p = some x → x ∈ nodes) ∧
    (∀ n ∈ nodes, ∀ p ∈ m.positions n, p ∈ m.keys) := by
  induction h with
  | new c r f =>
    refine ⟨?_, ?_, ?_⟩
    · intro k hk
      simp [New] at hk
    · intro p x hx
      simp [New, GoMap.get] at hx
    · intro n hn
      simp at hn
  | @add m nodes keys _ ih =>
    obtain ⟨i1, i2, i3⟩ := ih
    obtain ⟨a1, a2, a3, a4, a5⟩ := append_spec keys m
    have hperm := Add_keys_perm m keys
    refine ⟨Mapped_Add i1 keys, ?_, ?_⟩
    · intro p x hx
      have hx' : GoMap.get (Add.append m keys).hashMap p = some x := hx
      rcases a5 p x hx' with ⟨hk, -⟩ | hold
      · exact List.mem_append_right _ hk
      · exact List.mem_append_left _ (i2 p x hold)
    · intro n hn p hp
      rw [positions_congr (Add_hash m keys) (Add_replicas m keys)] at hp
      rw [hperm.mem_iff, List.mem_append]
      rcases List.mem_append.1 hn with hn | hn
      · exact Or.inl (i3 n hn p hp)
      · exact Or.inr (List.mem_flatMap.2 ⟨n, hn, hp⟩)

/-- On a map built by `New` and `Add` calls, `Get` returns the empty string (on
an empty ring) or an added node. -/
theorem Built_Get {m : Map} {nodes : List String} (h : Built m nodes) (key : String) :
    (m.keys = [] ∧ Get m key = "") ∨ (m.keys ≠ [] ∧ Get m key ∈ nodes) := by
  by_cases hk : m.keys = []
  · left
    refine ⟨hk, ?_⟩
    unfold Get
    simp [hk]
  · right
    refine ⟨hk, ?_⟩
    obtain ⟨i1, i2, -⟩ := Built_inv h
    obtain ⟨p, hp, hget, -⟩ := Get_succ (Reachable_sorted (Built_reachable h)) hk key
    obtain ⟨node, hnode⟩ := i1 p hp
    rw [hget]
    unfold Map.node
    rw [hnode]
    exact i2 p node hnode

/-- C29, amended: for every map created by `New` with `replicas >= 1` and built by `Add`
calls only, which added at least one node, `Get(key)` returns for every key the
name of one of the nodes that were added: never a name that was not added, and
never the empty string (unless the empty string is itself the name of an added
node). -/
theorem Get_returns_added_node {m : Map} {nodes : List String} (h : Built m nodes)
    (hr : 1 ≤ m.replicas) (hne : nodes ≠ []) (key : String) :
    Get m key ∈ nodes ∧ ("" ∉ nodes → Get m key ≠ "") := by
  have hmem : Get m key ∈ nodes := by
    rcases Built_Get h key with ⟨hk, -⟩ | ⟨-, hg⟩
    · exfalso
      obtain ⟨n, hn⟩ := List.exists_mem_of_ne_nil nodes hne
      have hpos := (Built_inv h).2.2 n hn (m.position (strconv.Itoa 0 ++ n)) (by
        unfold Map.positions
        refine List.mem_map.2 ⟨0, ?_, rfl⟩
        rw [List.mem_range]
        omega)
      rw [hk] at hpos
      simp at hpos
    · exact hg
  exact ⟨hmem, fun hno he => hno (he ▸ hmem)⟩

theorem Get_returns_added_node_witness :
    Built testRing ["6", "4", "2"] ∧ Get testRing "27" = "2" ∧
    Get testRing "27" ∈ ["6", "4", "2"] ∧ (("" : String) ∉ ["6", "4", "2"] → Get testRing "27" ≠ "") :=
  ⟨Built.add ["6", "4", "2"] (Built.new testHash 3 (some testHash)), by decide,
    Get_returns_added_node (Built.add ["6", "4", "2"] (Built.new testHash 3 (some testHash)))
      (by decide) (by decide) "27"⟩

end consistenthash

namespace geecache

/-- The map `httpGetters` that the loop of `Set` builds: a client for every
peer, with the base URL of that peer, and nothing else that was not there. -/
theorem httpGetters_spec (basePath : String) (peers : List String)
    (acc : List (String × httpGetter)) (x : String) :
    (x ∈ peers →
      GoMap.get (peers.foldl (fun m peer => GoMap.set m peer { baseURL := peer ++ basePath }) acc) x
        = some { baseURL := x ++ basePath }) ∧
    (x ∉ peers →
      GoMap.get (peers.foldl (fun m peer => GoMap.set m peer { baseURL := peer ++ basePath }) acc) x
        = GoMap.get acc x) := by
  induction peers generalizing acc with
  | nil => simp
  | cons a rest ih =>
    rw [List.foldl_cons]
    obtain ⟨h1, h2⟩ := ih (GoMap.set acc a { baseURL := a ++ basePath })
    constructor
    · intro hx
      by_cases hr : x ∈ rest
      · exact h1 hr
      · rw [h2 hr]
        have : x = a := by simpa [hr] using hx
        subst this
        exact GoMap.get_set_self _ _ _
    · intro hx
      simp only [List.mem_cons, not_or] at hx
      rw [h2 hx.2]
      exact GoMap.get_set_ne _ _ hx.1

/-- C23: for every pool on which `Set(peers...)` has been called and every key,
`PickPeer(key)` returns `(client, true)` if and only if the owner of the key on
the ring of the pool is not the empty string and is not the address of the pool
itself; the owner is then one of the peers, and the client is the one that `Set`
stored for the owner, whose base URL is `owner + basePath`.  Otherwise it
returns `(nil, false)`. -/
theorem PickPeer_after_Set (ChecksumIEEE : consistenthash.Hash) (p : HTTPPool)
    (peers : List String) (key : String) :
    (p.Set ChecksumIEEE peers).self = p.self ∧
    (p.Set ChecksumIEEE peers).basePath = p.basePath ∧
    ∃ ring r,
      ring = consistenthash.Add (consistenthash.New ChecksumIEEE defaultReplicas none) peers ∧
      (p.Set ChecksumIEEE peers).peers = some ring ∧
      (p.Set ChecksumIEEE peers).PickPeer key = some r ∧
      (r.2 = true ↔
        (consistenthash.Get ring key ≠ "" ∧ consistenthash.Get ring key ≠ p.self)) ∧
      (r.2 = true →
        consistenthash.Get ring key ∈ peers ∧
        r.1 = GoMap.get (p.Set ChecksumIEEE peers).httpGetters (consistenthash.Get ring key) ∧
        r.1 = some { baseURL := consistenthash.Get ring key ++ p.basePath }) ∧
      (r.2 = false → r = (none, false)) := by
  refine ⟨rfl, rfl, ?_⟩
  generalize hring :
    consistenthash.Add (consistenthash.New ChecksumIEEE defaultReplicas none) peers = ring
  have hbuilt : consistenthash.Built ring ([] ++ peers) := by
    rw [← hring]
    exact consistenthash.Built.add peers (consistenthash.Built.new _ _ _)
  have hpeers : (p.Set ChecksumIEEE peers).peers = some ring := by
    simp only [HTTPPool.Set, hring]
  have hpick : (p.Set ChecksumIEEE peers).PickPeer key =
      if consistenthash.Get ring key ≠ "" ∧ consistenthash.Get ring key ≠ p.self then
        some (GoMap.get (p.Set ChecksumIEEE peers).httpGetters (consistenthash.Get ring key), true)
      else some (none, false) := by
    simp only [HTTPPool.PickPeer, HTTPPool.Set, hring]
  by_cases hc : consistenthash.Get ring key ≠ "" ∧ consistenthash.Get ring key ≠ p.self
  · rw [if_pos hc] at hpick
    have hmem : consistenthash.Get ring key ∈ peers := by
      rcases consistenthash.Built_Get hbuilt key with ⟨-, he⟩ | ⟨-, hm⟩
      · exact absurd he hc.1
      · simpa using hm
    refine ⟨ring, _, rfl, hpeers, hpick, ?_, ?_, ?_⟩
    · simp [hc]
    · intro _
      exact ⟨hmem, rfl, (httpGetters_spec p.basePath peers [] _).1 hmem⟩
    · intro h
      cases h
  · rw [if_neg hc] at hpick
    refine ⟨ring, _, rfl, hpeers, hpick, ?_, ?_, ?_⟩
    · constructor
      · intro h
        cases h
      · intro h
        exact absurd h hc
    · intro h
      cases h
    · intro _
      rfl

end geecache

namespace strings

/-- The function `SplitN(s, "/", 2)` yields the whole of `s` when `s` holds no
separator, and otherwise the part before the first separator and the part
after it. -/
theorem SplitN_two (s : String) (sep : Char) :
    (sep ∉ s.data ∧ SplitN s sep 2 = [s]) ∨
    (∃ a b : String, SplitN s sep 2 = [a, b] ∧ s = a ++ String.singleton sep ++ b ∧
      sep ∉ a.data) := by
  obtain ⟨cs⟩ := s
  simp only [SplitN, SplitN.chars]
  rcases hsp : cs.span (fun c => decide (c ≠ sep)) with ⟨a, b⟩
  have hsp' := List.span_eq_take_drop (fun c => decide (c ≠ sep)) cs
  rw [hsp] at hsp'
  obtain ⟨h1, h2⟩ := Prod.mk.inj hsp'
  have happ : a ++ b = cs := by
    rw [h1, h2]
    exact List.takeWhile_append_dropWhile _ _
  have ha : ∀ c ∈ a, c ≠ sep := by
    intro c hc
    rw [h1] at hc
    simpa using List.mem_takeWhile_imp hc
  have hb : ∀ c rest, b = c :: rest → c = sep := by
    intro c rest hbc
    have := List.head_dropWhile_not (fun c => decide (c ≠ sep)) cs
    rw [← h2] at this
    simp only [hbc] at this
    simpa using this (by simp)
  cases b with
  | nil =>
    left
    simp only [List.append_nil] at happ
    subst happ
    refine ⟨fun h => ha _ h rfl, ?_⟩
    simp
  | cons c rest =>
    right
    have hc := hb c rest rfl
    subst hc
    refine ⟨String.mk a, String.mk rest, by simp, ?_, fun h => ha _ h rfl⟩
    rw [← happ]
    apply String.ext
    simp [String.singleton]

end strings

namespace geecache

/-- The response of `ServeHTTP` in each of the cases of its control flow, for a
path that starts with the base path of the pool. -/
theorem ServeHTTP_cases (Marshal : geecachepb.Response → Except String String) (fuel : Nat)
    (p : HTTPPool) (groups : Groups) (path : String)
    (hpre : strings.HasPrefix path p.basePath = true) :
    ((HTTPPool.ServeHTTP.parts p path).length ≠ 2 →
      HTTPPool.ServeHTTP Marshal fuel p groups path =
        some (.ok (http.Error "bad request" 400), groups)) ∧
    (∀ groupName key, HTTPPool.ServeHTTP.parts p path = [groupName, key] →
      (GetGroup groups groupName = none →
        HTTPPool.ServeHTTP Marshal fuel p groups path =
          some (.ok (http.Error ("no such group: " ++ groupName) 404), groups)) ∧
      (∀ group, GetGroup groups groupName = some group →
        (group.Get fuel key = none → HTTPPool.ServeHTTP Marshal fuel p groups path = none) ∧
        (∀ view err group', group.Get fuel key = some ((view, some err), group') →
          HTTPPool.ServeHTTP Marshal fuel p groups path =
            some (.ok (http.Error err 500), GoMap.set groups groupName group')) ∧
        (∀ view group' body, group.Get fuel key = some ((view, none), group') →
          Marshal { Value := view.data } = .ok body →
          HTTPPool.ServeHTTP Marshal fuel p groups path =
            some (.ok { status := 200, header := [("Content-Type", "application/octet-stream")],
                        body := body },
              GoMap.set groups groupName group')))) := by
  refine ⟨?_, ?_⟩
  · intro hlen
    unfold HTTPPool.ServeHTTP
    rw [if_neg (by simp [hpre])]
    split
    · rename_i h
      rw [h] at hlen
      simp at hlen
    · rfl
  · intro groupName key hparts
    refine ⟨?_, ?_⟩
    · intro hg
      unfold HTTPPool.ServeHTTP
      rw [if_neg (by simp [hpre])]
      simp only [hparts, hg]
    · intro group hg
      refine ⟨?_, ?_, ?_⟩
      · intro hget
        unfold HTTPPool.ServeHTTP
        rw [if_neg (by simp [hpre])]
        simp only [hparts, hg, hget]
      · intro view err group' hget
        unfold HTTPPool.ServeHTTP
        rw [if_neg (by simp [hpre])]
        simp only [hparts, hg, hget]
      · intro view group' body hget hm
        unfold HTTPPool.ServeHTTP
        rw [if_neg (by simp [hpre])]
        simp only [hparts, hg, hget, hm]

/-- C22: for every request whose URL path starts with the base path of the pool,
`ServeHTTP` answers with status 400 if and only if the remainder of the path
does not split into a group segment and a key segment (it holds no "/");
otherwise with 404 if and only if the group segment names no registered group;
otherwise with 500 if and only if `Get(key)` of that group returns an error;
otherwise with 200, the content type application/octet-stream and the
serialized `Response` that carries the bytes of the value as its body.  The
handler does not panic, and it answers whenever the call of `Get` returns. -/
theorem ServeHTTP_status (Marshal : geecachepb.Response → Except String String)
    (hM : ∀ r, ∃ body, Marshal r = .ok body) (fuel : Nat)
    (p : HTTPPool) (groups : Groups) (path : String)
    (hpre : strings.HasPrefix path p.basePath = true) :
    ((HTTPPool.ServeHTTP.parts p path).length ≠ 2 ↔
      '/' ∉ (path.drop p.basePath.length).data) ∧
    (∀ msg gs, HTTPPool.ServeHTTP Marshal fuel p groups path ≠ some (.error msg, gs)) ∧
    (HTTPPool.ServeHTTP Marshal fuel p groups path = none ↔
      ∃ groupName key group, HTTPPool.ServeHTTP.parts p path = [groupName, key] ∧
        GetGroup groups groupName = some group ∧ group.Get fuel key = none) ∧
    (∀ resp gs, HTTPPool.ServeHTTP Marshal fuel p groups path = some (.ok resp, gs) →
      (resp.status = 400 ↔ (HTTPPool.ServeHTTP.parts p path).length ≠ 2) ∧
      (resp.status = 400 → resp = http.Error "bad request" 400) ∧
      (∀ groupName key, HTTPPool.ServeHTTP.parts p path = [groupName, key] →
        (resp.status = 404 ↔ GetGroup groups groupName = none) ∧
        (resp.status = 404 → resp = http.Error ("no such group: " ++ groupName) 404) ∧
        (∀ group, GetGroup groups groupName = some group →
          (resp.status = 500 ↔
            ∃ view err group', group.Get fuel key = some ((view, some err), group')) ∧
          (∀ view err group', group.Get fuel key = some ((view, some err), group') →
            resp = http.Error err 500) ∧
          (resp.status ≠ 500 →
            ∃ view group' body, group.Get fuel key = some ((view, none), group') ∧
              Marshal { Value := view.data } = .ok body ∧
              resp = { status := 200, header := [("Content-Type", "application/octet-stream")],
                       body := body })))) := by
  obtain ⟨c1, c2⟩ := ServeHTTP_cases Marshal fuel p groups path hpre
  have hsplit := strings.SplitN_two (path.drop p.basePath.length) '/'
  have hparts : HTTPPool.ServeHTTP.parts p path =
      strings.SplitN (path.drop p.basePath.length) '/' 2 := rfl
  rcases hsplit with ⟨hno, hone⟩ | ⟨a, b, htwo, hab, -⟩
  · -- the remainder holds no separator
    rw [← hparts] at hone
    have hlen : (HTTPPool.ServeHTTP.parts p path).length ≠ 2 := by simp [hone]
    have hval := c1 hlen
    refine ⟨⟨fun _ => hno, fun _ => hlen⟩, ?_, ?_, ?_⟩
    · intro msg gs h
      rw [hval] at h
      cases h
    · rw [hval]
      constructor
      · intro h
        cases h
      · rintro ⟨g, k, _, h, -⟩
        rw [hone] at h
        cases h
    · intro resp gs h
      rw [hval] at h
      cases h
      refine ⟨⟨fun _ => hlen, fun _ => rfl⟩, fun _ => rfl, ?_⟩
      intro g k h
      rw [hone] at h
      cases h
  · -- the remainder splits into a group segment and a key segment
    rw [← hparts] at htwo
    have hlen : (HTTPPool.ServeHTTP.parts p path).length = 2 := by simp [htwo]
    have hsep : '/' ∈ (path.drop p.basePath.length).data := by
      rw [hab]
      simp [String.singleton]
    obtain ⟨d1, d2⟩ := c2 a b htwo
    refine ⟨⟨fun h => absurd hlen h, fun h => absurd hsep h⟩, ?_, ?_, ?_⟩
    · intro msg gs h
      cases hg : GetGroup groups a with
      | none =>
        rw [d1 hg] at h
        cases h
      | some group =>
        obtain ⟨e1, e2, e3⟩ := d2 group hg
        rcases hget : group.Get fuel b with _ | ⟨⟨view, _ | err⟩, group'⟩
        · rw [e1 hget] at h
          cases h
        · obtain ⟨body, hb⟩ := hM { Value := view.data }
          rw [e3 view group' body hget hb] at h
          cases h
        · rw [e2 view err group' hget] at h
          cases h
    · constructor
      · intro h
        cases hg : GetGroup groups a with
        | none =>
          rw [d1 hg] at h
          cases h
        | some group =>
          obtain ⟨e1, e2, e3⟩ := d2 group hg
          rcases hget : group.Get fuel b with _ | ⟨⟨view, _ | err⟩, group'⟩
          · exact ⟨a, b, group, htwo, hg, hget⟩
          · obtain ⟨body, hb⟩ := hM { Value := view.data }
            rw [e3 view group' body hget hb] at h
            cases h
          · rw [e2 view err group' hget] at h
            cases h
      · rintro ⟨g, k, group, h1, h2, h3⟩
        rw [htwo] at h1
        cases h1
        exact (d2 group h2).1 h3
    · intro resp gs h
      cases hg : GetGroup groups a with
      | none =>
        rw [d1 hg] at h
        cases h
        refine ⟨⟨fun h => (by cases h), fun h => absurd hlen h⟩, fun h => (by cases h), ?_⟩
        intro g k hgk
        rw [htwo] at hgk
        cases hgk
        refine ⟨⟨fun _ => hg, fun _ => rfl⟩, fun _ => rfl, ?_⟩
        intro group hgroup
        rw [hg] at hgroup
        cases hgroup
      | some group =>
        obtain ⟨e1, e2, e3⟩ := d2 group hg
        rcases hget : group.Get fuel b with _ | ⟨⟨view, _ | err⟩, group'⟩
        · rw [e1 hget] at h
          cases h
        · obtain ⟨body, hb⟩ := hM { Value := view.data }
          rw [e3 view group' body hget hb] at h
          cases h
          refine ⟨⟨fun h => (by cases h), fun h => absurd hlen h⟩, fun h => (by cases h), ?_⟩
          intro g k hgk
          rw [htwo] at hgk
          cases hgk
          refine ⟨⟨fun h => (by cases h), fun h => (by rw [hg] at h; cases h)⟩,
            fun h => (by cases h), ?_⟩
          intro group2 hgroup
          rw [hg] at hgroup
          cases hgroup
          refine ⟨⟨fun h => (by cases h), ?_⟩, ?_, ?_⟩
          · rintro ⟨v, e, g', hh⟩
            rw [hget] at hh
            cases hh
          · intro v e g' hh
            rw [hget] at hh
            cases hh
          · intro _
            exact ⟨view, group', body, hget, hb, rfl⟩
        · rw [e2 view err group' hget] at h
          cases h
          refine ⟨⟨fun h => (by cases h), fun h => absurd hlen h⟩, fun h => (by cases h), ?_⟩
          intro g k hgk
          rw [htwo] at hgk
          cases hgk
          refine ⟨⟨fun h => (by cases h), fun h => (by rw [hg] at h; cases h)⟩,
            fun h => (by cases h), ?_⟩
          intro group2 hgroup
          rw [hg] at hgroup
          cases hgroup
          refine ⟨⟨fun _ => ⟨view, err, group', hget⟩, fun _ => rfl⟩, ?_, ?_⟩
          · intro v e g' hh
            rw [hget] at hh
            cases hh
            rfl
          · intro hne
            exact absurd rfl hne

theorem ServeHTTP_status_witness :
    strings.HasPrefix "/_geecache/scores/Tom" testPool.basePath = true ∧
    HTTPPool.ServeHTTP.parts testPool "/_geecache/scores/Tom" = ["scores", "Tom"] ∧
    (HTTPPool.ServeHTTP testMarshal 5 testPool testGroups "/_geecache/scores/Tom").map
        (fun x => x.1) =
      some (.ok { status := 200, header := [("Content-Type", "application/octet-stream")],
                  body := String.mk [Char.ofNat 10, Char.ofNat 3] ++ "630" }) ∧
    ∀ msg gs, HTTPPool.ServeHTTP testMarshal 5 testPool testGroups "/_geecache/scores/Tom" ≠
      some (.error msg, gs) :=
  ⟨by decide, by decide, rfl,
    (ServeHTTP_status testMarshal
      (fun r => by unfold testMarshal; split <;> exact ⟨_, rfl⟩) 5 testPool testGroups
      "/_geecache/scores/Tom" (by decide)).2.1⟩

end geecache

namespace geecache

/-- C25, evaluated at failing inputs.  The client that `Set` creates for the
peer http://localhost:8002 requests, for the group "scores" and the key
"Tom Smith", the URL http://localhost:8002/_geecache/scores/Tom+Smith:
`QueryEscape` writes the space as `+`.  The server decodes the path of the URL
as a path, where `+` stands for itself, and `ServeHTTP` splits it into the group
"scores" and the key "Tom+Smith", which is not the key of the request.  For the
group "a/b" and the key "k" the URL ends in a%2Fb/k, the server decodes the
path to /_geecache/a/b/k and `ServeHTTP` splits it at the first "/" into the
group "a" and the key "b/k".  (A key without a space, as "Tom" or "x/y+z", and a
group without "/" come back unchanged.) -/
theorem QueryEscape_path_mismatch :
    GoMap.get testPool.httpGetters "http://localhost:8002" =
      some { baseURL := "http://localhost:8002/_geecache/" } ∧
    url.QueryEscape "Tom Smith" = "Tom+Smith" ∧
    httpGetter.Get.u { baseURL := "http://localhost:8002/_geecache/" }
        { Group := "scores", Key := "Tom Smith" } =
      "http://localhost:8002/_geecache/scores/Tom+Smith" ∧
    http.requestPath "http://localhost:8002/_geecache/scores/Tom+Smith" =
      some "/_geecache/scores/Tom+Smith" ∧
    strings.HasPrefix "/_geecache/scores/Tom+Smith" testPool.basePath = true ∧
    HTTPPool.ServeHTTP.parts testPool "/_geecache/scores/Tom+Smith" = ["scores", "Tom+Smith"] ∧
    (http.requestPath (httpGetter.Get.u { baseURL := "http://localhost:8002/_geecache/" }
        { Group := "a/b", Key := "k" })).map (fun path => (path, HTTPPool.ServeHTTP.parts testPool path)) =
      some ("/_geecache/a/b/k", ["a", "b/k"]) ∧
    (http.requestPath (httpGetter.Get.u { baseURL := "http://localhost:8002/_geecache/" }
        { Group := "scores", Key := "x/y+z" })).map
          (fun path => (path, HTTPPool.ServeHTTP.parts testPool path)) =
      some ("/_geecache/scores/x/y+z", ["scores", "x/y+z"]) ∧
    (http.requestPath (httpGetter.Get.u { baseURL := "http://localhost:8002/_geecache/" }
        { Group := "scores", Key := "Tom" })).map
          (fun path => (path, HTTPPool.ServeHTTP.parts testPool path)) =
      some ("/_geecache/scores/Tom", ["scores", "Tom"]) := by
  decide

end geecache

namespace gee

theorem mem_modifyFirst {p : node → Bool} {f : node → node} {l : List node} {x : node}
    (h : x ∈ node.modifyFirst p f l) : x ∈ l ∨ ∃ c ∈ l, p c = true ∧ x = f c := by
  induction l with
  | nil => simp [node.modifyFirst] at h
  | cons a rest ih =>
    unfold node.modifyFirst at h
    by_cases hp : p a = true
    · rw [if_pos hp] at h
      rcases List.mem_cons.1 h with rfl | h
      · exact Or.inr ⟨a, List.mem_cons_self _ _, hp, rfl⟩
      · exact Or.inl (List.mem_cons_of_mem _ h)
    · rw [if_neg hp] at h
      rcases List.mem_cons.1 h with rfl | h
      · exact Or.inl (List.mem_cons_self _ _)
      · rcases ih h with h | ⟨c, hc, hpc, rfl⟩
        · exact Or.inl (List.mem_cons_of_mem _ h)
        · exact Or.inr ⟨c, List.mem_cons_of_mem _ hc, hpc, rfl⟩

theorem matchChild_some {n c : node} {part : String} (h : n.matchChild part = some c) :
    c ∈ n.children ∧ node.matches part c = true :=
  ⟨List.mem_of_find?_eq_some h, List.find?_some h⟩

theorem insert_part (pattern : String) (parts : List String) (n : node) :
    (node.insert.go pattern parts n).part = n.part := by
  cases parts with
  | nil => rfl
  | cons part rest =>
    unfold node.insert.go
    split <;> rfl

theorem insert_isWild (pattern : String) (parts : List String) (n : node) :
    (node.insert.go pattern parts n).isWild = n.isWild := by
  cases parts with
  | nil => rfl
  | cons part rest =>
    unfold node.insert.go
    split <;> rfl

/-- A node without children is the only node below itself. -/
theorem Path_leaf {n m : node} {w : List String} (hn : n.children = [])
    (h : node.Path n w m) : w = [] ∧ m = n := by
  cases h with
  | nil => exact ⟨rfl, rfl⟩
  | cons hc _ =>
    rw [hn] at hc
    simp at hc

/-- A node that carries a pattern after an insertion is the node at which the
insertion ended, or carried its pattern before. -/
theorem Path_insert_pattern (pattern : String) (parts : List String) (n : node)
    {w : List String} {m : node} (h : node.Path (node.insert.go pattern parts n) w m)
    (hm : m.pattern ≠ "") :
    (m.pattern = pattern ∧ w.length = parts.length) ∨
      ∃ m0, node.Path n w m0 ∧ m0.pattern = m.pattern := by
  induction parts generalizing n w m with
  | nil =>
    generalize hn' : node.insert.go pattern [] n = n' at h
    cases h with
    | nil =>
      subst hn'
      exact Or.inl ⟨rfl, rfl⟩
    | cons hc hp =>
      subst hn'
      exact Or.inr ⟨m, node.Path.cons hc hp, rfl⟩
  | cons part rest ih =>
    generalize hn' : node.insert.go pattern (part :: rest) n = n' at h
    unfold node.insert.go at hn'
    cases h with
    | nil =>
      right
      refine ⟨n, node.Path.nil n, ?_⟩
      subst hn'
      split <;> rfl
    | @cons _ c _ w' hc hp =>
      cases hmc : n.matchChild part with
      | some c0 =>
        rw [hmc] at hn'
        subst hn'
        rcases mem_modifyFirst hc with hold | ⟨c1, hc1, -, rfl⟩
        · exact Or.inr ⟨m, node.Path.cons hold hp, rfl⟩
        · rcases ih c1 hp hm with ⟨h1, h2⟩ | ⟨m0, h1, h2⟩
          · exact Or.inl ⟨h1, by simp [h2]⟩
          · refine Or.inr ⟨m0, ?_, h2⟩
            rw [insert_part]
            exact node.Path.cons hc1 h1
      | none =>
        rw [hmc] at hn'
        subst hn'
        rcases List.mem_append.1 hc with hold | hnew
        · exact Or.inr ⟨m, node.Path.cons hold hp, rfl⟩
        · rw [List.mem_singleton] at hnew
          subst hnew
          rcases ih _ hp hm with ⟨h1, h2⟩ | ⟨m0, h1, h2⟩
          · exact Or.inl ⟨h1, by simp [h2]⟩
          · exfalso
            obtain ⟨-, rfl⟩ := Path_leaf rfl h1
            exact hm h2.symm

/-- In a router built by `addRoute` calls, a node of a trie that carries a
pattern lies as deep as the pattern has parts, and the pattern is one that was
registered under the method of the trie. -/
theorem Built_patterns {H : Type} {r : router H} {routes : List (String × String)}
    (h : router.Built r routes) (method : String) (root : node)
    (hroot : GoMap.get r.roots method = some root) {w : List String} {m : node}
    (hp : node.Path root w m) (hm : m.pattern ≠ "") :
    (parsePattern m.pattern).length = w.length ∧ (method, m.pattern) ∈ routes := by
  induction h generalizing root w m with
  | newRouter => simp [newRouter, GoMap.get] at hroot
  | @addRoute r routes method' pattern handler _ ih =>
    by_cases hmeth : method' = method
    · subst hmeth
      simp only [router.addRoute, GoMap.get_set_self, Option.some.injEq] at hroot
      subst hroot
      simp only [node.insert, List.drop_zero] at hp
      rcases Path_insert_pattern _ _ _ hp hm with ⟨h1, h2⟩ | ⟨m0, h1, h2⟩
      · rw [h1]
        exact ⟨h2.symm, List.mem_append_right _ (by simp)⟩
      · cases hg : GoMap.get r.roots method' with
        | none =>
          rw [hg] at h1
          simp only [Option.getD_none] at h1
          obtain ⟨-, rfl⟩ := Path_leaf rfl h1
          exact absurd h2.symm hm
        | some root0 =>
          rw [hg] at h1
          simp only [Option.getD_some] at h1
          have := ih root0 hg h1 (by rw [h2]; exact hm)
          rw [h2] at this
          exact ⟨this.1, List.mem_append_left _ this.2⟩
    · simp only [router.addRoute] at hroot
      rw [GoMap.get_set_ne _ _ (fun e => hmeth e.symm)] at hroot
      have := ih root hroot hp hm
      exact ⟨this.1, List.mem_append_left _ this.2⟩

/-- The node that `search` returns carries a pattern and lies below the node
the search starts from, no deeper than the number of parts of the path. -/
theorem search_Path {parts : List String} {n m : node}
    (h : node.search.go parts n = some m) :
    ∃ w, node.Path n w m ∧ w.length ≤ parts.length ∧ m.pattern ≠ "" := by
  induction parts generalizing n with
  | nil =>
    unfold node.search.go at h
    split at h
    · cases h
    · cases h
      exact ⟨[], node.Path.nil _, le_refl _, by assumption⟩
  | cons part rest ih =>
    unfold node.search.go at h
    split at h
    · split at h
      · cases h
      · cases h
        exact ⟨[], node.Path.nil _, Nat.zero_le _, by assumption⟩
    · obtain ⟨c, hc, hs⟩ := List.exists_of_findSome?_eq_some h
      obtain ⟨w, h1, h2, h3⟩ := ih hs
      have hc' : c ∈ n.children := (List.mem_filter.1 hc).1
      exact ⟨c.part :: w, node.Path.cons hc' h1, by simp; omega, h3⟩

theorem parsePattern_loop_ne (vs : List String) : ∀ q ∈ parsePattern.loop vs, q ≠ "" := by
  induction vs with
  | nil => simp [parsePattern.loop]
  | cons item vs ih =>
    unfold parsePattern.loop
    intro q hq
    split at hq
    · rename_i hitem
      split at hq
      · simp only [List.mem_singleton] at hq
        rw [hq]
        exact hitem
      · rcases List.mem_cons.1 hq with rfl | hq
        · exact hitem
        · exact ih q hq
    · exact ih q hq

/-- A part that starts with '*' is the last part that `parsePattern` yields. -/
theorem parsePattern_loop_star (vs : List String) :
    ∀ j q, (parsePattern.loop vs)[j]? = some q → q.data.head? = some '*' →
      j + 1 = (parsePattern.loop vs).length := by
  induction vs with
  | nil => simp [parsePattern.loop]
  | cons item vs ih =>
    unfold parsePattern.loop
    intro j q hq hstar
    split
    · split
      · rename_i h1 h2
        rw [if_pos h1, if_pos h2] at hq
        cases j with
        | zero => rfl
        | succ j => simp at hq
      · rename_i h1 h2
        rw [if_pos h1, if_neg h2] at hq
        cases j with
        | zero =>
          simp only [List.getElem?_cons_zero, Option.some.injEq] at hq
          subst hq
          exact absurd hstar h2
        | succ j =>
          simp only [List.getElem?_cons_succ] at hq
          simp only [List.length_cons]
          rw [ih j q hq hstar]
    · rename_i h1
      rw [if_neg h1] at hq
      exact ih j q hq hstar

/-- The loop of `getRoute` over the parts of a pattern returns when the path
has a part for every part of the pattern, and binds the names of the wildcard
parts. -/
theorem loop_spec (searchParts : List String) (parts : List String) (index : Nat)
    (params : List (String × String))
    (hne : ∀ q ∈ parts, q ≠ "")
    (hstar : ∀ j q, parts[j]? = some q → q.data.head? = some '*' → j + 1 = parts.length)
    (hlen : index + parts.length ≤ searchParts.length) :
    ∃ params', router.getRoute.loop searchParts parts index params = some params' ∧
      (∀ name, (∀ q ∈ parts, isWildPart q = true → q.drop 1 ≠ name) →
        GoMap.get params' name = GoMap.get params name) ∧
      (∀ i part, parts[i]? = some part → part.data.head? = some ':' →
        (∀ j q, i < j → parts[j]? = some q → isWildPart q = true → q.drop 1 ≠ part.drop 1) →
        ∃ seg, searchParts[index + i]? = some seg ∧ GoMap.get params' (part.drop 1) = some seg) ∧
      (∀ i part, parts[i]? = some part → part.data.head? = some '*' → 1 < part.utf8ByteSize →
        GoMap.get params' (part.drop 1) =
          some (strings.Join (searchParts.drop (index + i)) "/")) := by
  induction parts generalizing index params with
  | nil =>
    refine ⟨params, rfl, fun _ _ => rfl, ?_, ?_⟩
    · intro i part h
      simp at h
    · intro i part h
      simp at h
  | cons part rest ih =>
    have hne' : ∀ q ∈ rest, q ≠ "" := fun q hq => hne q (List.mem_cons_of_mem _ hq)
    have hstar' : ∀ j q, rest[j]? = some q → q.data.head? = some '*' → j + 1 = rest.length := by
      intro j q hq hs
      have := hstar (j + 1) q (by simpa using hq) hs
      simpa using this
    have hlen' : (index + 1) + rest.length ≤ searchParts.length := by
      simp only [List.length_cons] at hlen
      omega
    have hidx : index < searchParts.length := by
      simp only [List.length_cons] at hlen
      omega
    have hdata : ∃ c cs, part.data = c :: cs := by
      have := hne part (List.mem_cons_self _ _)
      rcases hd : part.data with _ | ⟨c, cs⟩
      · exfalso
        apply this
        apply String.ext
        rw [hd]
      · exact ⟨c, cs, rfl⟩
    obtain ⟨c, cs, hd⟩ := hdata
    have hhead : part.data.head? = some c := by rw [hd]; rfl
    have hwild : isWildPart part = (decide (c = ':') || decide (c = '*')) := by
      unfold isWildPart
      rw [hd]
    have hmem_idx : ∀ q ∈ rest, ∃ j, (part :: rest)[j + 1]? = some q := by
      intro q hq
      obtain ⟨j, hj, rfl⟩ := List.getElem_of_mem hq
      exact ⟨j, by simp [List.getElem?_eq_getElem hj]⟩
    unfold router.getRoute.loop
    simp only [hd]
    by_cases hc : c = ':'
    · -- a part that starts with ':'
      rw [if_pos hc]
      have hseg : searchParts[index]? = some searchParts[index] := List.getElem?_eq_getElem hidx
      rw [hseg]
      simp only
      obtain ⟨params', f0, f1, f2, f3⟩ :=
        ih (index + 1) (GoMap.set params (part.drop 1) searchParts[index]) hne' hstar' hlen'
      have hpw : isWildPart part = true := by rw [hwild, hc]; rfl
      refine ⟨params', f0, ?_, ?_, ?_⟩
      · intro name hname
        rw [f1 name (fun q hq => hname q (List.mem_cons_of_mem _ hq))]
        exact GoMap.get_set_ne _ _ (fun e => hname part (List.mem_cons_self _ _) hpw e.symm)
      · intro i p hp hph hlater
        cases i with
        | zero =>
          simp only [List.getElem?_cons_zero, Option.some.injEq] at hp
          subst hp
          refine ⟨searchParts[index], by simp, ?_⟩
          rw [f1 (part.drop 1)]
          · exact GoMap.get_set_self _ _ _
          · intro q hq hqw
            obtain ⟨j, hj⟩ := hmem_idx q hq
            exact hlater (j + 1) q (Nat.succ_pos _) hj hqw
        | succ i =>
          simp only [List.getElem?_cons_succ] at hp
          obtain ⟨seg, s1, s2⟩ := f2 i p hp hph (by
            intro j q hij hq hqw
            exact hlater (j + 1) q (by omega) (by simpa using hq) hqw)
          refine ⟨seg, ?_, s2⟩
          rw [← s1]
          congr 1
          omega
      · intro i p hp hph hsize
        cases i with
        | zero =>
          simp only [List.getElem?_cons_zero, Option.some.injEq] at hp
          subst hp
          rw [hhead, hc] at hph
          cases hph
        | succ i =>
          simp only [List.getElem?_cons_succ] at hp
          rw [f3 i p hp hph hsize]
          congr 3
          omega
    · rw [if_neg hc]
      by_cases hs : c = '*' ∧ 1 < part.utf8ByteSize
      · -- a part that starts with '*' and holds a name
        rw [if_pos hs]
        have hrest : rest = [] := by
          have := hstar 0 part (by simp) (by rw [hhead, hs.1])
          simp only [List.length_cons] at this
          exact List.length_eq_zero.1 (by omega)
        subst hrest
        rw [if_pos (by omega)]
        have hpw : isWildPart part = true := by rw [hwild, hs.1]; rfl
        refine ⟨_, rfl, ?_, ?_, ?_⟩
        · intro name hname
          exact GoMap.get_set_ne _ _ (fun e => hname part (List.mem_cons_self _ _) hpw e.symm)
        · intro i p hp hph _
          cases i with
          | zero =>
            simp only [List.getElem?_cons_zero, Option.some.injEq] at hp
            subst hp
            rw [hhead, hs.1] at hph
            cases hph
          | succ i => simp at hp
        · intro i p hp _ _
          cases i with
          | zero =>
            simp only [List.getElem?_cons_zero, Option.some.injEq] at hp
            subst hp
            simp only [Nat.add_zero]
            exact GoMap.get_set_self _ _ _
          | succ i => simp at hp
      · -- any other part
        rw [if_neg hs]
        obtain ⟨params', f0, f1, f2, f3⟩ := ih (index + 1) params hne' hstar' hlen'
        refine ⟨params', f0, ?_, ?_, ?_⟩
        · intro name hname
          exact f1 name (fun q hq => hname q (List.mem_cons_of_mem _ hq))
        · intro i p hp hph hlater
          cases i with
          | zero =>
            simp only [List.getElem?_cons_zero, Option.some.injEq] at hp
            subst hp
            rw [hhead] at hph
            exact absurd (Option.some.inj hph) hc
          | succ i =>
            simp only [List.getElem?_cons_succ] at hp
            obtain ⟨seg, s1, s2⟩ := f2 i p hp hph (by
              intro j q hij hq hqw
              exact hlater (j + 1) q (by omega) (by simpa using hq) hqw)
            refine ⟨seg, ?_, s2⟩
            rw [← s1]
            congr 1
            omega
        · intro i p hp hph hsize
          cases i with
          | zero =>
            simp only [List.getElem?_cons_zero, Option.some.injEq] at hp
            subst hp
            rw [hhead] at hph
            exact absurd ⟨Option.some.inj hph, hsize⟩ hs
          | succ i =>
            simp only [List.getElem?_cons_succ] at hp
            rw [f3 i p hp hph hsize]
            congr 3
            omega

/-- C26, amended: in every router built by `addRoute` calls, for every method and path:
when the search of the trie matches the path to a node, that node carries a
registered pattern and `getRoute` returns it with a parameter map that binds
the name of each `:name` part of the pattern to the part of the path at the
same index (for a name that occurs in several parts, the last of them) and the
name of a `*name` part to the remaining parts of the path joined by "/", and
that binds no other name; when the search matches nothing, as for a path that
stops at a node without a pattern, `getRoute` returns `(nil, nil)`.  The parts
of a path are those `parsePattern` yields.  With the patterns /p/:lang/doc and
/static/*filepath, /p/go/doc gives `lang = go`, /static/css/geektutu.css gives
`filepath = css/geektutu.css`, and /p/python matches nothing. -/
theorem getRoute_params {H : Type} {r : router H} {routes : List (String × String)}
    (h : router.Built r routes) (method path : String) :
    (GoMap.get r.roots method = none → r.getRoute method path = some none) ∧
    (∀ root, GoMap.get r.roots method = some root →
      (root.search (parsePattern path) 0 = none → r.getRoute method path = some none) ∧
      (∀ n, root.search (parsePattern path) 0 = some n →
        n.pattern ≠ "" ∧ (method, n.pattern) ∈ routes ∧
        ∃ params, r.getRoute method path = some (some (n, params)) ∧
          (∀ (i : Nat) (part : String), (parsePattern n.pattern)[i]? = some part → part.data.head? = some ':' →
            (∀ (j : Nat) (q : String), i < j → (parsePattern n.pattern)[j]? = some q → isWildPart q = true →
              q.drop 1 ≠ part.drop 1) →
            ∃ seg, (parsePattern path)[i]? = some seg ∧
              GoMap.get params (part.drop 1) = some seg) ∧
          (∀ (i : Nat) (part : String), (parsePattern n.pattern)[i]? = some part → part.data.head? = some '*' →
            1 < part.utf8ByteSize →
            GoMap.get params (part.drop 1) =
              some (strings.Join ((parsePattern path).drop i) "/")) ∧
          (∀ name, (∀ q ∈ parsePattern n.pattern, isWildPart q = true → q.drop 1 ≠ name) →
            GoMap.get params name = none))) ∧
    ((docRouter.getRoute "GET" "/p/go/doc").map (Option.map (fun x => (x.1.pattern, x.2))) =
        some (some ("/p/:lang/doc", [("lang", "go")])) ∧
      (docRouter.getRoute "GET" "/static/css/geektutu.css").map
          (Option.map (fun x => (x.1.pattern, x.2))) =
        some (some ("/static/*filepath", [("filepath", "css/geektutu.css")])) ∧
      ((((newRouter Unit).addRoute "GET" "/p/:lang/doc" ()).getRoute "GET" "/p/python").map
          (Option.map (fun x => (x.1.pattern, x.2)))) = some none) := by
  refine ⟨?_, ?_, by decide⟩
  · intro hroot
    unfold router.getRoute
    rw [hroot]
  · intro root hroot
    refine ⟨?_, ?_⟩
    · intro hs
      unfold router.getRoute
      rw [hroot]
      simp only [hs]
    · intro n hs
      have hs' : node.search.go (parsePattern path) root = some n := by
        simpa [node.search] using hs
      obtain ⟨w, hw, hwl, hpat⟩ := search_Path hs'
      obtain ⟨hdepth, hreg⟩ := Built_patterns h method root hroot hw hpat
      obtain ⟨params, f0, f1, f2, f3⟩ := loop_spec (parsePattern path) (parsePattern n.pattern) 0 []
        (parsePattern_loop_ne _) (parsePattern_loop_star _) (by omega)
      refine ⟨hpat, hreg, params, ?_, ?_, ?_, ?_⟩
      · unfold router.getRoute
        rw [hroot]
        simp only [hs, f0, Option.map_some']
      · intro i part hp hh hl
        obtain ⟨seg, s1, s2⟩ := f2 i part hp hh hl
        exact ⟨seg, by simpa using s1, s2⟩
      · intro i part hp hh hsz
        have := f3 i part hp hh hsz
        simpa using this
      · intro name hname
        rw [f1 name hname]
        rfl

theorem docRouter_built :
    router.Built docRouter ([] ++ [("GET", "/p/:lang/doc")] ++ [("GET", "/static/*filepath")]) :=
  router.Built.addRoute _ _ _ (router.Built.addRoute _ _ _ router.Built.newRouter)

end gee

namespace gee

/-- C26, as stated, fails: with the pattern /a/:x/:x registered under GET, the
path /a/1/2 is matched to it and `getRoute` returns the parameter map
`{x: 2}`.  The part `:x` at index 1 of the pattern is not bound to the part "1"
at index 1 of the path: the binding of the part at index 2 has replaced it. -/
theorem getRoute_rebinds_name :
    parsePattern "/a/:x/:x" = ["a", ":x", ":x"] ∧
    parsePattern "/a/1/2" = ["a", "1", "2"] ∧
    (((newRouter Unit).addRoute "GET" "/a/:x/:x" ()).getRoute "GET" "/a/1/2").map
        (Option.map (fun x => (x.1.pattern, x.2, GoMap.get x.2 "x"))) =
      some (some ("/a/:x/:x", [("x", "2")], some "2")) := by
  decide

theorem getRoute_params_witness :
    router.Built docRouter ([] ++ [("GET", "/p/:lang/doc")] ++ [("GET", "/static/*filepath")]) ∧
    GoMap.get docRouter.roots "GET" = some docRoot ∧
    docRoot.search (parsePattern "/p/go/doc") 0 = some docNode ∧
    parsePattern docNode.pattern = ["p", ":lang", "doc"] ∧
    parsePattern "/p/go/doc" = ["p", "go", "doc"] ∧
    ∃ params, docRouter.getRoute "GET" "/p/go/doc" = some (some (docNode, params)) ∧
      GoMap.get params "lang" = some "go" := by
  have hroot : GoMap.get docRouter.roots "GET" = some docRoot := rfl
  have hsearch : docRoot.search (parsePattern "/p/go/doc") 0 = some docNode := rfl
  have hparts : parsePattern docNode.pattern = ["p", ":lang", "doc"] := by decide
  have hpath : parsePattern "/p/go/doc" = ["p", "go", "doc"] := by decide
  refine ⟨docRouter_built, hroot, hsearch, hparts, hpath, ?_⟩
  obtain ⟨-, -, params, hget, hcolon, -, -⟩ :=
    ((getRoute_params docRouter_built "GET" "/p/go/doc").2.1 docRoot hroot).2 docNode hsearch
  refine ⟨params, hget, ?_⟩
  obtain ⟨seg, hseg, hbound⟩ := hcolon 1 ":lang" (by rw [hparts]; rfl) (by decide) (by
    intro j q hj hq hw
    rw [hparts] at hq
    match j, hj, hq with
    | 2, _, hq =>
      simp only [List.getElem?_cons_succ, List.getElem?_cons_zero, Option.some.injEq] at hq
      subst hq
      exact absurd hw (by decide)
    | j + 3, _, hq => simp at hq)
  rw [hpath] at hseg
  simp only [List.getElem?_cons_succ, List.getElem?_cons_zero, Option.some.injEq] at hseg
  subst hseg
  exact hbound

end gee

namespace consistenthash

/-- C29, as stated, fails: the map made by `New` with one replica and the
decimal hash, after `Add("")`, is built by `Add` calls that added one node, and
`Get("x")` returns the empty string, which is the name of the node that was
added. -/
theorem Get_returns_empty_name :
    Built (Add (New testHash 1 (some testHash)) [""]) ([] ++ [""]) ∧
    1 ≤ (Add (New testHash 1 (some testHash)) [""]).replicas ∧
    (Add (New testHash 1 (some testHash)) [""]).keys = [0] ∧
    (Add (New testHash 1 (some testHash)) [""]).hashMap = [(0, "")] ∧
    Get (Add (New testHash 1 (some testHash)) [""]) "x" = "" ∧
    ¬ ∀ (m : Map) (nodes : List String), Built m nodes → 1 ≤ m.replicas → nodes ≠ [] →
      ∀ key, Get m key ∈ nodes ∧ Get m key ≠ "" := by
  refine ⟨Built.add [""] (Built.new testHash 1 (some testHash)), by decide, by decide, by decide,
    by decide, ?_⟩
  intro hall
  exact (hall _ _ (Built.add [""] (Built.new testHash 1 (some testHash))) (by decide)
    (by simp) "x").2 (by decide)

end consistenthash

namespace geecache

/-- When the picker names a peer whose `Get` fails, `Get` returns the outcome
of the local load that runs after the calls to the picker and to the peer. -/
theorem peer_fallback_outcome {g : Group} (h : Reachable g) {pk : PeerPicker}
    (hp : g.peers = some pk) {k : String} (hk : k ≠ "")
    (habs : (g.mainCache.get k).2 = none) {peer : PeerGetter}
    (hpick : pk.PickPeer g.calls k = some peer) {e' : String}
    (hpeer : peer.Get (g.calls ++ [Call.pickPeer k]) { Group := g.name, Key := k } =
      .error e')
    (fuel : Nat) :
    (∀ r g3,
      Group.getLocally fuel
        { g with calls := g.calls ++
            [Call.pickPeer k, Call.peerGet { Group := g.name, Key := k }] } k = some (r, g3) →
      ∃ g', Group.Get fuel g k = some (r, g') ∧ g'.calls = g3.calls ∧
        g'.mainCache = g3.mainCache ∧ g'.peers = g3.peers) ∧
    (Group.getLocally fuel
        { g with calls := g.calls ++
            [Call.pickPeer k, Call.peerGet { Group := g.name, Key := k }] } k = none →
      Group.Get fuel g k = none) := by
  have hv := Reachable_valid h
  obtain ⟨h1, h2, h3⟩ := load_spec fuel k hv.idle
  have hfn := load_fn_fallback fuel hp hpick hpeer
  refine ⟨?_, ?_⟩
  · intro r g3 hloc
    rw [hloc] at hfn
    simp only [Option.map_some'] at hfn
    obtain ⟨-, -, -, -, -, hcase⟩ := getLocally_spec hloc
    rw [Get_on_miss hk habs]
    rcases hcase with ⟨e, -, hr, -⟩ | ⟨b, -, hr, -⟩
    · subst hr
      obtain ⟨L, -, hload⟩ := h3 _ e g3 hfn
      exact ⟨_, hload, rfl, rfl, rfl⟩
    · subst hr
      obtain ⟨L, -, hload⟩ := h2 _ g3 hfn
      exact ⟨_, hload, rfl, rfl, rfl⟩
  · intro hnone
    rw [hnone] at hfn
    rw [Get_on_miss hk habs]
    exact h1 hfn

/-- C18, as stated, fails: on the group of `TestGet` with a budget of one byte
and a picker whose peer is down, `Get("Tom")` asks the picker, the peer and the
loader and returns the bytes "630" of the loader, but the value is not cached:
the entry of "Tom" (6 bytes) is evicted by the `Add` that inserts it, and the
cache does not hold "Tom" afterwards. -/
theorem fallback_value_not_cached :
    testSmallGroupDown.peers = some downPicker ∧ "Tom" ≠ "" ∧
    (testSmallGroupDown.mainCache.get "Tom").2 = none ∧
    downPicker.PickPeer testSmallGroupDown.calls "Tom" = some downPeer ∧
    downPeer.Get (testSmallGroupDown.calls ++ [Call.pickPeer "Tom"])
      { Group := testSmallGroupDown.name, Key := "Tom" } = .error "server returned: 500" ∧
    (Group.Get 3 testSmallGroupDown "Tom").map
        (fun x => (x.1, x.2.calls, (x.2.mainCache.get "Tom").2, x.2.cacheLen)) =
      some ((({ data := "630" } : ByteView), none),
        [Call.pickPeer "Tom", Call.peerGet { Group := "scores", Key := "Tom" },
          Call.getter "Tom"], none, 0) := by
  refine ⟨rfl, by decide, rfl, rfl, rfl, by decide⟩

/-- C18, amended: for every group with a registered peer picker and every
non-empty key `k` absent from the local cache, if the picker resolves `k` to a
remote peer and the `Get` of that peer fails, `Get(k)` returns exactly the
outcome of the local load `getLocally(k)` run after the calls to the picker and
to the peer: the same results, the same calls and the same cache, and no return
when the local load does not return.  So it returns the bytes of the loader,
which are passed to the cache (`mainCache.add`) and are cached afterwards when
the cache is unbounded (`cacheBytes = 0`) or the entry fits its budget
(`len(k) + len(b) <= cacheBytes`), or it returns the error of the loader with
the cache unchanged; the error of the peer is not returned. -/
theorem Get_peer_fallback {g : Group} (h : Reachable g) {pk : PeerPicker}
    (hp : g.peers = some pk) {k : String} (hk : k ≠ "")
    (habs : (g.mainCache.get k).2 = none) {peer : PeerGetter}
    (hpick : pk.PickPeer g.calls k = some peer) {e' : String}
    (hpeer : peer.Get (g.calls ++ [Call.pickPeer k]) { Group := g.name, Key := k } =
      .error e')
    (fuel : Nat) :
    (∀ r g3,
      Group.getLocally fuel
        { g with calls := g.calls ++
            [Call.pickPeer k, Call.peerGet { Group := g.name, Key := k }] } k = some (r, g3) →
      ∃ g', Group.Get fuel g k = some (r, g') ∧ g'.calls = g3.calls ∧
        g'.mainCache = g3.mainCache ∧ g'.peers = g3.peers) ∧
    (Group.getLocally fuel
        { g with calls := g.calls ++
            [Call.pickPeer k, Call.peerGet { Group := g.name, Key := k }] } k = none →
      Group.Get fuel g k = none) ∧
    (∀ b c',
      g.getter.Get (g.calls ++ [Call.pickPeer k, Call.peerGet { Group := g.name, Key := k }]) k
        = .ok b →
      g.mainCache.add fuel k { data := b } = some c' →
      ∃ g', Group.Get fuel g k = some (({ data := b }, none), g') ∧ g'.mainCache = c' ∧
        g'.calls = g.calls ++ [Call.pickPeer k, Call.peerGet { Group := g.name, Key := k },
          Call.getter k]) ∧
    (∀ b,
      g.getter.Get (g.calls ++ [Call.pickPeer k, Call.peerGet { Group := g.name, Key := k }]) k
        = .ok b →
      (g.mainCache.cacheBytes = 0 ∨
        (k.utf8ByteSize : Int) + (b.utf8ByteSize : Int) ≤ g.mainCache.cacheBytes) →
      ∃ g', Group.Get (g.cacheLen + 2) g k = some (({ data := b }, none), g') ∧
        (g'.mainCache.get k).2 = some { data := b } ∧
        g'.calls = g.calls ++ [Call.pickPeer k, Call.peerGet { Group := g.name, Key := k },
          Call.getter k] ∧
        ∀ fuel', ∃ g2, Group.Get fuel' g' k = some (({ data := b }, none), g2) ∧
          g2.calls = g'.calls) ∧
    (∀ e,
      g.getter.Get (g.calls ++ [Call.pickPeer k, Call.peerGet { Group := g.name, Key := k }]) k
        = .error e →
      ∃ g', Group.Get fuel g k = some (({ data := "" }, some e), g') ∧
        g'.mainCache = g.mainCache ∧
        g'.calls = g.calls ++ [Call.pickPeer k, Call.peerGet { Group := g.name, Key := k },
          Call.getter k]) := by
  have hv := Reachable_valid h
  obtain ⟨hgen, hnone⟩ := peer_fallback_outcome h hp hk habs hpick hpeer fuel
  have hadded : ∀ (fl : Nat) b c',
      g.getter.Get (g.calls ++ [Call.pickPeer k, Call.peerGet { Group := g.name, Key := k }]) k
        = .ok b →
      g.mainCache.add fl k { data := b } = some c' →
      ∃ g', Group.Get fl g k = some (({ data := b }, none), g') ∧ g'.mainCache = c' ∧
        g'.calls = g.calls ++ [Call.pickPeer k, Call.peerGet { Group := g.name, Key := k },
          Call.getter k] := by
    intro fl b c' hget hadd
    have hloc : Group.getLocally fl
        { g with calls := g.calls ++
            [Call.pickPeer k, Call.peerGet { Group := g.name, Key := k }] } k =
        some (({ data := b }, none),
          { g with
            calls := g.calls ++ [Call.pickPeer k, Call.peerGet { Group := g.name, Key := k }]
              ++ [Call.getter k]
            mainCache := c' }) := by
      unfold Group.getLocally
      simp only [hget, Group.populateCache, hadd, Option.map_some']
    obtain ⟨g', hg1, hg2, hg3, -⟩ :=
      (peer_fallback_outcome h hp hk habs hpick hpeer fl).1 _ _ hloc
    exact ⟨g', hg1, hg3, by rw [hg2]; simp⟩
  refine ⟨hgen, hnone, hadded fuel, ?_, ?_⟩
  · intro b hget hfit
    obtain ⟨hreach, hmax⟩ := cache_getD_OK hv.lru_ok
    have hfit' : (g.mainCache.lru.getD (lru.New g.mainCache.cacheBytes false)).maxBytes = 0 ∨
        (k.utf8ByteSize : Int) + (({ data := b } : lru.Value)).Len ≤
          (g.mainCache.lru.getD (lru.New g.mainCache.cacheBytes false)).maxBytes := by
      rw [hmax]
      exact hfit
    obtain ⟨c', hadd, hres⟩ := lru.Add_fits (lru.Reachable_wf hreach) k { data := b } hfit'
    rw [cacheLen_eq] at hadd
    have hadd' : g.mainCache.add (g.cacheLen + 2) k { data := b } =
        some { g.mainCache with lru := some c' } := by
      unfold cache.add
      rw [hadd]
      rfl
    obtain ⟨g', hg1, hg2, hg3⟩ := hadded (g.cacheLen + 2) b _ hget hadd'
    have hcached : (g'.mainCache.get k).2 = some { data := b } := by
      rw [hg2]
      unfold cache.get
      simp only [hres]
    refine ⟨g', hg1, hcached, hg3, ?_⟩
    intro fuel'
    exact ⟨_, Get_on_hit hk hcached, rfl⟩
  · intro e hget
    have hloc := getLocally_fail fuel
      { g with calls := g.calls ++
        [Call.pickPeer k, Call.peerGet { Group := g.name, Key := k }] } k hget
    obtain ⟨g', hg1, hg2, hg3, -⟩ := hgen _ _ hloc
    exact ⟨g', hg1, hg3, by rw [hg2]; simp⟩

theorem Get_peer_fallback_witness :
    Reachable testGroupDown ∧ testGroupDown.peers = some downPicker ∧ "Tom" ≠ "" ∧
    (testGroupDown.mainCache.get "Tom").2 = none ∧
    downPicker.PickPeer testGroupDown.calls "Tom" = some downPeer ∧
    downPeer.Get (testGroupDown.calls ++ [Call.pickPeer "Tom"])
      { Group := testGroupDown.name, Key := "Tom" } = .error "server returned: 500" ∧
    (Group.Get 2 testGroupDown "Tom").map (fun x => (x.1, x.2.calls)) =
      some ((({ data := "630" } : ByteView), none),
        [Call.pickPeer "Tom", Call.peerGet { Group := "scores", Key := "Tom" },
          Call.getter "Tom"]) ∧
    (testGroupDown.mainCache.cacheBytes = 0 ∨
      (("Tom".utf8ByteSize : Nat) : Int) + (("630".utf8ByteSize : Nat) : Int) ≤
        testGroupDown.mainCache.cacheBytes) ∧
    ∃ g', Group.Get (testGroupDown.cacheLen + 2) testGroupDown "Tom" =
        some (({ data := "630" }, none), g') ∧
      (g'.mainCache.get "Tom").2 = some { data := "630" } ∧
      g'.calls = testGroupDown.calls ++
        [Call.pickPeer "Tom", Call.peerGet { Group := testGroupDown.name, Key := "Tom" },
          Call.getter "Tom"] ∧
      ∀ fuel', ∃ g2, Group.Get fuel' g' "Tom" = some (({ data := "630" }, none), g2) ∧
        g2.calls = g'.calls :=
  ⟨testGroupDown_reachable, rfl, by decide, rfl, rfl, rfl, by decide, Or.inr (by decide),
    (@Get_peer_fallback testGroupDown testGroupDown_reachable downPicker rfl "Tom" (by decide)
      rfl downPeer rfl "server returned: 500" rfl 2).2.2.2.1 "630" rfl (Or.inr (by decide))⟩

end geecache

namespace gee

/-- The patterns of the nodes that `travel` lists. -/
theorem travel_eq (n : node) :
    n.travel = (if n.pattern ≠ "" then [n] else []) ++ node.travel.children n.children := by
  obtain ⟨a, b, c, d⟩ := n
  simp [node.travel]

theorem travel_children_append (l1 l2 : List node) :
    node.travel.children (l1 ++ l2) = node.travel.children l1 ++ node.travel.children l2 := by
  induction l1 with
  | nil => simp [node.travel.children]
  | cons a rest ih => simp [node.travel.children, ih]

theorem travel_children_cons (c : node) (cs : List node) :
    node.travel.children (c :: cs) = c.travel ++ node.travel.children cs := by
  simp [node.travel.children]

/-- When the first child that satisfies `p` gains the pattern `x`, so does the
list of the children. -/
theorem travel_modifyFirst {p : node → Bool} {f : node → node} {l : List node} {c : node}
    {x : String} (hfind : l.find? p = some c)
    (hc : ((f c).travel.map (fun n => n.pattern)).Perm (x :: c.travel.map (fun n => n.pattern))) :
    ((node.travel.children (node.modifyFirst p f l)).map (fun n => n.pattern)).Perm
      (x :: (node.travel.children l).map (fun n => n.pattern)) := by
  induction l with
  | nil => simp at hfind
  | cons a rest ih =>
    unfold node.modifyFirst
    by_cases hp : p a = true
    · rw [if_pos hp]
      have hac : a = c := by
        rw [List.find?_cons_of_pos _ hp] at hfind
        exact Option.some.inj hfind
      subst hac
      rw [travel_children_cons, travel_children_cons, List.map_append, List.map_append]
      exact (List.Perm.append_right _ hc).trans (by simp)
    · rw [if_neg hp]
      rw [List.find?_cons_of_neg _ hp] at hfind
      rw [travel_children_cons, travel_children_cons, List.map_append, List.map_append]
      exact (List.Perm.append_left _ (ih hfind)).trans List.perm_middle

theorem travel_patterns (n : node) :
    n.travel.map (fun n => n.pattern) =
      (if n.pattern ≠ "" then [n.pattern] else []) ++
        (node.travel.children n.children).map (fun n => n.pattern) := by
  rw [travel_eq]
  split <;> simp

/-- An insertion that ends at a node without a pattern adds its pattern to the
patterns `travel` lists and changes nothing else. -/
theorem travel_insert (pattern : String) (hne : pattern ≠ "") (parts : List String) (n : node)
    (hf : node.Fresh parts n = true) :
    ((node.insert.go pattern parts n).travel.map (fun n => n.pattern)).Perm
      (pattern :: n.travel.map (fun n => n.pattern)) := by
  induction parts generalizing n with
  | nil =>
    have hf' : n.pattern = "" := of_decide_eq_true hf
    rw [travel_patterns, travel_patterns n]
    simp [node.insert.go, hf', hne]
  | cons part rest ih =>
    unfold node.Fresh at hf
    rw [travel_patterns, travel_patterns n]
    unfold node.insert.go
    cases hmc : n.matchChild part with
    | some c =>
      rw [hmc] at hf
      simp only at hf ⊢
      have := travel_modifyFirst (f := node.insert.go pattern rest) hmc (ih c hf)
      exact (List.Perm.append_left _ this).trans List.perm_middle
    | none =>
      simp only
      rw [travel_children_append, List.map_append]
      have hfresh : node.Fresh rest
          { pattern := "", part := part, children := [], isWild := isWildPart part } = true := by
        cases rest with
        | nil => rfl
        | cons a b => simp [node.Fresh, node.matchChild]
      have := ih _ hfresh
      simp only [travel_children_cons, node.travel.children, List.append_nil]
      rw [travel_patterns { pattern := "", part := part, children := [], isWild := isWildPart part }]
        at this
      simp only [node.travel.children, ne_eq, not_true_eq_false, if_false, List.append_nil,
        List.map_nil] at this
      rw [← List.append_assoc]
      exact (List.Perm.append_left _ this).trans (List.perm_append_singleton _ _)

/-- Insertions that all end at a node without a pattern add their patterns to
the patterns that `travel` lists, and change nothing else. -/
theorem travel_foldl (patterns : List String) (T : node)
    (hne : ∀ p ∈ patterns, p ≠ "") (hno : node.NoOverwrite T patterns = true) :
    ((patterns.foldl (fun n p => node.insert.go p (parsePattern p) n) T).travel.map
        (fun n => n.pattern)).Perm
      (T.travel.map (fun n => n.pattern) ++ patterns) := by
  induction patterns generalizing T with
  | nil => simp
  | cons p rest ih =>
    rw [List.foldl_cons]
    unfold node.NoOverwrite at hno
    rw [Bool.and_eq_true] at hno
    have := ih (node.insert.go p (parsePattern p) T)
      (fun x hx => hne x (List.mem_cons_of_mem _ hx)) hno.2
    refine this.trans ?_
    have hins := travel_insert p (hne p (List.mem_cons_self _ _)) (parsePattern p) T hno.1
    exact (List.Perm.append_right _ hins).trans (by
      simp only [List.cons_append]
      exact List.perm_middle.symm)

theorem Apart_self (w : List String) : Apart w w = false := by
  induction w with
  | nil => rfl
  | cons a w ih => simp [Apart, ih]

theorem Apart_append (w a b : List String) : Apart (w ++ a) (w ++ b) = Apart a b := by
  induction w with
  | nil => rfl
  | cons x w ih => simp [Apart, ih]

theorem Path_snoc {T n c : node} {w : List String} (h : node.Path T w n) (hc : c ∈ n.children) :
    node.Path T (w ++ [c.part]) c := by
  induction h with
  | nil n => exact node.Path.cons hc (node.Path.nil c)
  | cons hc' _ ih => exact node.Path.cons hc' (ih hc)

theorem Path_nil_eq {n m : node} (h : node.Path n [] m) : m = n := by
  cases h
  rfl

theorem mem_modifyFirst_find {p : node → Bool} {f : node → node} {l : List node} {x c : node}
    (hfind : l.find? p = some c) (h : x ∈ node.modifyFirst p f l) : x ∈ l ∨ x = f c := by
  induction l with
  | nil => simp at hfind
  | cons a rest ih =>
    unfold node.modifyFirst at h
    by_cases hp : p a = true
    · rw [if_pos hp] at h
      rw [List.find?_cons_of_pos _ hp] at hfind
      cases hfind
      rcases List.mem_cons.1 h with rfl | h
      · exact Or.inr rfl
      · exact Or.inl (List.mem_cons_of_mem _ h)
    · rw [if_neg hp] at h
      rw [List.find?_cons_of_neg _ hp] at hfind
      rcases List.mem_cons.1 h with rfl | h
      · exact Or.inl (List.mem_cons_self _ _)
      · rcases ih hfind h with h | h
        · exact Or.inl (List.mem_cons_of_mem _ h)
        · exact Or.inr h

theorem Exact_leaf (parts : List String) {n : node} (hn : n.children = []) :
    node.Exact parts n := by
  cases parts with
  | nil => trivial
  | cons a b => simp [node.Exact, node.matchChild, hn]

/-- In a trie that holds the sequences `S`, the insertion of a sequence from
which every sequence of `S` is apart descends through children with its own
parts and ends at a node without a pattern. -/
theorem apart_fresh {T : node} {S : List (List String)} (hT : node.Holds T S)
    (q w : List String) (n : node) (hp : node.Path T w n)
    (hap : ∀ s ∈ S, Apart s (w ++ q) = true) : node.Fresh q n = true ∧ node.Exact q n := by
  induction q generalizing w n with
  | nil =>
    refine ⟨?_, trivial⟩
    unfold node.Fresh
    rw [decide_eq_true_eq]
    by_contra hne
    have := hap w (hT.carried w n hp hne)
    rw [List.append_nil, Apart_self] at this
    cases this
  | cons part rest ih =>
    unfold node.Fresh node.Exact
    cases hmc : n.matchChild part with
    | none => exact ⟨rfl, trivial⟩
    | some c =>
      obtain ⟨hc, hmatch⟩ := matchChild_some hmc
      have hpc := Path_snoc hp hc
      have hpart : c.part = part := by
        by_contra hne
        obtain ⟨s, hs, ⟨t, ht⟩⟩ := hT.covered _ c hpc (by simp)
        have hA := hap s hs
        rw [← ht, List.append_assoc, Apart_append] at hA
        simp only [List.singleton_append, Apart, if_neg hne, Bool.not_eq_true'] at hA
        have hw := hT.wild _ c hpc (by simp)
        rw [hA] at hw
        simp only [node.matches, hw, Bool.or_false, decide_eq_true_eq] at hmatch
        exact hne hmatch
      simp only
      have := ih (w ++ [part]) c (by rw [← hpart]; exact hpc) (by
        intro s hs
        rw [List.append_assoc]
        exact hap s hs)
      exact ⟨this.1, hpart, this.2⟩

/-- A node of the trie after an insertion that descends through children with
its own parts: it stands for a node that was there before, with the pattern it
had unless the insertion ended at it, or it is a new node on the way of the
insertion. -/
theorem Path_insert (pattern : String) (q : List String) (n : node) (hex : node.Exact q n)
    {w : List String} {m : node} (h : node.Path (node.insert.go pattern q n) w m) :
    (∃ m0, node.Path n w m0 ∧ m0.part = m.part ∧ m0.isWild = m.isWild ∧
      (m0.pattern = m.pattern ∨ w = q)) ∨
    (w <+: q ∧ w ≠ [] ∧ m.isWild = isWildPart m.part ∧ (m.pattern = "" ∨ w = q)) := by
  induction q generalizing n w m with
  | nil =>
    generalize hn' : node.insert.go pattern [] n = n' at h
    cases h with
    | nil =>
      subst hn'
      exact Or.inl ⟨n, node.Path.nil n, rfl, rfl, Or.inr rfl⟩
    | cons hc hp =>
      subst hn'
      exact Or.inl ⟨m, node.Path.cons hc hp, rfl, rfl, Or.inl rfl⟩
  | cons part rest ih =>
    generalize hn' : node.insert.go pattern (part :: rest) n = n' at h
    unfold node.insert.go at hn'
    unfold node.Exact at hex
    cases h with
    | nil =>
      left
      refine ⟨n, node.Path.nil n, ?_, ?_, Or.inl ?_⟩ <;>
      · subst hn'
        split <;> rfl
    | @cons _ c _ w' hc hp =>
      cases hmc : n.matchChild part with
      | some c0 =>
        rw [hmc] at hn' hex
        subst hn'
        simp only at hex
        rcases mem_modifyFirst_find hmc hc with hold | rfl
        · exact Or.inl ⟨m, node.Path.cons hold hp, rfl, rfl, Or.inl rfl⟩
        · have hc0 := (matchChild_some hmc).1
          rw [insert_part, hex.1]
          rcases ih c0 hex.2 hp with ⟨m0, h1, h2, h3, h4⟩ | ⟨h1, h2, h3, h4⟩
          · left
            refine ⟨m0, ?_, h2, h3, ?_⟩
            · rw [← hex.1]
              exact node.Path.cons hc0 h1
            · rcases h4 with h4 | h4
              · exact Or.inl h4
              · exact Or.inr (by rw [h4])
          · right
            refine ⟨?_, by simp, h3, ?_⟩
            · obtain ⟨t, ht⟩ := h1
              exact ⟨t, by simp [← ht]⟩
            · rcases h4 with h4 | h4
              · exact Or.inl h4
              · exact Or.inr (by rw [h4])
      | none =>
        rw [hmc] at hn'
        subst hn'
        rcases List.mem_append.1 hc with hold | hnew
        · exact Or.inl ⟨m, node.Path.cons hold hp, rfl, rfl, Or.inl rfl⟩
        · rw [List.mem_singleton] at hnew
          subst hnew
          rw [insert_part]
          simp only
          right
          rcases ih _ (Exact_leaf rest rfl) hp with ⟨m0, h1, h2, h3, h4⟩ | ⟨h1, h2, h3, h4⟩
          · obtain ⟨hw, rfl⟩ := Path_leaf rfl h1
            subst hw
            simp only at h2 h3 h4
            refine ⟨⟨rest, rfl⟩, by simp, ?_, ?_⟩
            · rw [← h3, ← h2]
            · rcases h4 with h4 | h4
              · exact Or.inl h4.symm
              · exact Or.inr (by rw [← h4])
          · refine ⟨?_, by simp, h3, ?_⟩
            · obtain ⟨t, ht⟩ := h1
              exact ⟨t, by simp [← ht]⟩
            · rcases h4 with h4 | h4
              · exact Or.inl h4
              · exact Or.inr (by rw [h4])

/-- The invariant of the trie is kept by the insertion of a sequence of parts
from which the sequences the trie holds are apart. -/
theorem Holds_insert {T : node} {S : List (List String)} (hT : node.Holds T S)
    (pattern : String) (q : List String) (hap : ∀ s ∈ S, Apart s q = true) :
    node.Holds (node.insert.go pattern q T) (S ++ [q]) := by
  have hex := (apart_fresh hT q [] T (node.Path.nil T) (by simpa using hap)).2
  refine ⟨?_, ?_, ?_⟩
  · intro w m hp hw
    rcases Path_insert pattern q T hex hp with ⟨m0, h1, -⟩ | ⟨h1, -⟩
    · obtain ⟨s, hs, hpre⟩ := hT.covered w m0 h1 hw
      exact ⟨s, List.mem_append_left _ hs, hpre⟩
    · exact ⟨q, by simp, h1⟩
  · intro w m hp hm
    rcases Path_insert pattern q T hex hp with ⟨m0, h1, -, -, h4⟩ | ⟨-, -, -, h4⟩
    · rcases h4 with h4 | h4
      · exact List.mem_append_left _ (hT.carried w m0 h1 (by rw [h4]; exact hm))
      · simp [h4]
    · rcases h4 with h4 | h4
      · exact absurd h4 hm
      · simp [h4]
  · intro w m hp hw
    rcases Path_insert pattern q T hex hp with ⟨m0, h1, h2, h3, -⟩ | ⟨-, -, h3, -⟩
    · rw [← h2, ← h3]
      exact hT.wild w m0 h1 hw
    · exact h3


/-- The root `&node{}` that `addRoute` makes for a method holds no sequence. -/
theorem Holds_empty :
    node.Holds { pattern := "", part := "", children := [], isWild := false } [] := by
  refine ⟨?_, ?_, ?_⟩
  · intro w m hp hw
    exact absurd (Path_leaf rfl hp).1 hw
  · intro w m hp hm
    obtain ⟨-, rfl⟩ := Path_leaf rfl hp
    exact absurd rfl hm
  · intro w m hp hw
    exact absurd (Path_leaf rfl hp).1 hw

/-- Patterns whose sequences of parts are apart, each from the ones registered
after it, and from which the sequences the trie holds are apart, are inserted
without an overwrite. -/
theorem apart_noOverwrite (patterns : List String) (T : node) (S : List (List String))
    (hT : node.Holds T S)
    (hS : ∀ s ∈ S, ∀ p ∈ patterns, Apart s (parsePattern p) = true)
    (hap : (patterns.map parsePattern).Pairwise (fun a b => Apart a b = true)) :
    node.NoOverwrite T patterns = true := by
  induction patterns generalizing T S with
  | nil => rfl
  | cons p rest ih =>
    unfold node.NoOverwrite
    rw [Bool.and_eq_true]
    have hap1 : ∀ s ∈ S, Apart s (parsePattern p) = true :=
      fun s hs => hS s hs p (List.mem_cons_self _ _)
    rw [List.map_cons, List.pairwise_cons] at hap
    refine ⟨(apart_fresh hT (parsePattern p) [] T (node.Path.nil T) (by simpa using hap1)).1, ?_⟩
    refine ih (node.insert.go p (parsePattern p) T) (S ++ [parsePattern p])
      (Holds_insert hT p (parsePattern p) hap1) ?_ hap.2
    intro s hs x hx
    rcases List.mem_append.1 hs with hs | hs
    · exact hS s hs x (List.mem_cons_of_mem _ hx)
    · rw [List.mem_singleton] at hs
      subst hs
      exact hap.1 _ (List.mem_map_of_mem _ hx)

/-- The trie of a method after `addRoute` calls under that method. -/
theorem addRoutes_roots {H : Type} (method : String) (routes : List (String × H))
    (r : router H) (hr : routes ≠ []) :
    GoMap.get (r.addRoutes method routes).roots method =
      some (routes.foldl (fun n ph => node.insert.go ph.1 (parsePattern ph.1) n)
        ((GoMap.get r.roots method).getD
          { pattern := "", part := "", children := [], isWild := false })) := by
  induction routes generalizing r with
  | nil => exact absurd rfl hr
  | cons ph rest ih =>
    unfold router.addRoutes
    rw [List.foldl_cons, List.foldl_cons]
    cases rest with
    | nil =>
      simp only [List.foldl_nil, router.addRoute, GoMap.get_set_self, node.insert,
        List.drop_zero]
    | cons ph2 rest2 =>
      have := ih (r.addRoute method ph.1 ph.2) (by simp)
      unfold router.addRoutes at this
      rw [this]
      simp only [router.addRoute, GoMap.get_set_self, Option.getD_some, node.insert,
        List.drop_zero]

theorem matches_insert (part pattern : String) (parts : List String) (c : node) :
    node.matches part (node.insert.go pattern parts c) = node.matches part c := by
  unfold node.matches
  rw [insert_part, insert_isWild]

theorem find_modifyFirst {p : node → Bool} {f : node → node} {l : List node} {c : node}
    (hf : ∀ x, p (f x) = p x) (hfind : l.find? p = some c) :
    (node.modifyFirst p f l).find? p = some (f c) := by
  induction l with
  | nil => simp at hfind
  | cons a rest ih =>
    unfold node.modifyFirst
    by_cases hp : p a = true
    · rw [if_pos hp]
      rw [List.find?_cons_of_pos _ hp] at hfind
      cases hfind
      rw [List.find?_cons_of_pos _ (by rw [hf]; exact hp)]
    · rw [if_neg hp]
      rw [List.find?_cons_of_neg _ hp] at hfind
      rw [List.find?_cons_of_neg _ hp]
      exact ih hfind

theorem modifyFirst_cons_pos {p : node → Bool} {f : node → node} {a : node} (l : List node)
    (h : p a = true) : node.modifyFirst p f (a :: l) = f a :: l := by
  simp [node.modifyFirst, h]

theorem modifyFirst_cons_neg {p : node → Bool} {f : node → node} {a : node} (l : List node)
    (h : ¬ p a = true) : node.modifyFirst p f (a :: l) = a :: node.modifyFirst p f l := by
  simp [node.modifyFirst, h]

theorem modifyFirst_modifyFirst {p : node → Bool} {f g : node → node} (l : List node)
    (hf : ∀ x, p (f x) = p x) :
    node.modifyFirst p g (node.modifyFirst p f l) = node.modifyFirst p (fun x => g (f x)) l := by
  induction l with
  | nil => rfl
  | cons a rest ih =>
    by_cases hp : p a = true
    · rw [modifyFirst_cons_pos _ hp, modifyFirst_cons_pos _ hp,
        modifyFirst_cons_pos _ (by rw [hf]; exact hp)]
    · rw [modifyFirst_cons_neg _ hp, modifyFirst_cons_neg _ hp, modifyFirst_cons_neg _ hp, ih]

theorem modifyFirst_append_new {p : node → Bool} {f : node → node} {l : List node} {x : node}
    (hnone : l.find? p = none) (hx : p x = true) :
    node.modifyFirst p f (l ++ [x]) = l ++ [f x] ∧ (l ++ [x]).find? p = some x := by
  induction l with
  | nil => simp [node.modifyFirst, hx]
  | cons a rest ih =>
    have hp : ¬ p a = true := by
      intro hpa
      rw [List.find?_cons_of_pos _ hpa] at hnone
      cases hnone
    rw [List.find?_cons_of_neg _ hp] at hnone
    obtain ⟨h1, h2⟩ := ih hnone
    constructor
    · rw [List.cons_append, modifyFirst_cons_neg _ hp, h1, List.cons_append]
    · rw [List.cons_append, List.find?_cons_of_neg _ hp]
      exact h2

theorem insert_go_some (pattern part : String) (rest : List String) {n c : node}
    (h : n.matchChild part = some c) :
    node.insert.go pattern (part :: rest) n =
      { n with children :=
          node.modifyFirst (node.matches part) (node.insert.go pattern rest) n.children } := by
  rw [node.insert.go]
  simp only [h]

theorem insert_go_none (pattern part : String) (rest : List String) {n : node}
    (h : n.matchChild part = none) :
    node.insert.go pattern (part :: rest) n =
      { n with children := n.children ++
          [node.insert.go pattern rest
            { pattern := "", part := part, children := [], isWild := isWildPart part }] } := by
  rw [node.insert.go]
  simp only [h]

/-- A pattern that is registered right after a pattern with the same parts is
stored in the same node and replaces it. -/
theorem insert_insert (p1 p2 : String) (q : List String) (n : node) :
    node.insert.go p2 q (node.insert.go p1 q n) = node.insert.go p2 q n := by
  induction q generalizing n with
  | nil => rfl
  | cons part rest ih =>
    have hfun : (fun x => node.insert.go p2 rest (node.insert.go p1 rest x)) =
        node.insert.go p2 rest := funext (fun x => ih x)
    cases hmc : n.matchChild part with
    | some c =>
      have hfind : (node.insert.go p1 (part :: rest) n).matchChild part =
          some (node.insert.go p1 rest c) := by
        rw [insert_go_some p1 part rest hmc]
        exact find_modifyFirst (f := node.insert.go p1 rest)
          (fun x => matches_insert part p1 rest x) hmc
      rw [insert_go_some p2 part rest hfind, insert_go_some p1 part rest hmc,
        insert_go_some p2 part rest hmc]
      simp only
      rw [modifyFirst_modifyFirst _ (fun x => matches_insert part p1 rest x), hfun]
    | none =>
      have hx : node.matches part (node.insert.go p1 rest
          { pattern := "", part := part, children := [], isWild := isWildPart part }) = true := by
        rw [matches_insert]
        simp [node.matches]
      obtain ⟨m1, m2⟩ := modifyFirst_append_new (f := node.insert.go p2 rest) hmc hx
      have hfind : (node.insert.go p1 (part :: rest) n).matchChild part =
          some (node.insert.go p1 rest
            { pattern := "", part := part, children := [], isWild := isWildPart part }) := by
        rw [insert_go_none p1 part rest hmc]
        exact m2
      rw [insert_go_some p2 part rest hfind, insert_go_none p1 part rest hmc,
        insert_go_none p2 part rest hmc]
      simp only
      rw [m1, ih]

/-- C30, as stated, fails.  Registering /hello/:name and then /hello/b leaves one
node, which carries /hello/b: the insertion of /hello/b descends into the
wildcard child `:name` and overwrites its pattern.  The same happens with the
distinct patterns /a and /a/, which have the same parts, and with /a/:x and
/a/:y. -/
theorem addRoute_overwrites :
    ((((newRouter Unit).addRoute "GET" "/hello/:name" ()).addRoute "GET" "/hello/b"
        ()).getRoutes "GET").map (fun n => n.pattern) = ["/hello/b"] ∧
    ((((newRouter Unit).addRoute "GET" "/a" ()).addRoute "GET" "/a/" ()).getRoutes "GET").map
        (fun n => n.pattern) = ["/a/"] ∧
    ((((newRouter Unit).addRoute "GET" "/a/:x" ()).addRoute "GET" "/a/:y" ()).getRoutes
        "GET").map (fun n => n.pattern) = ["/a/:y"] := by
  decide

/-- C30, amended: for every sequence of `addRoute` calls on a new router under
one method, with patterns that are not empty: when no call of the sequence ends
its insertion at a node that already carries a pattern, `getRoutes(method)`
returns exactly one node per registered pattern, each node carrying that
pattern.  That is the case whenever the sequences of parts of the patterns
differ pairwise and, where a pattern and one registered after it first differ
in a part, the part of the earlier one is no wildcard.  A pattern registered
right after one with the same parts is stored in the same node and replaces it. -/
theorem getRoutes_keeps_patterns {H : Type} (method : String) (routes : List (String × H))
    (hne : ∀ ph ∈ routes, ph.1 ≠ "") :
    (node.NoOverwrite { pattern := "", part := "", children := [], isWild := false }
        (routes.map Prod.fst) = true →
      ((((newRouter H).addRoutes method routes).getRoutes method).map
          (fun n => n.pattern)).Perm (routes.map Prod.fst) ∧
      (((newRouter H).addRoutes method routes).getRoutes method).length = routes.length) ∧
    ((routes.map (fun ph => parsePattern ph.1)).Pairwise (fun a b => Apart a b = true) →
      node.NoOverwrite { pattern := "", part := "", children := [], isWild := false }
        (routes.map Prod.fst) = true) ∧
    (∀ (n : node) (p1 p2 : String) (q : List String),
      node.insert.go p2 q (node.insert.go p1 q n) = node.insert.go p2 q n) := by
  refine ⟨?_, ?_, fun n p1 p2 q => insert_insert p1 p2 q n⟩
  · intro hno
    have hperm : ((((newRouter H).addRoutes method routes).getRoutes method).map
        (fun n => n.pattern)).Perm (routes.map Prod.fst) := by
      unfold router.getRoutes
      by_cases hr : routes = []
      · subst hr
        simp [router.addRoutes, newRouter, GoMap.get]
      · rw [addRoutes_roots method routes _ hr]
        simp only [newRouter, GoMap.get, Option.getD_none]
        have := travel_foldl (routes.map Prod.fst) _
          (by
            intro p hp
            obtain ⟨ph, hph, rfl⟩ := List.mem_map.1 hp
            exact hne ph hph)
          hno
        rw [List.foldl_map] at this
        simpa [travel_patterns, node.travel.children] using this
    refine ⟨hperm, ?_⟩
    have := hperm.length_eq
    simpa using this
  · intro hap
    refine apart_noOverwrite (routes.map Prod.fst) _ [] Holds_empty (by simp) ?_
    rw [List.map_map]
    exact hap

theorem getRoutes_keeps_patterns_witness :
    (∀ ph ∈ testRoutes, ph.1 ≠ "") ∧
    node.NoOverwrite { pattern := "", part := "", children := [], isWild := false }
      (testRoutes.map Prod.fst) = true ∧
    newTestRouter = (newRouter Unit).addRoutes "GET" testRoutes ∧
    ((newTestRouter.getRoutes "GET").map (fun n => n.pattern)).Perm
      ["/", "/hello/:name", "/hello/b/c", "/hi/:name", "/assets/*filepath"] ∧
    (newTestRouter.getRoutes "GET").length = 5 ∧
    ([("/hello/b", ()), ("/hello/:name", ())].map (fun ph => parsePattern ph.1)).Pairwise
      (fun a b => Apart a b = true) ∧
    node.NoOverwrite { pattern := "", part := "", children := [], isWild := false }
      ([("/hello/b", ()), ("/hello/:name", ())].map Prod.fst) = true :=
  ⟨by decide, by decide, rfl,
    ((getRoutes_keeps_patterns "GET" testRoutes (by decide)).1 (by decide)).1,
    ((getRoutes_keeps_patterns "GET" testRoutes (by decide)).1 (by decide)).2,
    by decide,
    (getRoutes_keeps_patterns "GET" [("/hello/b", ()), ("/hello/:name", ())] (by decide)).2.1
      (by decide)⟩

end gee
